import Mathlib

/-!
Sparse utilities of the engine: a shallow embedding.

Embedding of the inlined functions of `src/engine/engine_util_sparse.h`
(`mju_dotSparse`, `mju_compare`, `mj_mergeSorted`), the non-AVX branch of each,
of the constructor, `Solid::Create` and `Solid::Compute` of the solid plugin
(`plugin/elasticity/solid.cc`), and of the dense/sparse conversions, whose
bodies are modelled from the specification.

Conventions.
* A C pointer `const int* p` is a total map `Nat → Int` (unbounded memory); the
  length travels separately, as in the C signatures.
* Lengths and loop counters are natural numbers; the C code uses `int`, every
  counter stays below `n1 + n2` (resp. `nnz1`), assumed representable.
* A loop is a structurally recursive function on a fuel argument that returns
  `none` when the fuel runs out; the callers pass a fuel and the theorems show
  that a result is produced.
* The number type `mjtNum` is a parameter `R` that carries the operations the
  code uses. `F64` is the arithmetic of the type `double`, with its rounding,
  infinities and NaN; the statements on `Solid::Compute` that depend on the
  arithmetic are made over `F64`, or name the law of exact arithmetic they use.
-/

namespace MuJoCo

/-- An `int` array seen through a pointer. -/
abbrev IntArr := Nat → Int

/-- The entries `a[off], ..., a[off + n - 1]`, in order. -/
def readN (a : IntArr) (off : Nat) : Nat → List Int
  | 0 => []
  | n + 1 => a off :: readN a (off + 1) n

/-- An array whose first entries are those of a list (0 beyond it). -/
def ofList (l : List Int) : IntArr := fun i => l.getD i 0

/-- Single store `a[k] = v`. -/
def store (a : IntArr) (k : Nat) (v : Int) : IntArr :=
  fun p => if p = k then v else a p

/-- The libc call `memcpy(dst + dOff, src + sOff, n * sizeof(int))`. -/
def memcpy (dst : IntArr) (dOff : Nat) (src : IntArr) (sOff n : Nat) : IntArr :=
  fun p => if dOff ≤ p ∧ p < dOff + n then src (sOff + (p - dOff)) else dst p

/-- The libc call `memcmp(vec1, vec2, n * sizeof(int))`, at the granularity of
`int` objects (an `int` has no padding bits): zero when the `n` entries agree,
otherwise nonzero, with the sign decided at the first entry that differs. -/
def memcmp (vec1 vec2 : IntArr) : Nat → Nat → Int
  | _, 0 => 0
  | off, n + 1 =>
    if vec1 off = vec2 off then memcmp vec1 vec2 (off + 1) n
    else if vec1 off < vec2 off then -1 else 1

/-- C logical negation `!x` on an `int`. -/
def lnot (x : Int) : Int := if x = 0 then 1 else 0

/-- Source `mju_compare`: return 1 if vec1==vec2, 0 otherwise. -/
def mju_compare (vec1 vec2 : IntArr) (n : Nat) : Int :=
  lnot (memcmp vec1 vec2 0 n)

/-- State of the merge loop of `mj_mergeSorted`: the buffer and `i`, `j`, `k`. -/
structure MergeState where
  merge : IntArr
  i : Nat
  j : Nat
  k : Nat

/-- The loop `while (i < n1 && j < n2) { ... }` of `mj_mergeSorted`. -/
def mergeLoop (chain1 : IntArr) (n1 : Nat) (chain2 : IntArr) (n2 : Nat) :
    Nat → MergeState → Option MergeState
  | fuel, s =>
    if s.i < n1 ∧ s.j < n2 then
      match fuel with
      | 0 => none
      | fuel + 1 =>
        let c1 := chain1 s.i
        let c2 := chain2 s.j
        if c1 < c2 then
          mergeLoop chain1 n1 chain2 n2 fuel ⟨store s.merge s.k c1, s.i + 1, s.j, s.k + 1⟩
        else if c1 > c2 then
          mergeLoop chain1 n1 chain2 n2 fuel ⟨store s.merge s.k c2, s.i, s.j + 1, s.k + 1⟩
        else
          mergeLoop chain1 n1 chain2 n2 fuel ⟨store s.merge s.k c1, s.i + 1, s.j + 1, s.k + 1⟩
    else some s

/-- The block `// copy remaining` of `mj_mergeSorted` and its `return k`. -/
def copyRemaining (chain1 : IntArr) (n1 : Nat) (chain2 : IntArr) (n2 : Nat)
    (s : MergeState) : IntArr × Nat :=
  if s.i < n1 then
    (memcpy s.merge s.k chain1 s.i (n1 - s.i), s.k + (n1 - s.i))
  else if s.j < n2 then
    (memcpy s.merge s.k chain2 s.j (n2 - s.j), s.k + (n2 - s.j))
  else (s.merge, s.k)

/-- The general part of `mj_mergeSorted`, from `int i = 0, j = 0, k = 0;` to
`return k;`: the two-pointer loop followed by the copy of the remaining tail. -/
def mergeGeneral (merge : IntArr) (chain1 : IntArr) (n1 : Nat) (chain2 : IntArr) (n2 : Nat) :
    Option (IntArr × Nat) :=
  (mergeLoop chain1 n1 chain2 n2 (n1 + n2) ⟨merge, 0, 0, 0⟩).map
    (copyRemaining chain1 n1 chain2 n2)

/-- Source `mj_mergeSorted`: merge unique sorted integers. Returns the buffer
after the call and the returned count. -/
def mj_mergeSorted (merge : IntArr) (chain1 : IntArr) (n1 : Nat) (chain2 : IntArr) (n2 : Nat) :
    Option (IntArr × Nat) :=
  if n1 = 0 then
    if n2 = 0 then some (merge, 0)
    else some (memcpy merge 0 chain2 0 n2, n2)
  else if n2 = 0 then some (memcpy merge 0 chain1 0 n1, n1)
  else if n1 = n2 ∧ mju_compare chain1 chain2 n1 ≠ 0 then
    some (memcpy merge 0 chain1 0 n1, n1)
  else mergeGeneral merge chain1 n1 chain2 n2

/-- The entries written by a call: the first `k` entries of the returned buffer. -/
def written (r : Option (IntArr × Nat)) : Option (List Int) :=
  r.map (fun p => readN p.1 0 p.2)

/-- The count returned by a call. -/
def returned (r : Option (IntArr × Nat)) : Option Nat :=
  r.map (fun p => p.2)

/-- Strictly increasing on the first `n` entries. -/
def StrictInc (a : IntArr) (n : Nat) : Prop :=
  ∀ p q, p < q → q < n → a p < a q

/-- State of the unrolled loop of `mju_dotSparse`: `i` and the four partial sums. -/
structure DotState (R : Type) where
  i : Nat
  res0 : R
  res1 : R
  res2 : R
  res3 : R

/-- The loop `for (; i <= n_4; i+=4) { res0 += t(i+0); ...; res3 += t(i+3); }` of
`mju_dotSparse`, where `t p` is the product added at position `p` (the two
branches of the source differ only in that product) and `n_4 = nnz1 - 4` is a
signed `int`. -/
def unrolledLoop {R : Type} [Add R] (t : Nat → R) (n_4 : Int) :
    Nat → DotState R → Option (DotState R)
  | fuel, s =>
    if (s.i : Int) ≤ n_4 then
      match fuel with
      | 0 => none
      | fuel + 1 =>
        unrolledLoop t n_4 fuel
          ⟨s.i + 4, s.res0 + t (s.i + 0), s.res1 + t (s.i + 1),
            s.res2 + t (s.i + 2), s.res3 + t (s.i + 3)⟩
    else some s

/-- The loop `for (; i < nnz1; i++) { res += t(i); }` of `mju_dotSparse`
(the scalar part). -/
def scalarLoop {R : Type} [Add R] (t : Nat → R) (nnz1 : Nat) :
    Nat → Nat → R → Option R
  | fuel, i, res =>
    if i < nnz1 then
      match fuel with
      | 0 => none
      | fuel + 1 => scalarLoop t nnz1 fuel (i + 1) (res + t i)
    else some res

/-- Source `mju_dotSparse` (branch without `mjUSEAVX`): dot-product, first
vector is sparse; `flg_unc1`: is vec1 memory layout uncompressed. The number
type `mjtNum` is a parameter `R`; index arrays hold natural numbers. -/
def mju_dotSparse {R : Type} [Zero R] [Add R] [Mul R]
    (vec1 vec2 : Nat → R) (nnz1 : Nat) (ind1 : Nat → Nat) (flg_unc1 : Int) : Option R :=
  let n_4 : Int := (nnz1 : Int) - 4
  let t : Nat → R :=
    if flg_unc1 ≠ 0 then fun p => vec1 (ind1 p) * vec2 (ind1 p)
    else fun p => vec1 p * vec2 (ind1 p)
  match unrolledLoop t n_4 nnz1 ⟨0, 0, 0, 0, 0⟩ with
  | none => none
  | some s =>
    let res := (s.res0 + s.res2) + (s.res1 + s.res3)
    scalarLoop t nnz1 nnz1 s.i res

/-- The plain left-to-right loop `res = 0; for (i = 0; i < n; i++) res += t(i);`
(the naive sum the unrolled code is compared with). -/
def naiveSum {R : Type} [Zero R] [Add R] (t : Nat → R) (n : Nat) : R :=
  (List.range n).foldl (fun acc i => acc + t i) 0

/-- Reference merge of two lists: the smaller head first, equal heads once. -/
def mergeL : List Int → List Int → List Int
  | [], l2 => l2
  | a :: l1, [] => a :: l1
  | a :: l1, b :: l2 =>
    if a < b then a :: mergeL l1 (b :: l2)
    else if a > b then b :: mergeL (a :: l1) l2
    else a :: mergeL l1 l2
termination_by l1 l2 => l1.length + l2.length

/-- What a run that started with buffer `m0` and `k = k0` has done when it
appended the list `l`: the count, the entries written, and the untouched rest. -/
def Appended (m0 : IntArr) (k0 : Nat) (l : List Int) (r : IntArr × Nat) : Prop :=
  r.2 = k0 + l.length ∧ readN r.1 k0 l.length = l ∧
    (∀ p, p < k0 → r.1 p = m0 p) ∧ (∀ p, r.2 ≤ p → r.1 p = m0 p)

/-- The number of values common to both sequences: the values that occur among
the first `n1` entries of `chain1` and among the first `n2` entries of `chain2`. -/
def commonCount (chain1 : IntArr) (n1 : Nat) (chain2 : IntArr) (n2 : Nat) : Nat :=
  ((readN chain1 0 n1).toFinset ∩ (readN chain2 0 n2).toFinset).card

/-- The dense form of a compressed sparse vector: the zero vector, then
`dense[ind1[i]] = vec1[i]` for `i = 0, ..., nnz1 - 1` (the scatter of
`sparse2dense` for one row). -/
def scatter {R : Type} [Zero R] (vec1 : Nat → R) (ind1 : Nat → Nat) (nnz1 : Nat) : Nat → R :=
  (List.range nnz1).foldl (fun dense i => Function.update dense (ind1 i) (vec1 i)) (fun _ => 0)

/-! ## The number type `mjtNum` as a `double`

`mjtNum` is `double` (`mujoco.h` turns to the `float` functions only under
`mjUSESINGLE`, and `solid.cc` reads its numbers with `strtod`). The functions of
`solid.cc` are written over a type `R` that carries the operations `+`, `-`,
`*`, `/`, the comparison `<` and the constant 0, and no law; `F64` below is the
IEEE 754 binary64 arithmetic (rounding to nearest, ties to even, each operation
rounded on its own), `Rat` is exact arithmetic. -/

/-- A value of the type `double` (IEEE 754 binary64): a NaN, an infinity with
its sign, or the finite number `(-1)^neg * m * 2^e`. The doubles are the values
with `m < 2^53` and `-1074 <= e <= 971`, written with `2^52 <= m` unless
`e = -1074` (subnormal numbers and the two zeros). -/
inductive F64 where
  | nan
  | inf (neg : Bool)
  | fin (neg : Bool) (m : Nat) (e : Int)
  deriving DecidableEq

/-- The number of binary digits of `n` (0 for 0), counted with fuel `fuel`;
`fuel = n` is always enough. -/
def F64.bitLength : Nat → Nat → Nat
  | 0, _ => 0
  | fuel + 1, n => if n = 0 then 0 else F64.bitLength fuel (n / 2) + 1

/-- Rounding to nearest, ties to even, of the exact value `(-1)^neg * n * 2^e`
to a double: the mantissa is cut to 53 bits (fewer below the exponent -1074), a
carry renormalises, a result of `2^1024` or more is an infinity. -/
def F64.round (neg : Bool) (n : Nat) (e : Int) : F64 :=
  if n = 0 then .fin neg 0 (-1074)
  else
    let b : Int := (F64.bitLength n n : Int)
    let s : Int := max (b - 53) (-1074 - e)
    if s ≤ 0 then
      if e + s > 971 then .inf neg else .fin neg (n * 2 ^ (-s).toNat) (e + s)
    else
      let q := n / 2 ^ s.toNat
      let r := n % 2 ^ s.toNat
      let half := 2 ^ (s.toNat - 1)
      let q2 := if half < r ∨ (r = half ∧ q % 2 = 1) then q + 1 else q
      if q2 = 2 ^ 53 then
        if e + s + 1 > 971 then .inf neg else .fin neg (2 ^ 52) (e + s + 1)
      else if e + s > 971 then .inf neg
      else .fin neg q2 (e + s)

/-- The finite number `(-1)^neg * m * 2^e` as an integer multiple of `2^e0`,
for `e0 <= e`. -/
def F64.scaled (neg : Bool) (m : Nat) (e e0 : Int) : Int :=
  (if neg then -1 else 1) * ((m * 2 ^ (e - e0).toNat : Nat) : Int)

/-- The sum of two doubles. -/
def F64.add : F64 → F64 → F64
  | .nan, _ => .nan
  | _, .nan => .nan
  | .inf s1, .inf s2 => if s1 = s2 then .inf s1 else .nan
  | .inf s1, .fin _ _ _ => .inf s1
  | .fin _ _ _, .inf s2 => .inf s2
  | .fin s1 m1 e1, .fin s2 m2 e2 =>
    let e0 := min e1 e2
    let v := F64.scaled s1 m1 e1 e0 + F64.scaled s2 m2 e2 e0
    if v = 0 then .fin (s1 && s2) 0 (-1074)
    else F64.round (decide (v < 0)) v.natAbs e0

/-- The opposite of a double. -/
def F64.neg : F64 → F64
  | .nan => .nan
  | .inf s => .inf (!s)
  | .fin s m e => .fin (!s) m e

/-- The difference of two doubles. -/
def F64.sub (a b : F64) : F64 := F64.add a (F64.neg b)

/-- The product of two doubles. -/
def F64.mul : F64 → F64 → F64
  | .nan, _ => .nan
  | _, .nan => .nan
  | .inf s1, .inf s2 => .inf (xor s1 s2)
  | .inf s1, .fin s2 m2 _ => if m2 = 0 then .nan else .inf (xor s1 s2)
  | .fin s1 m1 _, .inf s2 => if m1 = 0 then .nan else .inf (xor s1 s2)
  | .fin s1 m1 e1, .fin s2 m2 e2 => F64.round (xor s1 s2) (m1 * m2) (e1 + e2)

/-- The quotient of two doubles. The quotient of the mantissas is taken with
110 more bits and a last bit that records a nonzero remainder, then rounded. -/
def F64.div : F64 → F64 → F64
  | .nan, _ => .nan
  | _, .nan => .nan
  | .inf _, .inf _ => .nan
  | .inf s1, .fin s2 _ _ => .inf (xor s1 s2)
  | .fin s1 _ _, .inf s2 => .fin (xor s1 s2) 0 (-1074)
  | .fin s1 m1 e1, .fin s2 m2 e2 =>
    if m2 = 0 then (if m1 = 0 then .nan else .inf (xor s1 s2))
    else
      let q := (m1 * 2 ^ 110) / m2
      let sticky := if (m1 * 2 ^ 110) % m2 = 0 then 0 else 1
      F64.round (xor s1 s2) (2 * q + sticky) (e1 - e2 - 111)

/-- The comparison `a < b` of two doubles: false when one is a NaN, and `-0 < +0`
is false. -/
def F64.blt : F64 → F64 → Bool
  | .nan, _ => false
  | _, .nan => false
  | .inf s1, .inf s2 => s1 && !s2
  | .inf s1, .fin _ _ _ => s1
  | .fin _ _ _, .inf s2 => !s2
  | .fin s1 m1 e1, .fin s2 m2 e2 =>
    decide (F64.scaled s1 m1 e1 (min e1 e2) < F64.scaled s2 m2 e2 (min e1 e2))

instance F64.instZero : Zero F64 := ⟨.fin false 0 (-1074)⟩

instance F64.instOne : One F64 := ⟨.fin false (2 ^ 52) (-52)⟩

instance F64.instAdd : Add F64 := ⟨F64.add⟩

instance F64.instSub : Sub F64 := ⟨F64.sub⟩

instance F64.instMul : Mul F64 := ⟨F64.mul⟩

instance F64.instDiv : Div F64 := ⟨F64.div⟩

instance F64.instLT : LT F64 := ⟨fun a b => F64.blt a b = true⟩

instance F64.instDecidableLT (a b : F64) : Decidable (a < b) :=
  inferInstanceAs (Decidable (F64.blt a b = true))

/-- The double of the natural number `n` (the nearest one). -/
def F64.ofNat (n : Nat) : F64 := F64.round false n 0

/-- The double that the division of the doubles of `p` and `q` gives; for `p`,
`q` below `2^53` it is the double nearest to `p / q`, so that the literal `0.1`
is `F64.ofFrac 1 10`. -/
def F64.ofFrac (p q : Nat) : F64 := F64.div (F64.ofNat p) (F64.ofNat q)

/-- The value is a double in its canonical writing: a NaN, an infinity, or a
finite number with `m < 2^53`, `-1074 <= e <= 971` and `2^52 <= m` unless
`e = -1074`. The operations below return such values only. -/
def F64.IsDouble : F64 → Prop
  | .fin _ m e => m < 2 ^ 53 ∧ -1074 ≤ e ∧ e ≤ 971 ∧ (e ≠ -1074 → 2 ^ 52 ≤ m)
  | _ => True

/-- A double is a zero: `+0` or `-0`. -/
def F64.isZero : F64 → Bool
  | .fin _ m _ => decide (m = 0)
  | _ => false

/-- A double is finite: neither a NaN nor an infinity. -/
def F64.isFinite : F64 → Bool
  | .fin _ _ _ => true
  | _ => false

/-- A double is a NaN. -/
def F64.isNaN : F64 → Bool
  | .nan => true
  | _ => false

/-! ## The solid elasticity plugin (`plugin/elasticity/solid.cc`)

The number type `mjtNum` is a type `R` with the operations of the source and no
law, so that what is proved of `Solid::Compute` holds of the doubles (`F64`) as
of exact arithmetic. An array reached through a pointer of `mjModel` or `mjData`
is a total map from `int` indices, so that `p + off` is `fun i => p (off + i)`.
A `std::vector` is a list. -/

/-- The fields of `mjModel` that `solid.cc` reads (`opt_timestep` is
`m->opt.timestep`). -/
structure mjModel (R : Type) where
  nbody : Int
  body_plugin : Int → Int
  nflex : Int
  flex_dim : Int → Int
  flex_vertadr : Int → Int
  flex_vertnum : Int → Int
  flex_vertbodyid : Int → Int
  flex_elem : Int → Int
  flex_elemdataadr : Int → Int
  flex_elemnum : Int → Int
  flex_edgeadr : Int → Int
  flex_edgenum : Int → Int
  flexedge_length0 : Int → R
  opt_timestep : R

/-- The fields of `mjData` that `solid.cc` reads or writes. -/
structure mjData (R : Type) where
  flexedge_length : Int → R
  flexvert_xpos : Int → R
  qfrc_passive : Int → R

/-- The data members of the class `Solid`. -/
structure Solid (R : Type) where
  i0 : Int
  f0 : Int
  nv : Int
  ne : Int
  damping : R
  elongation : List R
  force : List R
  prev : List R

/-- The call `memcpy(dst.data(), src, sizeof(mjtNum) * n)` on a vector `dst`:
the entries of `dst` at the positions below `n` are replaced by those of `src`. -/
def memcpyVec {R : Type} [Zero R] (dst : List R) (src : Int → R) (n : Nat) : List R :=
  (List.range dst.length).map (fun i => if i < n then src (i : Int) else dst.getD i 0)

/-- The loop `for (int idx = 0; idx < ne; idx++) elongation[idx] = ...;` of
`Solid::Compute`. -/
def elongationLoop {R : Type} [Zero R] [Add R] [Sub R] [Mul R] (deformed ref : Int → R)
    (prev : List R) (kD : R) (ne : Int) (elongation : List R) : List R :=
  (List.range ne.toNat).foldl
    (fun el idx => el.set idx
      (deformed idx * deformed idx - ref idx * ref idx +
        (deformed idx * deformed idx - prev.getD idx 0 * prev.getD idx 0) * kD))
    elongation

/-- Source `Solid::Compute`. The helpers `ComputeForce<Stencil3D>` and
`AddFlexForce` are declared in `elasticity.h`, which is not part of the sources
at hand; they are parameters: `computeForce force elongation m f0 xpos` is the
vector `force` after the first call and `addFlexForce qfrc force m d xpos f0` is
the array `qfrc_passive` after the second (each writes through its first
argument only). Returns the plugin state and the data after the call. -/
def Solid.Compute {R : Type} [Zero R] [Add R] [Sub R] [Mul R] [Div R] [LT R]
    [∀ a b : R, Decidable (a < b)]
    (computeForce : List R → List R → mjModel R → Int → (Int → R) → List R)
    (addFlexForce : (Int → R) → List R → mjModel R → mjData R → (Int → R) → Int → (Int → R))
    (self : Solid R) (m : mjModel R) (d : mjData R) (_inst : Int) : Solid R × mjData R :=
  let kD : R := self.damping / m.opt_timestep
  -- read edge lengths
  let deformed : Int → R := fun i => d.flexedge_length (m.flex_edgeadr self.f0 + i)
  let ref : Int → R := fun i => m.flexedge_length0 (m.flex_edgeadr self.f0 + i)
  -- m->flexedge_length0 is not initialized when the plugin is constructed
  let prev : List R :=
    if self.prev.isEmpty then memcpyVec (List.replicate self.ne.toNat 0) ref self.ne.toNat
    else self.prev
  let elongation := elongationLoop deformed ref prev kD self.ne self.elongation
  -- compute gradient of elastic energy and insert into passive force
  let flex_vertadr := m.flex_vertadr self.f0
  let xpos : Int → R := fun i => d.flexvert_xpos (3 * flex_vertadr + i)
  let force := computeForce self.force elongation m self.f0 xpos
  let qfrc := addFlexForce d.qfrc_passive force m d xpos self.f0
  -- update stored lengths
  let prev : List R := if kD > 0 then memcpyVec prev deformed self.ne.toNat else prev
  ({ self with elongation := elongation, force := force, prev := prev },
    { d with qfrc_passive := qfrc })

/-- A model with one flex of two edges whose rest lengths are 1 and 2 (stored
from address 1); the time step is 1/100. -/
def demoModel : mjModel Rat where
  nbody := 2
  body_plugin := fun _ => 0
  nflex := 1
  flex_dim := fun _ => 3
  flex_vertadr := fun _ => 0
  flex_vertnum := fun _ => 0
  flex_vertbodyid := fun _ => 1
  flex_elem := fun _ => 0
  flex_elemdataadr := fun _ => 0
  flex_elemnum := fun _ => 0
  flex_edgeadr := fun _ => 1
  flex_edgenum := fun _ => 2
  flexedge_length0 := fun i => if i = 1 then 1 else if i = 2 then 2 else 0
  opt_timestep := 1 / 100

/-- Data in which the two edges have the lengths 3 and 5. -/
def demoData : mjData Rat where
  flexedge_length := fun i => if i = 1 then 3 else if i = 2 then 5 else 0
  flexvert_xpos := fun _ => 0
  qfrc_passive := fun _ => 0

/-- The state of a plugin on flex 0 with two edges, before its first `Compute`. -/
def demoSolid (damping : Rat) : Solid Rat where
  i0 := 1
  f0 := 0
  nv := 0
  ne := 2
  damping := damping
  elongation := [0, 0]
  force := []
  prev := []

/-- A model with one flex of two edges whose rest lengths are `l0` and `l1`
(stored from address 1), with the time step `timestep`. -/
def edgeModel {R : Type} [Zero R] (timestep l0 l1 : R) : mjModel R where
  nbody := 2
  body_plugin := fun _ => 0
  nflex := 1
  flex_dim := fun _ => 3
  flex_vertadr := fun _ => 0
  flex_vertnum := fun _ => 0
  flex_vertbodyid := fun _ => 1
  flex_elem := fun _ => 0
  flex_elemdataadr := fun _ => 0
  flex_elemnum := fun _ => 0
  flex_edgeadr := fun _ => 1
  flex_edgenum := fun _ => 2
  flexedge_length0 := fun i => if i = 1 then l0 else if i = 2 then l1 else 0
  opt_timestep := timestep

/-- Data in which the two edges have the lengths `l0` and `l1`. -/
def edgeData {R : Type} [Zero R] (l0 l1 : R) : mjData R where
  flexedge_length := fun i => if i = 1 then l0 else if i = 2 then l1 else 0
  flexvert_xpos := fun _ => 0
  qfrc_passive := fun _ => 0

/-- The state of a plugin on flex 0 with two edges and the damping `damping`,
before its first `Compute`, as the constructor leaves it. -/
def edgeSolid {R : Type} [Zero R] (damping : R) : Solid R where
  i0 := 1
  f0 := 0
  nv := 0
  ne := 2
  damping := damping
  elongation := [0, 0]
  force := []
  prev := []

/-! ## Dense and sparse matrices (`mju_dense2sparse`, `mju_sparse2dense`)

Only the declarations of the two functions are in the sources at hand
(`engine_util_sparse.h`, `mujoco.h`); their bodies are modelled from the
specification. Arrays are total maps from natural indices, a dense `nr x nc`
matrix is stored row by row, entry `(r, c)` at position `r * nc + c`. -/

/-- The output buffers of `mju_dense2sparse` while it runs: the arrays `res`,
`rownnz`, `rowadr`, `colind`, the next free position `adr`, and `full`, set once
a nonzero was met with no room left (the call then returns 1 at once). -/
structure SparseBuf (R : Type) where
  res : Nat → R
  rownnz : Nat → Nat
  rowadr : Nat → Nat
  colind : Nat → Nat
  adr : Nat
  full : Bool

/-- Modelled from the spec: the step of `mju_dense2sparse` at the entry `(r, c)`
(the body of the function is missing): a nonzero is emitted as (value, colind)
at the next free position, unless the buffer of size `nnz` has no room, in
which case the call fails without writing. -/
def dense2sparseEntry {R : Type} [Zero R] [DecidableEq R] (mat : Nat → R) (nc nnz r : Nat)
    (s : SparseBuf R) (c : Nat) : SparseBuf R :=
  if s.full then s
  else if mat (r * nc + c) ≠ 0 then
    if nnz ≤ s.adr then { s with full := true }
    else
      { s with
        res := Function.update s.res s.adr (mat (r * nc + c))
        colind := Function.update s.colind s.adr c
        adr := s.adr + 1
        rownnz := Function.update s.rownnz r (s.rownnz r + 1) }
  else s

/-- Modelled from the spec: the scan of the dense row `r` by `mju_dense2sparse`
(the body of the function is missing): the row starts at the next free
position with no entry, then its entries are visited in increasing column
order. -/
def dense2sparseRow {R : Type} [Zero R] [DecidableEq R] (mat : Nat → R) (nc nnz : Nat)
    (s : SparseBuf R) (r : Nat) : SparseBuf R :=
  if s.full then s
  else
    (List.range nc).foldl (dense2sparseEntry mat nc nnz r)
      { s with
        rownnz := Function.update s.rownnz r 0
        rowadr := Function.update s.rowadr r s.adr }

/-- Modelled from the spec: `mju_dense2sparse` (declared in
`engine_util_sparse.h`, its body is missing): convert matrix from dense to
sparse; `nnz` is the size of `res` and `colind`; return 1 if too small, 0
otherwise. It scans the dense rows in order, emits (value, colind) for the
nonzeros, and fails, returning 1, if the buffer is smaller than the nonzero
count, with no write past the buffer. Returns the buffers and the return code. -/
def mju_dense2sparse {R : Type} [Zero R] [DecidableEq R] (res : Nat → R) (mat : Nat → R)
    (nr nc : Nat) (rownnz rowadr colind : Nat → Nat) (nnz : Nat) : SparseBuf R × Int :=
  let s := (List.range nr).foldl (dense2sparseRow mat nc nnz)
    ⟨res, rownnz, rowadr, colind, 0, false⟩
  (s, if s.full then 1 else 0)

/-- Modelled from the spec: `mju_sparse2dense` (declared in
`engine_util_sparse.h`, its body is missing): convert matrix from sparse to
dense; it zeroes the destination (`nr * nc` entries), then scatters the values
of each row at the `colind` positions. -/
def mju_sparse2dense {R : Type} [Zero R] (res : Nat → R) (mat : Nat → R) (nr nc : Nat)
    (rownnz rowadr colind : Nat → Nat) : Nat → R :=
  (List.range nr).foldl
    (fun dense r =>
      (List.range (rownnz r)).foldl
        (fun dense j => Function.update dense (r * nc + colind (rowadr r + j)) (mat (rowadr r + j)))
        dense)
    (fun p => if p < nr * nc then 0 else res p)

/-- The number of nonzeros among the first `n` entries of a dense array. -/
def nnzCount {R : Type} [Zero R] [DecidableEq R] (mat : Nat → R) (n : Nat) : Nat :=
  ((List.range n).filter (fun p => mat p ≠ 0)).length

/-- Row `r` of the sparse output agrees with the dense row up to column `c`:
each stored value is the dense entry at its column, and each nonzero dense
entry in a column below `c` is stored. -/
def RowStored {R : Type} [Zero R] (mat : Nat → R) (nc : Nat) (s : SparseBuf R) (r c : Nat) :
    Prop :=
  (∀ j, j < s.rownnz r → s.res (s.rowadr r + j) = mat (r * nc + s.colind (s.rowadr r + j))) ∧
  (∀ c2, c2 < c → mat (r * nc + c2) ≠ 0 → ∃ j, j < s.rownnz r ∧ s.colind (s.rowadr r + j) = c2)

/-- The rows below `r` are stored in full, below the free position. -/
def RowsStored {R : Type} [Zero R] (mat : Nat → R) (nc : Nat) (s : SparseBuf R) (r : Nat) :
    Prop :=
  ∀ r2, r2 < r → s.rowadr r2 + s.rownnz r2 ≤ s.adr ∧ RowStored mat nc s r2 nc

/-- Capacity bookkeeping after the first `p` entries of the matrix were
visited: the call has failed exactly if more than `nnz` nonzeros were met, the
free position is the number of nonzeros kept, and nothing was written at a
position `nnz` or beyond. -/
def CapInv {R : Type} [Zero R] [DecidableEq R] (res0 : Nat → R) (colind0 : Nat → Nat)
    (mat : Nat → R) (nnz : Nat) (s : SparseBuf R) (p : Nat) : Prop :=
  (s.full = true ↔ nnz < nnzCount mat p) ∧ s.adr = min (nnzCount mat p) nnz ∧
    ∀ a, nnz ≤ a → s.res a = res0 a ∧ s.colind a = colind0 a

/-- A dense 2 x 2 integer matrix with the rows `0 5` and `7 0`. -/
def demoDense : Nat → Int := fun p => [0, 5, 7, 0].getD p 0

/-- A read of one array entry by `mju_dotSparse`: the array and the position. -/
inductive Read where
  | ind1 (p : Nat)
  | vec1 (p : Nat)
  | vec2 (p : Nat)
  deriving DecidableEq

/-- The read is inside its array, for arrays `ind1`, `vec1`, `vec2` of lengths
`lenInd`, `len1`, `len2`. -/
def Read.InRange (lenInd len1 len2 : Nat) : Read → Prop
  | .ind1 p => p < lenInd
  | .vec1 p => p < len1
  | .vec2 p => p < len2

/-- The reads of the product added at position `p` by `mju_dotSparse`:
`vec1[ind1[p]] * vec2[ind1[p]]` in uncompressed layout, `vec1[p] * vec2[ind1[p]]`
in compressed layout. -/
def termReads (ind1 : Nat → Nat) (flg_unc1 : Int) (p : Nat) : List Read :=
  if flg_unc1 ≠ 0 then [.ind1 p, .vec1 (ind1 p), .ind1 p, .vec2 (ind1 p)]
  else [.vec1 p, .ind1 p, .vec2 (ind1 p)]

/-- The loop `for (; i <= n_4; i+=4)` of `mju_dotSparse`, recording the reads of
its four products instead of adding them: same counter, same test. -/
def unrolledLoopReads (ind1 : Nat → Nat) (flg_unc1 : Int) (n_4 : Int) :
    Nat → Nat → List Read → Option (Nat × List Read)
  | fuel, i, acc =>
    if (i : Int) ≤ n_4 then
      match fuel with
      | 0 => none
      | fuel + 1 =>
        unrolledLoopReads ind1 flg_unc1 n_4 fuel (i + 4)
          (acc ++ termReads ind1 flg_unc1 (i + 0) ++ termReads ind1 flg_unc1 (i + 1) ++
            termReads ind1 flg_unc1 (i + 2) ++ termReads ind1 flg_unc1 (i + 3))
    else some (i, acc)

/-- The loop `for (; i < nnz1; i++)` of `mju_dotSparse` (the scalar part),
recording the reads of its product. -/
def scalarLoopReads (ind1 : Nat → Nat) (flg_unc1 : Int) (nnz1 : Nat) :
    Nat → Nat → List Read → Option (List Read)
  | fuel, i, acc =>
    if i < nnz1 then
      match fuel with
      | 0 => none
      | fuel + 1 =>
        scalarLoopReads ind1 flg_unc1 nnz1 fuel (i + 1) (acc ++ termReads ind1 flg_unc1 i)
    else some acc

/-- The array reads of a call `mju_dotSparse(vec1, vec2, nnz1, ind1, flg_unc1)`,
in order: the function with each product replaced by the record of its reads. -/
def mju_dotSparse_reads (nnz1 : Nat) (ind1 : Nat → Nat) (flg_unc1 : Int) :
    Option (List Read) :=
  let n_4 : Int := (nnz1 : Int) - 4
  match unrolledLoopReads ind1 flg_unc1 n_4 nnz1 0 [] with
  | none => none
  | some (i, acc) => scalarLoopReads ind1 flg_unc1 nnz1 nnz1 i acc

/-! ## The constructor of the solid plugin and `Solid::Create` -/

/-- The ways a construction stops without an object: `mju_error`, which does
not return, and the `std::length_error` of `std::vector::assign` on a
negative count. -/
inductive Fault where
  | mju_error (msg : String)
  | length_error
  deriving DecidableEq

/-- The loop `// count plugin bodies` of the constructor, on the pair
`(nv, i0)`: `for (int i = 1; i < m->nbody; i++) if (m->body_plugin[i] ==
instance) { if (!nv++) i0 = i; }`. The member `i0` has no initialiser:
`i0_init` is its indeterminate value on entry. -/
def countPluginBodies {R : Type} (m : mjModel R) (inst : Int) (i0_init : Int) : Int × Int :=
  (List.range (m.nbody - 1).toNat).foldl
    (fun (st : Int × Int) (k : Nat) =>
      if m.body_plugin (1 + (k : Int)) = inst then
        (st.1 + 1, if st.1 = 0 then 1 + (k : Int) else st.2)
      else st)
    (0, i0_init)

/-- The body of the inner loop of `// count flexes`, on the pair `(f0, nv)`, for
the vertex `j` of the flex `i`. -/
def scanFlexVertex {R : Type} (m : mjModel R) (i0 : Int) (i : Int) (st : Int × Int) (j : Int) :
    Except Fault (Int × Int) :=
  if m.flex_vertbodyid (m.flex_vertadr i + j) = i0 then
    -- f0 = i; nv = m->flex_vertnum[f0];
    if m.flex_dim i ≠ 3 then
      .error (.mju_error "mujoco.elasticity.solid requires a 3D mesh")
    else .ok (i, m.flex_vertnum i)
  else .ok st

/-- The loops `// count flexes` of the constructor, from `f0 = -1` and the
count `nv` of plugin bodies: `for (int i = 0; i < m->nflex; i++) for (int j = 0;
j < m->flex_vertnum[i]; j++) ...`. -/
def scanFlexes {R : Type} (m : mjModel R) (i0 : Int) (nv : Int) : Except Fault (Int × Int) :=
  (List.range m.nflex.toNat).foldlM
    (fun (st : Int × Int) (i : Nat) =>
      (List.range (m.flex_vertnum i).toNat).foldlM
        (fun (st : Int × Int) (j : Nat) => scanFlexVertex m i0 i st j) st)
    (-1, nv)

/-- The body of the inner loop of `// loop over all tetrahedra`: the vertex `i`
of the element `t` of the flex `f0` is attached to the body `bi`. -/
def elementBody {R : Type} (m : mjModel R) (f0 : Int) (t i : Nat) : Int :=
  m.flex_vertbodyid (m.flex_vertadr f0 +
    m.flex_elem (m.flex_elemdataadr f0 + ((m.flex_dim f0 + 1) * (t : Int) + (i : Int))))

/-- The loops `// loop over all tetrahedra` of the constructor.
`Stencil3D::kNumVerts` is declared in `elasticity.h`, which is not part of the
sources at hand; it is the parameter `kNumVerts`. -/
def checkElements {R : Type} (m : mjModel R) (inst : Int) (kNumVerts : Nat) (f0 : Int) :
    Except Fault Unit :=
  (List.range (m.flex_elemnum f0).toNat).foldlM
    (fun (_ : Unit) (t : Nat) =>
      (List.range kNumVerts).foldlM
        (fun (_ : Unit) (i : Nat) =>
          if elementBody m f0 t i ≠ 0 ∧ m.body_plugin (elementBody m f0 t i) ≠ inst then
            .error (.mju_error "Body %d does not have plugin instance %d")
          else .ok ())
        ())
    ()

/-- Source `Solid::Solid`, the plugin constructor (named `new`, the name
`Solid.Solid` would hide the structure). Returns the object or the fault that
stopped the construction. `kNumVerts` and `i0_init` are explained at
`checkElements` and `countPluginBodies`. -/
def Solid.new {R : Type} [Zero R] (kNumVerts : Nat) (i0_init : Int)
    (m : mjModel R) (_d : mjData R) (inst : Int) (_nu _E damp : R) : Except Fault (Solid R) :=
  -- : f0(-1), damping(damp);  nv = ne = 0;
  let c := countPluginBodies m inst i0_init
  match scanFlexes m c.2 c.1 with
  | .error e => .error e
  | .ok st =>
    match checkElements m inst kNumVerts st.1 with
    | .error e => .error e
    | .ok _ =>
      -- allocate array
      let ne := m.flex_edgenum st.1
      if ne < 0 ∨ 3 * st.2 < 0 then .error .length_error
      else
        .ok { i0 := c.2, f0 := st.1, nv := st.2, ne := ne, damping := damp
              elongation := List.replicate ne.toNat 0
              force := List.replicate (3 * st.2).toNat 0
              prev := [] }

/-- What `Solid::Create` gives back: the warnings it emitted and the optional
object, or the fault raised by the constructor. -/
structure Created (R : Type) where
  warnings : List String
  value : Except Fault (Option (Solid R))

/-- Source `Solid::Create`, the factory function. `CheckAttr` (declared in
`elasticity.h`), `mj_getPluginConfig` and `strtod` are not part of the sources
at hand; they are parameters. -/
def Solid.Create {R : Type} [Zero R] (kNumVerts : Nat) (i0_init : Int)
    (CheckAttr : String → mjModel R → Int → Bool)
    (mj_getPluginConfig : mjModel R → Int → String → String) (strtod : String → R)
    (m : mjModel R) (d : mjData R) (inst : Int) : Created R :=
  if CheckAttr "face" m inst && CheckAttr "edge" m inst &&
      CheckAttr "poisson" m inst && CheckAttr "young" m inst then
    let nu := strtod (mj_getPluginConfig m inst "poisson")
    let E := strtod (mj_getPluginConfig m inst "young")
    let damp := strtod (mj_getPluginConfig m inst "damping")
    { warnings := []
      value := (Solid.new kNumVerts i0_init m d inst nu E damp).map some }
  else
    { warnings := ["Invalid parameter specification in solid plugin"]
      value := .ok none }

/-- Some vertex `j` of the flex `i` is attached to the body `i0`. -/
def Attached {R : Type} (m : mjModel R) (i0 : Int) (i : Nat) : Prop :=
  ∃ j : Nat, j < (m.flex_vertnum i).toNat ∧ m.flex_vertbodyid (m.flex_vertadr i + j) = i0

/-- The index `f0` is the largest flex index having at least one vertex attached
to the body `i0`, or -1 if no flex has such a vertex. -/
def IsLastFlex {R : Type} (m : mjModel R) (i0 : Int) (f0 : Int) : Prop :=
  (f0 = -1 ∧ ∀ i : Nat, i < m.nflex.toNat → ¬ Attached m i0 i) ∨
  (∃ i : Nat, f0 = i ∧ i < m.nflex.toNat ∧ Attached m i0 i ∧
    ∀ i2 : Nat, i2 < m.nflex.toNat → Attached m i0 i2 → i2 ≤ i)

/-- Some vertex of some element of the flex `f0` is attached to a body `bi != 0`
with `body_plugin[bi] != instance`. -/
def ForeignBody {R : Type} (m : mjModel R) (inst : Int) (kNumVerts : Nat) (f0 : Int) : Prop :=
  ∃ t : Nat, t < (m.flex_elemnum f0).toNat ∧ ∃ i : Nat, i < kNumVerts ∧
    elementBody m f0 t i ≠ 0 ∧ m.body_plugin (elementBody m f0 t i) ≠ inst

/-- A model with the bodies 1 and 2 carrying the plugin instance 0 and one 3D
flex of four vertices, attached to the bodies 1, 1, 0 (world) and 2, with one
tetrahedron and two edges. -/
def demoFlexModel : mjModel Rat where
  nbody := 3
  body_plugin := fun i => if i = 1 ∨ i = 2 then 0 else -1
  nflex := 1
  flex_dim := fun _ => 3
  flex_vertadr := fun _ => 0
  flex_vertnum := fun _ => 4
  flex_vertbodyid := fun p => if p = 2 then 0 else if p = 3 then 2 else 1
  flex_elem := fun p => p
  flex_elemdataadr := fun _ => 0
  flex_elemnum := fun _ => 1
  flex_edgeadr := fun _ => 0
  flex_edgenum := fun _ => 2
  flexedge_length0 := fun _ => 1
  opt_timestep := 1 / 100

/-- A model without any body other than the world. -/
def demoEmptyModel : mjModel Rat where
  nbody := 1
  body_plugin := fun _ => -1
  nflex := 0
  flex_dim := fun _ => 3
  flex_vertadr := fun _ => 0
  flex_vertnum := fun _ => 0
  flex_vertbodyid := fun _ => 0
  flex_elem := fun _ => 0
  flex_elemdataadr := fun _ => 0
  flex_elemnum := fun _ => 0
  flex_edgeadr := fun _ => 0
  flex_edgenum := fun _ => 0
  flexedge_length0 := fun _ => 0
  opt_timestep := 1 / 100

/-- Some flex having a vertex attached to the body `i0` has `flex_dim != 3`. -/
def NotThreeD {R : Type} (m : mjModel R) (i0 : Int) : Prop :=
  ∃ i : Nat, i < m.nflex.toNat ∧ Attached m i0 i ∧ m.flex_dim i ≠ 3

/-- The index `i0` is the smallest body index `i >= 1` with
`body_plugin[i] == instance`. -/
def IsFirstPluginBody {R : Type} (m : mjModel R) (inst : Int) (i0 : Int) : Prop :=
  1 ≤ i0 ∧ i0 < m.nbody ∧ m.body_plugin i0 = inst ∧
    ∀ i : Int, 1 ≤ i → i < m.nbody → m.body_plugin i = inst → i0 ≤ i

/-! ## Concrete runs -/

example : written (mj_mergeSorted (fun _ => 0) (ofList [1,3,5]) 3 (ofList [2,3,4]) 3)
    = some [1,2,3,4,5] := by decide
example : returned (mj_mergeSorted (fun _ => 0) (ofList [1,3,5]) 3 (ofList [2,3,4]) 3)
    = some 5 := by decide
example : written (mj_mergeSorted (fun _ => 0) (ofList [1,1]) 2 (ofList [2]) 1)
    = some [1,1,2] := by decide
example : mju_dotSparse (fun i => [2, 3, 5, 7, 11, 13].getD i (0 : Int))
    (fun i => [1, 2, 3, 4, 5, 6, 7, 8].getD i 0) 6 (fun i => [0, 2, 3, 5, 6, 7].getD i 0) 0
    = some (2*1 + 3*3 + 5*4 + 7*6 + 11*7 + 13*8) := by decide
example : mju_dotSparse (fun i => [2, 3].getD i (0 : Int))
    (fun i => [5, 7].getD i 0) 1 (fun i => [1].getD i 0) 0 = some 14 := by decide

/-! The doubles: `0.1` is `0x3FB999999999999A`, `0.1 + 0.2` is
`0.30000000000000004` and not the double `0.3`, `1 / 0` is `+inf`, `0 / 0` is a
NaN, which is not greater than 0, and `2^1023 * 2` overflows. -/

example : F64.ofFrac 1 10 = F64.fin false 0x1999999999999A (-56) := by
  set_option maxRecDepth 1000000 in decide
example : F64.ofFrac 1 10 + F64.ofFrac 2 10 = F64.fin false 5404319552844596 (-54) ∧
    F64.ofFrac 3 10 = F64.fin false 5404319552844595 (-54) := by
  set_option maxRecDepth 1000000 in decide
example : (1 : F64) / 0 = F64.inf false ∧ (0 : F64) / 0 = F64.nan ∧
    ¬ (0 : F64) < (0 : F64) / 0 := by
  set_option maxRecDepth 1000000 in decide
example : F64.fin false (2 ^ 52) 971 * F64.ofNat 2 = F64.inf false := by
  set_option maxRecDepth 1000000 in decide

/-! ## Reading and writing arrays -/

theorem readN_length (a : IntArr) (off n : Nat) : (readN a off n).length = n := by
  induction n generalizing off with
  | zero => rfl
  | succ n ih => simp [readN, ih]

theorem readN_congr (a b : IntArr) (off off2 n : Nat)
    (h : ∀ t, t < n → a (off + t) = b (off2 + t)) : readN a off n = readN b off2 n := by
  induction n generalizing off off2 with
  | zero => rfl
  | succ n ih =>
    have h0 := h 0 (Nat.succ_pos n)
    simp only [Nat.add_zero] at h0
    simp only [readN, h0]
    congr 1
    apply ih
    intro t ht
    have := h (t + 1) (by omega)
    rw [show off + 1 + t = off + (t + 1) by omega, show off2 + 1 + t = off2 + (t + 1) by omega]
    exact this

theorem readN_append (a : IntArr) (off m n : Nat) :
    readN a off (m + n) = readN a off m ++ readN a (off + m) n := by
  induction m generalizing off with
  | zero => simp [readN]
  | succ m ih =>
    rw [show m + 1 + n = (m + n) + 1 by omega]
    simp only [readN, List.cons_append, ih]
    rw [show off + 1 + m = off + (m + 1) by omega]

theorem readN_succ_last (a : IntArr) (off n : Nat) :
    readN a off (n + 1) = readN a off n ++ [a (off + n)] := by
  rw [readN_append]; rfl

theorem mem_readN (a : IntArr) (off n : Nat) (x : Int) :
    x ∈ readN a off n ↔ ∃ t, t < n ∧ a (off + t) = x := by
  induction n generalizing off with
  | zero => simp [readN]
  | succ n ih =>
    simp only [readN, List.mem_cons, ih]
    constructor
    · rintro (h | ⟨t, ht, h⟩)
      · exact ⟨0, by omega, by simpa using h.symm⟩
      · exact ⟨t + 1, by omega, by rw [← h]; congr 1; omega⟩
    · rintro ⟨t, ht, h⟩
      cases t with
      | zero => left; simpa using h.symm
      | succ t => right; exact ⟨t, by omega, by rw [← h]; congr 1; omega⟩

theorem pairwise_readN (a : IntArr) (off n : Nat) :
    (readN a off n).Pairwise (· < ·) ↔ ∀ p q, p < q → q < n → a (off + p) < a (off + q) := by
  induction n generalizing off with
  | zero => simp [readN]
  | succ n ih =>
    simp only [readN, List.pairwise_cons, ih, mem_readN]
    constructor
    · rintro ⟨h1, h2⟩ p q hpq hq
      cases p with
      | zero =>
        obtain ⟨q, rfl⟩ : ∃ r, q = r + 1 := ⟨q - 1, by omega⟩
        have := h1 (a (off + 1 + q)) ⟨q, by omega, rfl⟩
        simpa [show off + (q + 1) = off + 1 + q by omega] using this
      | succ p =>
        obtain ⟨q, rfl⟩ : ∃ r, q = r + 1 := ⟨q - 1, by omega⟩
        have := h2 p q (by omega) (by omega)
        simpa [show off + (q + 1) = off + 1 + q by omega,
          show off + (p + 1) = off + 1 + p by omega] using this
    · intro h
      refine ⟨?_, ?_⟩
      · rintro x ⟨t, ht, rfl⟩
        have := h 0 (t + 1) (by omega) (by omega)
        simpa [show off + (t + 1) = off + 1 + t by omega] using this
      · intro p q hpq hq
        have := h (p + 1) (q + 1) (by omega) (by omega)
        simpa [show off + (q + 1) = off + 1 + q by omega,
          show off + (p + 1) = off + 1 + p by omega] using this

theorem strictInc_iff (a : IntArr) (n : Nat) :
    StrictInc a n ↔ (readN a 0 n).Pairwise (· < ·) := by
  rw [pairwise_readN]; simp [StrictInc]

theorem readN_ofList (l : List Int) : readN (ofList l) 0 l.length = l := by
  apply List.ext_getElem
  · simp [readN_length]
  · intro i h1 h2
    have : ∀ (a : IntArr) (off n i : Nat) (h : i < (readN a off n).length),
        (readN a off n)[i] = a (off + i) := by
      intro a off n
      induction n generalizing off with
      | zero => intro i h; simp [readN] at h
      | succ n ih =>
        intro i h
        cases i with
        | zero => simp [readN]
        | succ i =>
          simp only [readN, List.getElem_cons_succ]
          rw [ih]; congr 1; omega
    rw [this]
    simp [ofList, List.getD_eq_getElem?_getD, List.getElem?_eq_getElem h2]

/-! ## The reference merge on lists -/

theorem mergeL_nil_left (l : List Int) : mergeL [] l = l := by
  rw [mergeL]

theorem mergeL_nil_right (l : List Int) : mergeL l [] = l := by
  cases l <;> rw [mergeL]

theorem mergeL_cons_cons (a b : Int) (l1 l2 : List Int) :
    mergeL (a :: l1) (b :: l2) =
      if a < b then a :: mergeL l1 (b :: l2)
      else if a > b then b :: mergeL (a :: l1) l2
      else a :: mergeL l1 l2 := by
  rw [mergeL]

theorem mem_mergeL (x : Int) (l1 l2 : List Int) :
    x ∈ mergeL l1 l2 ↔ x ∈ l1 ∨ x ∈ l2 := by
  induction l1, l2 using mergeL.induct with
  | case1 l2 => simp [mergeL_nil_left]
  | case2 a l1 => simp [mergeL_nil_right]
  | case3 a l1 b l2 h ih =>
    rw [mergeL_cons_cons, if_pos h]
    simp only [List.mem_cons, ih]
    tauto
  | case4 a l1 b l2 h1 h2 ih =>
    rw [mergeL_cons_cons, if_neg h1, if_pos h2]
    simp only [List.mem_cons, ih]
    tauto
  | case5 a l1 b l2 h1 h2 ih =>
    have hab : a = b := by omega
    subst hab
    rw [mergeL_cons_cons, if_neg h1, if_neg h2]
    simp only [List.mem_cons, ih]
    tauto

theorem mergeL_self (l : List Int) : mergeL l l = l := by
  induction l with
  | nil => rw [mergeL]
  | cons a l ih => rw [mergeL_cons_cons]; simp [ih]

theorem pairwise_mergeL (l1 l2 : List Int)
    (h1 : l1.Pairwise (· < ·)) (h2 : l2.Pairwise (· < ·)) :
    (mergeL l1 l2).Pairwise (· < ·) := by
  induction l1, l2 using mergeL.induct with
  | case1 l2 => simpa [mergeL_nil_left] using h2
  | case2 a l1 => simpa [mergeL_nil_right] using h1
  | case3 a l1 b l2 h ih =>
    rw [mergeL_cons_cons, if_pos h]
    rw [List.pairwise_cons] at h1 h2 ⊢
    refine ⟨?_, ih h1.2 (List.pairwise_cons.2 h2)⟩
    intro x hx
    rw [mem_mergeL, List.mem_cons] at hx
    rcases hx with hx | rfl | hx
    · exact h1.1 x hx
    · exact h
    · exact lt_trans h (h2.1 x hx)
  | case4 a l1 b l2 hlt h ih =>
    rw [mergeL_cons_cons, if_neg hlt, if_pos h]
    rw [List.pairwise_cons] at h1 h2 ⊢
    refine ⟨?_, ih (List.pairwise_cons.2 h1) h2.2⟩
    intro x hx
    rw [mem_mergeL, List.mem_cons] at hx
    rcases hx with (rfl | hx) | hx
    · exact h
    · exact lt_trans h (h1.1 x hx)
    · exact h2.1 x hx
  | case5 a l1 b l2 hlt hgt ih =>
    have hab : a = b := by omega
    subst hab
    rw [mergeL_cons_cons, if_neg hlt, if_neg hgt]
    rw [List.pairwise_cons] at h1 h2 ⊢
    refine ⟨?_, ih h1.2 h2.2⟩
    intro x hx
    rw [mem_mergeL] at hx
    rcases hx with hx | hx
    · exact h1.1 x hx
    · exact h2.1 x hx

/-! ## The merge loop refines the reference merge -/

theorem appended_cons (m0 : IntArr) (k0 : Nat) (c : Int) (l : List Int) (r : IntArr × Nat)
    (h : Appended (store m0 k0 c) (k0 + 1) l r) : Appended m0 k0 (c :: l) r := by
  obtain ⟨h1, h2, h3, h4⟩ := h
  refine ⟨by simp [h1]; omega, ?_, ?_, ?_⟩
  · simp only [List.length_cons, readN, h2]
    rw [h3 k0 (by omega)]
    simp [store]
  · intro p hp
    rw [h3 p (by omega)]
    simp [store, Nat.ne_of_lt hp]
  · intro p hp
    rw [h4 p hp]
    have : p ≠ k0 := by omega
    simp [store, this]

theorem appended_memcpy (m0 : IntArr) (k0 : Nat) (src : IntArr) (off n : Nat) :
    Appended m0 k0 (readN src off n) (memcpy m0 k0 src off n, k0 + n) := by
  refine ⟨by simp [readN_length], ?_, ?_, ?_⟩
  · rw [readN_length]
    apply readN_congr
    intro t ht
    simp [memcpy, ht]
  · intro p hp
    simp [memcpy, Nat.not_le.2 hp]
  · intro p hp
    have : ¬ p < k0 + n := by simpa using hp
    simp [memcpy, this]

theorem appended_nil (m0 : IntArr) (k0 : Nat) : Appended m0 k0 [] (m0, k0) := by
  simp [Appended, readN]

theorem readN_uncons (a : IntArr) (i n : Nat) (h : i < n) :
    readN a i (n - i) = a i :: readN a (i + 1) (n - (i + 1)) := by
  rw [show n - i = (n - (i + 1)) + 1 by omega]; rfl

theorem mergeLoop_spec (chain1 : IntArr) (n1 : Nat) (chain2 : IntArr) (n2 : Nat) :
    ∀ (fuel : Nat) (s : MergeState), s.i ≤ n1 → s.j ≤ n2 →
      (n1 - s.i) + (n2 - s.j) ≤ fuel →
      ∃ s2, mergeLoop chain1 n1 chain2 n2 fuel s = some s2 ∧
        Appended s.merge s.k
          (mergeL (readN chain1 s.i (n1 - s.i)) (readN chain2 s.j (n2 - s.j)))
          (copyRemaining chain1 n1 chain2 n2 s2) := by
  intro fuel
  induction fuel with
  | zero =>
    intro s hi hj hf
    have h1 : s.i = n1 := by omega
    have h2 : s.j = n2 := by omega
    refine ⟨s, by unfold mergeLoop; simp [h1], ?_⟩
    simp only [copyRemaining, h1, h2, Nat.lt_irrefl, if_false, Nat.sub_self, readN,
      mergeL_nil_left]
    exact appended_nil _ _
  | succ fuel ih =>
    intro s hi hj hf
    by_cases hc : s.i < n1 ∧ s.j < n2
    · obtain ⟨hc1, hc2⟩ := hc
      rw [readN_uncons chain1 s.i n1 hc1, readN_uncons chain2 s.j n2 hc2, mergeL_cons_cons]
      unfold mergeLoop
      simp only [hc1, hc2, and_self, if_true]
      by_cases hlt : chain1 s.i < chain2 s.j
      · simp only [hlt, if_true]
        obtain ⟨s2, hs2, hA⟩ := ih ⟨store s.merge s.k (chain1 s.i), s.i + 1, s.j, s.k + 1⟩
          (by simpa using hc1) hj (by simp; omega)
        refine ⟨s2, hs2, appended_cons _ _ _ _ _ ?_⟩
        simpa [readN_uncons chain2 s.j n2 hc2] using hA
      · by_cases hgt : chain1 s.i > chain2 s.j
        · simp only [hlt, hgt, if_true, if_false]
          obtain ⟨s2, hs2, hA⟩ := ih ⟨store s.merge s.k (chain2 s.j), s.i, s.j + 1, s.k + 1⟩
            hi (by simpa using hc2) (by simp; omega)
          refine ⟨s2, hs2, appended_cons _ _ _ _ _ ?_⟩
          simpa [readN_uncons chain1 s.i n1 hc1] using hA
        · simp only [hlt, hgt, if_false]
          obtain ⟨s2, hs2, hA⟩ := ih ⟨store s.merge s.k (chain1 s.i), s.i + 1, s.j + 1, s.k + 1⟩
            (by simpa using hc1) (by simpa using hc2) (by simp; omega)
          exact ⟨s2, hs2, appended_cons _ _ _ _ _ (by simpa using hA)⟩
    · refine ⟨s, by unfold mergeLoop; simp [hc], ?_⟩
      by_cases h1 : s.i < n1
      · have h2 : s.j = n2 := by
          have : ¬ s.j < n2 := fun h => hc ⟨h1, h⟩
          omega
        simp only [copyRemaining, h1, if_true, h2, Nat.sub_self, readN, mergeL_nil_right]
        exact appended_memcpy _ _ _ _ _
      · have h1e : s.i = n1 := by omega
        simp only [copyRemaining, h1, if_false, h1e, Nat.sub_self, readN, mergeL_nil_left]
        by_cases h2 : s.j < n2
        · simp only [h2, if_true, Nat.lt_irrefl, if_false]
          exact appended_memcpy _ _ _ _ _
        · have h2e : s.j = n2 := by omega
          simp only [h2e, Nat.lt_irrefl, if_false, Nat.sub_self, readN]
          exact appended_nil _ _

/-! ## Comparison of arrays -/

theorem memcmp_eq_zero_iff (vec1 vec2 : IntArr) (off n : Nat) :
    memcmp vec1 vec2 off n = 0 ↔ ∀ t, t < n → vec1 (off + t) = vec2 (off + t) := by
  induction n generalizing off with
  | zero => simp [memcmp]
  | succ n ih =>
    unfold memcmp
    by_cases h : vec1 off = vec2 off
    · simp only [h, if_true, ih]
      constructor
      · intro H t ht
        cases t with
        | zero => simpa using h
        | succ t =>
          have := H t (by omega)
          rwa [show off + 1 + t = off + (t + 1) by omega] at this
      · intro H t ht
        have := H (t + 1) (by omega)
        rwa [show off + (t + 1) = off + 1 + t by omega] at this
    · simp only [h, if_false]
      constructor
      · intro H
        split at H <;> simp at H
      · intro H
        exact absurd (by simpa using H 0 (by omega)) h

theorem mju_compare_eq_one_iff (vec1 vec2 : IntArr) (n : Nat) :
    mju_compare vec1 vec2 n = 1 ↔ ∀ i, i < n → vec1 i = vec2 i := by
  unfold mju_compare lnot
  rw [← show (∀ t, t < n → vec1 (0 + t) = vec2 (0 + t)) ↔ ∀ i, i < n → vec1 i = vec2 i by simp,
    ← memcmp_eq_zero_iff]
  split <;> simp [*]

theorem mju_compare_eq_zero_iff (vec1 vec2 : IntArr) (n : Nat) :
    mju_compare vec1 vec2 n = 0 ↔ ¬ ∀ i, i < n → vec1 i = vec2 i := by
  rw [← mju_compare_eq_one_iff]
  unfold mju_compare lnot
  split <;> simp

theorem mju_compare_ne_zero_iff (vec1 vec2 : IntArr) (n : Nat) :
    mju_compare vec1 vec2 n ≠ 0 ↔ ∀ i, i < n → vec1 i = vec2 i := by
  rw [Ne, mju_compare_eq_zero_iff, not_not]

/-! ## The whole of `mj_mergeSorted` refines the reference merge -/

theorem mergeGeneral_spec (merge chain1 : IntArr) (n1 : Nat) (chain2 : IntArr) (n2 : Nat) :
    ∃ r, mergeGeneral merge chain1 n1 chain2 n2 = some r ∧
      Appended merge 0 (mergeL (readN chain1 0 n1) (readN chain2 0 n2)) r := by
  obtain ⟨s2, hs2, hA⟩ := mergeLoop_spec chain1 n1 chain2 n2 (n1 + n2) ⟨merge, 0, 0, 0⟩
    (Nat.zero_le _) (Nat.zero_le _) (by simp)
  exact ⟨copyRemaining chain1 n1 chain2 n2 s2, by simp [mergeGeneral, hs2], by simpa using hA⟩

theorem mj_mergeSorted_spec (merge chain1 : IntArr) (n1 : Nat) (chain2 : IntArr) (n2 : Nat) :
    ∃ r, mj_mergeSorted merge chain1 n1 chain2 n2 = some r ∧
      Appended merge 0 (mergeL (readN chain1 0 n1) (readN chain2 0 n2)) r := by
  unfold mj_mergeSorted
  by_cases h1 : n1 = 0
  · subst h1
    by_cases h2 : n2 = 0
    · subst h2
      exact ⟨(merge, 0), by simp, by simpa [readN, mergeL_nil_left] using appended_nil merge 0⟩
    · refine ⟨(memcpy merge 0 chain2 0 n2, n2), by simp [h2], ?_⟩
      simpa [readN, mergeL_nil_left] using appended_memcpy merge 0 chain2 0 n2
  · by_cases h2 : n2 = 0
    · subst h2
      refine ⟨(memcpy merge 0 chain1 0 n1, n1), by simp [h1], ?_⟩
      simpa [readN, mergeL_nil_right] using appended_memcpy merge 0 chain1 0 n1
    · by_cases h3 : n1 = n2 ∧ mju_compare chain1 chain2 n1 ≠ 0
      · refine ⟨(memcpy merge 0 chain1 0 n1, n1), by rw [if_neg h1, if_neg h2, if_pos h3], ?_⟩
        obtain ⟨hn, hc⟩ := h3
        rw [mju_compare_ne_zero_iff] at hc
        have : readN chain2 0 n2 = readN chain1 0 n1 := by
          rw [← hn]
          exact readN_congr _ _ _ _ _ (fun t ht => by simpa using (hc t ht).symm)
        rw [this, mergeL_self]
        simpa using appended_memcpy merge 0 chain1 0 n1
      · simp only [h1, h2, h3, if_false]
        exact mergeGeneral_spec merge chain1 n1 chain2 n2

theorem appended_written (m0 : IntArr) (l : List Int) (r : IntArr × Nat)
    (h : Appended m0 0 l r) : readN r.1 0 r.2 = l ∧ r.2 = l.length := by
  obtain ⟨h1, h2, -, -⟩ := h
  simp only [Nat.zero_add] at h1
  rw [h1]
  exact ⟨h2, rfl⟩

theorem mj_mergeSorted_eq (merge chain1 : IntArr) (n1 : Nat) (chain2 : IntArr) (n2 : Nat) :
    ∃ m, mj_mergeSorted merge chain1 n1 chain2 n2 =
        some (m, (mergeL (readN chain1 0 n1) (readN chain2 0 n2)).length) ∧
      readN m 0 (mergeL (readN chain1 0 n1) (readN chain2 0 n2)).length =
        mergeL (readN chain1 0 n1) (readN chain2 0 n2) := by
  obtain ⟨⟨m, k⟩, hr, hA⟩ := mj_mergeSorted_spec merge chain1 n1 chain2 n2
  obtain ⟨hw, hk⟩ := appended_written _ _ _ hA
  simp only at hw hk
  subst hk
  exact ⟨m, hr, hw⟩

/-! ## Claims on `mj_mergeSorted` and `mju_compare` -/

/-- C1: for strictly increasing `chain1` (length `n1`) and `chain2` (length `n2`),
`mj_mergeSorted` returns, and the first `k` entries of the buffer, `k` the
returned count, are strictly increasing; so no value occurs twice among them. -/
theorem mj_mergeSorted_strictInc (merge chain1 : IntArr) (n1 : Nat) (chain2 : IntArr) (n2 : Nat)
    (h1 : StrictInc chain1 n1) (h2 : StrictInc chain2 n2) :
    ∃ m k, mj_mergeSorted merge chain1 n1 chain2 n2 = some (m, k) ∧
      StrictInc m k ∧ (readN m 0 k).Nodup := by
  obtain ⟨m, hr, hw⟩ := mj_mergeSorted_eq merge chain1 n1 chain2 n2
  have hp : (readN m 0 (mergeL (readN chain1 0 n1) (readN chain2 0 n2)).length).Pairwise
      (· < ·) := by
    rw [hw]
    exact pairwise_mergeL _ _ ((strictInc_iff _ _).1 h1) ((strictInc_iff _ _).1 h2)
  exact ⟨m, _, hr, (strictInc_iff _ _).2 hp, hp.imp (fun h => ne_of_lt h)⟩

/-- Witness of C1 on the chains `[1,3,5]` and `[2,3,4]`. -/
theorem mj_mergeSorted_strictInc_witness :
    StrictInc (ofList [1, 3, 5]) 3 ∧ StrictInc (ofList [2, 3, 4]) 3 ∧
      ∃ m k, mj_mergeSorted (fun _ => 0) (ofList [1, 3, 5]) 3 (ofList [2, 3, 4]) 3 = some (m, k) ∧
        StrictInc m k ∧ (readN m 0 k).Nodup :=
  ⟨(strictInc_iff _ _).2 (by decide), (strictInc_iff _ _).2 (by decide),
    mj_mergeSorted_strictInc (fun _ => 0) (ofList [1, 3, 5]) 3 (ofList [2, 3, 4]) 3
      ((strictInc_iff _ _).2 (by decide)) ((strictInc_iff _ _).2 (by decide))⟩

/-- C2: `mj_mergeSorted` returns, and an integer occurs among the `k` entries it
wrote if and only if it occurs in `chain1` (first `n1` entries) or in `chain2`
(first `n2` entries); merging `[1,3,5]` with `[2,3,4]` writes `[1,2,3,4,5]` and
returns 5. The sortedness of the inputs is not needed for this part. -/
theorem mj_mergeSorted_union (merge chain1 : IntArr) (n1 : Nat) (chain2 : IntArr) (n2 : Nat) :
    (∃ m k, mj_mergeSorted merge chain1 n1 chain2 n2 = some (m, k) ∧
      ∀ x : Int, x ∈ readN m 0 k ↔
        (∃ i, i < n1 ∧ chain1 i = x) ∨ (∃ j, j < n2 ∧ chain2 j = x)) ∧
    written (mj_mergeSorted merge (ofList [1, 3, 5]) 3 (ofList [2, 3, 4]) 3)
      = some [1, 2, 3, 4, 5] ∧
    returned (mj_mergeSorted merge (ofList [1, 3, 5]) 3 (ofList [2, 3, 4]) 3) = some 5 := by
  refine ⟨?_, ?_, ?_⟩
  · obtain ⟨m, hr, hw⟩ := mj_mergeSorted_eq merge chain1 n1 chain2 n2
    refine ⟨m, _, hr, fun x => ?_⟩
    rw [hw, mem_mergeL, mem_readN, mem_readN]
    simp
  · obtain ⟨m, hr, hw⟩ := mj_mergeSorted_eq merge (ofList [1, 3, 5]) 3 (ofList [2, 3, 4]) 3
    rw [hr]
    simp only [written, Option.map_some', hw]
    simp [readN, ofList, mergeL_cons_cons, mergeL_nil_left, mergeL_nil_right]
  · obtain ⟨m, hr, -⟩ := mj_mergeSorted_eq merge (ofList [1, 3, 5]) 3 (ofList [2, 3, 4]) 3
    rw [hr]
    simp [returned, readN, ofList, mergeL_cons_cons, mergeL_nil_left, mergeL_nil_right]

/-- C3: with one input empty `mj_mergeSorted` gives back the other input: for a
sequence `c` of length `n`, merging (empty, `c`) and merging (`c`, empty) both
return `n` and write exactly `c`; with both inputs empty the call returns 0 and
leaves the buffer as it was. -/
theorem mj_mergeSorted_empty (merge c e e2 : IntArr) (n : Nat) :
    (∃ m, mj_mergeSorted merge e 0 c n = some (m, n) ∧ readN m 0 n = readN c 0 n) ∧
    (∃ m, mj_mergeSorted merge c n e 0 = some (m, n) ∧ readN m 0 n = readN c 0 n) ∧
    mj_mergeSorted merge e 0 e2 0 = some (merge, 0) := by
  have hcopy : readN (memcpy merge 0 c 0 n) 0 n = readN c 0 n :=
    readN_congr _ _ _ _ _ (fun t ht => by simp [memcpy, ht])
  refine ⟨?_, ?_, by simp [mj_mergeSorted]⟩
  · by_cases hn : n = 0
    · subst hn; exact ⟨merge, by simp [mj_mergeSorted], rfl⟩
    · exact ⟨memcpy merge 0 c 0 n, by simp [mj_mergeSorted, hn], hcopy⟩
  · by_cases hn : n = 0
    · subst hn; exact ⟨merge, by simp [mj_mergeSorted], rfl⟩
    · exact ⟨memcpy merge 0 c 0 n, by simp [mj_mergeSorted, hn], hcopy⟩

/-- C4: `mj_mergeSorted` is idempotent: merging a sequence `c` of length `n` with
an identical copy `c2` of it returns `n` and writes exactly `c`. -/
theorem mj_mergeSorted_idempotent (merge c c2 : IntArr) (n : Nat)
    (h : ∀ i, i < n → c2 i = c i) :
    ∃ m, mj_mergeSorted merge c n c2 n = some (m, n) ∧ readN m 0 n = readN c 0 n := by
  have hcopy : readN (memcpy merge 0 c 0 n) 0 n = readN c 0 n :=
    readN_congr _ _ _ _ _ (fun t ht => by simp [memcpy, ht])
  by_cases hn : n = 0
  · subst hn; exact ⟨merge, by simp [mj_mergeSorted], rfl⟩
  · have hc : mju_compare c c2 n ≠ 0 :=
      (mju_compare_ne_zero_iff _ _ _).2 (fun i hi => (h i hi).symm)
    exact ⟨memcpy merge 0 c 0 n, by simp [mj_mergeSorted, hn, hc], hcopy⟩

/-- Witness of C4 on the sequence `[4, 2, 4]` and a copy of it followed by 9. -/
theorem mj_mergeSorted_idempotent_witness :
    (∀ i, i < 3 → ofList [4, 2, 4, 9] i = ofList [4, 2, 4] i) ∧
      ∃ m, mj_mergeSorted (fun _ => 0) (ofList [4, 2, 4]) 3 (ofList [4, 2, 4, 9]) 3 = some (m, 3) ∧
        readN m 0 3 = readN (ofList [4, 2, 4]) 0 3 :=
  ⟨by decide, mj_mergeSorted_idempotent (fun _ => 0) (ofList [4, 2, 4]) (ofList [4, 2, 4, 9]) 3
    (by decide)⟩

/-- C8: `mju_compare(vec1, vec2, n)` returns 1 exactly when `vec1[i] == vec2[i]`
for every `i` in `[0, n)` and returns 0 exactly when some entry differs; it
returns 1 when `n == 0`. -/
theorem mju_compare_correct (vec1 vec2 : IntArr) (n : Nat) :
    (mju_compare vec1 vec2 n = 1 ↔ ∀ i, i < n → vec1 i = vec2 i) ∧
    (mju_compare vec1 vec2 n = 0 ↔ ¬ ∀ i, i < n → vec1 i = vec2 i) ∧
    mju_compare vec1 vec2 0 = 1 :=
  ⟨mju_compare_eq_one_iff vec1 vec2 n, mju_compare_eq_zero_iff vec1 vec2 n, rfl⟩

/-! ## The sparse dot product -/

theorem naiveSum_eq_sum {R : Type} [CommRing R] (t : Nat → R) (n : Nat) :
    naiveSum t n = ∑ p in Finset.range n, t p := by
  unfold naiveSum
  induction n with
  | zero => simp
  | succ n ih => rw [List.range_succ, List.foldl_append, ih, Finset.sum_range_succ]; rfl

theorem sum_Ico_four {R : Type} [CommRing R] (t : Nat → R) (i : Nat) :
    ∑ p in Finset.Ico i (i + 4), t p = t i + t (i + 1) + t (i + 2) + t (i + 3) := by
  rw [Finset.sum_Ico_succ_top (by omega), Finset.sum_Ico_succ_top (by omega),
    Finset.sum_Ico_succ_top (by omega), Finset.sum_Ico_succ_top (by omega)]
  simp

theorem unrolledLoop_spec {R : Type} [CommRing R] (t : Nat → R) (nnz1 : Nat) :
    ∀ (fuel : Nat) (s : DotState R), s.i ≤ nnz1 → nnz1 - s.i ≤ fuel →
      ∃ s2, unrolledLoop t ((nnz1 : Int) - 4) fuel s = some s2 ∧
        s.i ≤ s2.i ∧ s2.i ≤ nnz1 ∧
        (s2.res0 + s2.res2) + (s2.res1 + s2.res3) =
          (s.res0 + s.res2) + (s.res1 + s.res3) + ∑ p in Finset.Ico s.i s2.i, t p := by
  intro fuel
  induction fuel with
  | zero =>
    intro s hi hf
    have hc : ¬ ((s.i : Int) ≤ (nnz1 : Int) - 4) := by omega
    exact ⟨s, by unfold unrolledLoop; simp [hc], le_refl _, hi, by simp⟩
  | succ fuel ih =>
    intro s hi hf
    by_cases hc : (s.i : Int) ≤ (nnz1 : Int) - 4
    · obtain ⟨s2, hs2, h1, h2, h3⟩ := ih
        ⟨s.i + 4, s.res0 + t (s.i + 0), s.res1 + t (s.i + 1),
          s.res2 + t (s.i + 2), s.res3 + t (s.i + 3)⟩
        (by simp only; omega) (by simp only; omega)
      simp only at h1 h2 h3
      refine ⟨s2, by unfold unrolledLoop; simp only [hc, if_true]; exact hs2,
        by omega, h2, ?_⟩
      rw [h3, ← Finset.sum_Ico_consecutive t (show s.i ≤ s.i + 4 by omega) h1, sum_Ico_four]
      simp only [Nat.add_zero]
      ring
    · exact ⟨s, by unfold unrolledLoop; simp [hc], le_refl _, hi, by simp⟩

theorem scalarLoop_spec {R : Type} [CommRing R] (t : Nat → R) (nnz1 : Nat) :
    ∀ (fuel i : Nat) (res : R), i ≤ nnz1 → nnz1 - i ≤ fuel →
      scalarLoop t nnz1 fuel i res = some (res + ∑ p in Finset.Ico i nnz1, t p) := by
  intro fuel
  induction fuel with
  | zero =>
    intro i res hi hf
    have : i = nnz1 := by omega
    subst this
    unfold scalarLoop
    simp
  | succ fuel ih =>
    intro i res hi hf
    by_cases hc : i < nnz1
    · unfold scalarLoop
      simp only [hc, if_true]
      rw [ih (i + 1) (res + t i) (by omega) (by omega), Finset.sum_eq_sum_Ico_succ_bot hc,
        add_assoc]
    · have : i = nnz1 := by omega
      subst this
      unfold scalarLoop
      simp

theorem dotSparse_loops {R : Type} [CommRing R] (t : Nat → R) (nnz1 : Nat) :
    (match unrolledLoop t ((nnz1 : Int) - 4) nnz1 ⟨0, 0, 0, 0, 0⟩ with
      | none => none
      | some s => scalarLoop t nnz1 nnz1 s.i ((s.res0 + s.res2) + (s.res1 + s.res3)))
      = some (∑ p in Finset.range nnz1, t p) := by
  obtain ⟨s2, hs2, -, h2, h3⟩ := unrolledLoop_spec t nnz1 nnz1 ⟨0, 0, 0, 0, 0⟩
    (Nat.zero_le _) (by simp)
  rw [hs2]
  simp only
  rw [scalarLoop_spec t nnz1 nnz1 s2.i _ h2 (by omega), h3]
  simp only [add_zero, zero_add]
  rw [Finset.sum_Ico_consecutive t (Nat.zero_le _) h2, Finset.range_eq_Ico]

/-- C5: in compressed layout (`flg_unc1 == 0`) and exact arithmetic (a
commutative ring), `mju_dotSparse(vec1, vec2, nnz1, ind1, 0)` returns the plain
left-to-right sum over `i` in `[0, nnz1)` of `vec1[i] * vec2[ind1[i]]`: the four
partial sums of the unrolled loop plus the scalar remainder loop give the value
of the naive loop. -/
theorem mju_dotSparse_compressed_eq_naive {R : Type} [CommRing R]
    (vec1 vec2 : Nat → R) (nnz1 : Nat) (ind1 : Nat → Nat) :
    mju_dotSparse vec1 vec2 nnz1 ind1 0 =
      some (naiveSum (fun i => vec1 i * vec2 (ind1 i)) nnz1) := by
  rw [naiveSum_eq_sum]
  unfold mju_dotSparse
  simp only [ne_eq, not_true_eq_false, if_false]
  exact dotSparse_loops _ nnz1

/-- C6: in uncompressed layout (`flg_unc1 != 0`) and exact arithmetic,
`mju_dotSparse(vec1, vec2, nnz1, ind1, flg_unc1)` returns the sum over `i` in
`[0, nnz1)` of `vec1[ind1[i]] * vec2[ind1[i]]`. -/
theorem mju_dotSparse_uncompressed {R : Type} [CommRing R]
    (vec1 vec2 : Nat → R) (nnz1 : Nat) (ind1 : Nat → Nat) (flg_unc1 : Int)
    (h : flg_unc1 ≠ 0) :
    mju_dotSparse vec1 vec2 nnz1 ind1 flg_unc1 =
      some (∑ i in Finset.range nnz1, vec1 (ind1 i) * vec2 (ind1 i)) := by
  unfold mju_dotSparse
  simp only [ne_eq, h, not_false_eq_true, if_true]
  exact dotSparse_loops _ nnz1

/-- Witness of C6: five entries over the integers, flag 1. -/
theorem mju_dotSparse_uncompressed_witness :
    (1 : Int) ≠ 0 ∧
      mju_dotSparse (fun i => [2, 3, 5, 7, 11, 13, 17].getD i (0 : Int))
        (fun i => [1, 2, 3, 4, 5, 6, 7].getD i 0) 5 (fun i => [0, 2, 3, 5, 6].getD i 0) 1 =
      some (∑ i in Finset.range 5,
        (fun i => [2, 3, 5, 7, 11, 13, 17].getD i (0 : Int))
            ((fun i => [0, 2, 3, 5, 6].getD i 0) i) *
          (fun i => [1, 2, 3, 4, 5, 6, 7].getD i 0) ((fun i => [0, 2, 3, 5, 6].getD i 0) i)) :=
  ⟨by decide, mju_dotSparse_uncompressed _ _ 5 _ 1 (by decide)⟩

/-- C7 as stated fails: with `vec1 = [2, 3]`, `vec2 = [5, 7]`, `ind = [1]` and
`nnz = 1` in compressed layout the code returns `vec1[0] * vec2[ind[0]] = 14`,
while the sum of `vec1[ind[i]] * vec2[i]` is `3 * 5 = 15`. -/
theorem mju_dotSparse_roles_counterexample :
    mju_dotSparse (fun i => [2, 3].getD i (0 : Int)) (fun i => [5, 7].getD i 0) 1
        (fun i => [1].getD i 0) 0 = some 14 ∧
      (∑ i in Finset.range 1,
        (fun i => [2, 3].getD i (0 : Int)) ((fun i => [1].getD i 0) i) *
          (fun i => [5, 7].getD i 0) i) = 15 ∧
      mju_dotSparse (fun i => [2, 3].getD i (0 : Int)) (fun i => [5, 7].getD i 0) 1
        (fun i => [1].getD i 0) 0 ≠
      some (∑ i in Finset.range 1,
        (fun i => [2, 3].getD i (0 : Int)) ((fun i => [1].getD i 0) i) *
          (fun i => [5, 7].getD i 0) i) := by
  refine ⟨by decide, by decide, by decide⟩

/-- C7 amended: in the sparse dot product the first vector is the sparse one,
read position by position, and the second is the dense one, read through the
index list: in compressed layout `mju_dotSparse(vec1, vec2, nnz, ind, 0)` is the
sum over `i` in `[0, nnz)` of `vec1[i] * vec2[ind[i]]`. -/
theorem mju_dotSparse_first_sparse {R : Type} [CommRing R]
    (vec1 vec2 : Nat → R) (nnz : Nat) (ind : Nat → Nat) :
    mju_dotSparse vec1 vec2 nnz ind 0 =
      some (∑ i in Finset.range nnz, vec1 i * vec2 (ind i)) := by
  unfold mju_dotSparse
  simp only [ne_eq, not_true_eq_false, if_false]
  exact dotSparse_loops _ nnz

/-! ## The count returned by `mj_mergeSorted` and its fast paths -/

theorem readN_inj (a b : IntArr) (off off2 n : Nat)
    (h : readN a off n = readN b off2 n) : ∀ t, t < n → a (off + t) = b (off2 + t) := by
  induction n generalizing off off2 with
  | zero => intro t ht; omega
  | succ n ih =>
    simp only [readN, List.cons.injEq] at h
    intro t ht
    cases t with
    | zero => simpa using h.1
    | succ t =>
      have := ih (off + 1) (off2 + 1) h.2 t (by omega)
      rwa [show off + 1 + t = off + (t + 1) by omega,
        show off2 + 1 + t = off2 + (t + 1) by omega] at this

theorem appended_unique (m0 : IntArr) (l : List Int) (r r2 : IntArr × Nat)
    (h : Appended m0 0 l r) (h2 : Appended m0 0 l r2) : r = r2 := by
  obtain ⟨a1, a2, -, a4⟩ := h
  obtain ⟨b1, b2, -, b4⟩ := h2
  obtain ⟨m, k⟩ := r
  obtain ⟨m2, k2⟩ := r2
  simp only [Nat.zero_add] at a1 b1 a4 b4
  subst a1 b1
  congr 1
  funext p
  by_cases hp : p < l.length
  · simpa using readN_inj m m2 0 0 l.length (a2.trans b2.symm) p hp
  · rw [a4 p (by omega), b4 p (by omega)]

theorem length_mergeL_add_common (l1 l2 : List Int)
    (h1 : l1.Pairwise (· < ·)) (h2 : l2.Pairwise (· < ·)) :
    (mergeL l1 l2).length + (l1.toFinset ∩ l2.toFinset).card = l1.length + l2.length := by
  have n1 : l1.Nodup := h1.imp (fun h => ne_of_lt h)
  have n2 : l2.Nodup := h2.imp (fun h => ne_of_lt h)
  have n3 : (mergeL l1 l2).Nodup := (pairwise_mergeL l1 l2 h1 h2).imp (fun h => ne_of_lt h)
  have hu : (mergeL l1 l2).toFinset = l1.toFinset ∪ l2.toFinset := by
    ext x; simp [mem_mergeL]
  rw [← List.toFinset_card_of_nodup n3, hu, Finset.card_union_add_card_inter,
    List.toFinset_card_of_nodup n1, List.toFinset_card_of_nodup n2]

/-- C16: for strictly increasing sequences of lengths `n1` and `n2` the value
returned by `mj_mergeSorted` is `n1 + n2` minus the number of values common to
both; it is `n1 + n2` when the sequences have no value in common and `n1` when
they are identical. -/
theorem mj_mergeSorted_count (merge chain1 : IntArr) (n1 : Nat) (chain2 : IntArr) (n2 : Nat)
    (h1 : StrictInc chain1 n1) (h2 : StrictInc chain2 n2) :
    ∃ m k, mj_mergeSorted merge chain1 n1 chain2 n2 = some (m, k) ∧
      k = n1 + n2 - commonCount chain1 n1 chain2 n2 ∧
      commonCount chain1 n1 chain2 n2 ≤ n1 ∧ commonCount chain1 n1 chain2 n2 ≤ n2 ∧
      ((∀ i j, i < n1 → j < n2 → chain1 i ≠ chain2 j) → k = n1 + n2) ∧
      (n1 = n2 → (∀ i, i < n1 → chain1 i = chain2 i) → k = n1) := by
  obtain ⟨m, hr, -⟩ := mj_mergeSorted_eq merge chain1 n1 chain2 n2
  have p1 := (strictInc_iff _ _).1 h1
  have p2 := (strictInc_iff _ _).1 h2
  have hlen := length_mergeL_add_common _ _ p1 p2
  have c1 : (readN chain1 0 n1).toFinset.card = n1 := by
    rw [List.toFinset_card_of_nodup (p1.imp (fun h => ne_of_lt h)), readN_length]
  have c2 : (readN chain2 0 n2).toFinset.card = n2 := by
    rw [List.toFinset_card_of_nodup (p2.imp (fun h => ne_of_lt h)), readN_length]
  have hle1 : commonCount chain1 n1 chain2 n2 ≤ n1 := by
    unfold commonCount
    exact (Finset.card_le_card Finset.inter_subset_left).trans (le_of_eq c1)
  have hle2 : commonCount chain1 n1 chain2 n2 ≤ n2 := by
    unfold commonCount
    exact (Finset.card_le_card Finset.inter_subset_right).trans (le_of_eq c2)
  rw [readN_length, readN_length] at hlen
  have hk : (mergeL (readN chain1 0 n1) (readN chain2 0 n2)).length =
      n1 + n2 - commonCount chain1 n1 chain2 n2 := by
    unfold commonCount at hle1 ⊢
    omega
  refine ⟨m, _, hr, hk, hle1, hle2, ?_, ?_⟩
  · intro hd
    have h0 : commonCount chain1 n1 chain2 n2 = 0 := by
      unfold commonCount
      rw [Finset.card_eq_zero, Finset.eq_empty_iff_forall_not_mem]
      intro x hx
      rw [Finset.mem_inter, List.mem_toFinset, List.mem_toFinset, mem_readN, mem_readN] at hx
      obtain ⟨⟨i, hi, hxi⟩, ⟨j, hj, hxj⟩⟩ := hx
      simp only [Nat.zero_add] at hxi hxj
      exact hd i j hi hj (hxi.trans hxj.symm)
    rw [hk, h0]; rfl
  · intro hn hid
    have hsame : readN chain2 0 n2 = readN chain1 0 n1 := by
      rw [← hn]
      exact readN_congr _ _ _ _ _ (fun t ht => by simpa using (hid t ht).symm)
    have hc : commonCount chain1 n1 chain2 n2 = n1 := by
      unfold commonCount
      rw [hsame, Finset.inter_self, c1]
    rw [hk, hc]; omega

/-- Witness of C16 on the chains `[1,3,5]` and `[2,3,4]`. -/
theorem mj_mergeSorted_count_witness :
    ∃ m k, mj_mergeSorted (fun _ => 0) (ofList [1, 3, 5]) 3 (ofList [2, 3, 4]) 3 = some (m, k) ∧
      k = 3 + 3 - commonCount (ofList [1, 3, 5]) 3 (ofList [2, 3, 4]) 3 ∧
      commonCount (ofList [1, 3, 5]) 3 (ofList [2, 3, 4]) 3 ≤ 3 ∧
      commonCount (ofList [1, 3, 5]) 3 (ofList [2, 3, 4]) 3 ≤ 3 ∧
      ((∀ i j, i < 3 → j < 3 → ofList [1, 3, 5] i ≠ ofList [2, 3, 4] j) → k = 3 + 3) ∧
      (3 = 3 → (∀ i, i < 3 → ofList [1, 3, 5] i = ofList [2, 3, 4] i) → k = 3) :=
  mj_mergeSorted_count (fun _ => 0) (ofList [1, 3, 5]) 3 (ofList [2, 3, 4]) 3
    ((strictInc_iff _ _).2 (by decide)) ((strictInc_iff _ _).2 (by decide))

/-- C17: the fast paths of `mj_mergeSorted` do not change its result: for all
inputs, sorted or not, the call gives the same buffer and the same count as the
two-pointer loop followed by the copy of the remaining tail, run from
`i = j = k = 0` without the special cases. -/
theorem mj_mergeSorted_eq_general (merge chain1 : IntArr) (n1 : Nat) (chain2 : IntArr)
    (n2 : Nat) :
    mj_mergeSorted merge chain1 n1 chain2 n2 = mergeGeneral merge chain1 n1 chain2 n2 ∧
      ∃ r, mergeGeneral merge chain1 n1 chain2 n2 = some r := by
  obtain ⟨r, hr, hA⟩ := mj_mergeSorted_spec merge chain1 n1 chain2 n2
  obtain ⟨r2, hr2, hA2⟩ := mergeGeneral_spec merge chain1 n1 chain2 n2
  rw [hr, hr2, appended_unique _ _ _ _ hA hA2]
  exact ⟨rfl, r2, rfl⟩

/-! ## The sparse dot product against the dense one -/

theorem scatter_succ {R : Type} [Zero R] (vec1 : Nat → R) (ind1 : Nat → Nat) (k : Nat) :
    scatter vec1 ind1 (k + 1) = Function.update (scatter vec1 ind1 k) (ind1 k) (vec1 k) := by
  simp [scatter, List.range_succ, List.foldl_append]

theorem scatter_eq_zero {R : Type} [Zero R] (vec1 : Nat → R) (ind1 : Nat → Nat) (k j : Nat)
    (h : ∀ i, i < k → ind1 i ≠ j) : scatter vec1 ind1 k j = 0 := by
  induction k with
  | zero => simp [scatter]
  | succ k ih =>
    rw [scatter_succ, Function.update_noteq (h k (by omega)).symm]
    exact ih (fun i hi => h i (by omega))

theorem sum_scatter {R : Type} [CommRing R] (vec1 vec2 : Nat → R) (ind1 : Nat → Nat)
    (n nnz1 : Nat) (hinc : ∀ p q, p < q → q < nnz1 → ind1 p < ind1 q)
    (hrange : ∀ i, i < nnz1 → ind1 i < n) :
    ∀ k, k ≤ nnz1 →
      ∑ j in Finset.range n, scatter vec1 ind1 k j * vec2 j =
        ∑ i in Finset.range k, vec1 i * vec2 (ind1 i) := by
  intro k
  induction k with
  | zero => intro _; simp [scatter]
  | succ k ih =>
    intro hk
    have ha : ind1 k ∈ Finset.range n := Finset.mem_range.2 (hrange k (by omega))
    have hz : scatter vec1 ind1 k (ind1 k) = 0 :=
      scatter_eq_zero vec1 ind1 k (ind1 k)
        (fun i hi => Nat.ne_of_lt (hinc i k hi (by omega)))
    rw [Finset.sum_range_succ, ← ih (by omega), scatter_succ,
      ← Finset.add_sum_erase _ _ ha, ← Finset.add_sum_erase (Finset.range n) _ ha, hz]
    simp only [Function.update_same, zero_mul, zero_add]
    rw [add_comm]
    congr 1
    apply Finset.sum_congr rfl
    intro j hj
    rw [Function.update_noteq (Finset.ne_of_mem_erase hj)]

/-- C18: for a compressed sparse vector (values `vec1`, indices `ind1`, `nnz1`
entries) whose indices are strictly increasing and lie in `[0, n)`, and a dense
vector `vec2` of length `n`, `mju_dotSparse(vec1, vec2, nnz1, ind1, 0)` returns the
dense dot product over `j` in `[0, n)` of `dense1[j] * vec2[j]`, where `dense1`
is the zero vector with `vec1[i]` scattered at position `ind1[i]` (exact
arithmetic). -/
theorem mju_dotSparse_eq_dense {R : Type} [CommRing R] (vec1 vec2 : Nat → R)
    (ind1 : Nat → Nat) (n nnz1 : Nat)
    (hinc : ∀ p q, p < q → q < nnz1 → ind1 p < ind1 q)
    (hrange : ∀ i, i < nnz1 → ind1 i < n) :
    mju_dotSparse vec1 vec2 nnz1 ind1 0 =
      some (∑ j in Finset.range n, scatter vec1 ind1 nnz1 j * vec2 j) := by
  rw [sum_scatter vec1 vec2 ind1 n nnz1 hinc hrange nnz1 (le_refl _)]
  unfold mju_dotSparse
  simp only [ne_eq, not_true_eq_false, if_false]
  exact dotSparse_loops _ nnz1

/-- Witness of C18: three entries at the indices 0, 2, 3 of a vector of length 5. -/
theorem mju_dotSparse_eq_dense_witness :
    mju_dotSparse (fun i => [2, 3, 5].getD i (0 : Int)) (fun i => [1, 2, 3, 4, 5].getD i 0) 3
        (fun i => [0, 2, 3].getD i 7) 0 =
      some (∑ j in Finset.range 5,
        scatter (fun i => [2, 3, 5].getD i (0 : Int)) (fun i => [0, 2, 3].getD i 7) 3 j *
          (fun i => [1, 2, 3, 4, 5].getD i 0) j) :=
  mju_dotSparse_eq_dense _ _ (fun i => [0, 2, 3].getD i 7) 5 3
    (fun p q hpq hq => by interval_cases q <;> interval_cases p <;> decide) (by decide)

/-! ## The solid plugin: `Solid::Compute` -/

theorem foldl_set_length {R : Type} (v : Nat → R) (n : Nat) (el : List R) :
    ((List.range n).foldl (fun el i => el.set i (v i)) el).length = el.length := by
  induction n with
  | zero => rfl
  | succ n ih => simp [List.range_succ, List.foldl_append, ih]

theorem foldl_set_getElem? {R : Type} (v : Nat → R) (n : Nat) (el : List R) (j : Nat) :
    ((List.range n).foldl (fun el i => el.set i (v i)) el)[j]? =
      if j < n then (if j < el.length then some (v j) else none) else el[j]? := by
  induction n with
  | zero => simp
  | succ n ih =>
    rw [List.range_succ, List.foldl_append]
    simp only [List.foldl_cons, List.foldl_nil, List.getElem?_set, foldl_set_length, ih]
    by_cases h1 : n = j
    · subst h1; simp
    · have h2 : j < n + 1 ↔ j < n := by omega
      simp [h1, h2]

theorem elongationLoop_get? {R : Type} [Zero R] [Add R] [Sub R] [Mul R] (deformed ref : Int → R)
    (prev : List R) (kD : R) (ne : Int) (elongation : List R) (j : Nat) :
    (elongationLoop deformed ref prev kD ne elongation)[j]? =
      if j < ne.toNat then
        (if j < elongation.length then
          some (deformed j * deformed j - ref j * ref j +
            (deformed j * deformed j - prev.getD j 0 * prev.getD j 0) * kD)
        else none)
      else elongation[j]? := by
  unfold elongationLoop
  exact foldl_set_getElem? (fun idx : Nat => deformed idx * deformed idx - ref idx * ref idx +
        (deformed idx * deformed idx - prev.getD idx 0 * prev.getD idx 0) * kD) _ _ _

theorem elongationLoop_getElem? {R : Type} [Zero R] [Add R] [Sub R] [Mul R]
    (deformed ref : Int → R) (prev : List R) (kD : R) (ne : Int) (elongation : List R)
    (idx : Nat) (h1 : (idx : Int) < ne) (h2 : elongation.length = ne.toNat) :
    (elongationLoop deformed ref prev kD ne elongation)[idx]? =
      some (deformed idx * deformed idx - ref idx * ref idx +
        (deformed idx * deformed idx - prev.getD idx 0 * prev.getD idx 0) * kD) := by
  have h3 : idx < ne.toNat := by omega
  rw [elongationLoop_get?, if_pos h3, if_pos (by omega)]

theorem elongationLoop_length {R : Type} [Zero R] [Add R] [Sub R] [Mul R]
    (deformed ref : Int → R) (prev : List R) (kD : R) (ne : Int) (elongation : List R) :
    (elongationLoop deformed ref prev kD ne elongation).length = elongation.length := by
  unfold elongationLoop
  exact foldl_set_length _ _ _

theorem memcpyVec_full {R : Type} [Zero R] (dst : List R) (src : Int → R) (n : Nat)
    (h : dst.length = n) : memcpyVec dst src n = (List.range n).map (fun (i : Nat) => src (i : Int)) := by
  unfold memcpyVec
  rw [h]
  apply List.map_congr_left
  intro i hi
  simp [List.mem_range.1 hi]

theorem memcpyVec_replicate {R : Type} [Zero R] (src : Int → R) (n : Nat) :
    memcpyVec (List.replicate n (0 : R)) src n = (List.range n).map (fun (i : Nat) => src (i : Int)) :=
  memcpyVec_full _ _ _ (List.length_replicate _ _)

theorem getD_map_range {R : Type} [Zero R] (f : Nat → R) (n idx : Nat) (h : idx < n) :
    ((List.range n).map f).getD idx 0 = f idx := by
  simp [List.getD_eq_getElem?_getD, h]

theorem Solid.Compute_elongation_eq {R : Type} [Zero R] [Add R] [Sub R] [Mul R] [Div R] [LT R]
    [∀ a b : R, Decidable (a < b)]
    (computeForce : List R → List R → mjModel R → Int → (Int → R) → List R)
    (addFlexForce : (Int → R) → List R → mjModel R → mjData R → (Int → R) → Int → (Int → R))
    (self : Solid R) (m : mjModel R) (d : mjData R) (inst : Int) :
    (Solid.Compute computeForce addFlexForce self m d inst).1.elongation =
      elongationLoop (fun i => d.flexedge_length (m.flex_edgeadr self.f0 + i))
        (fun i => m.flexedge_length0 (m.flex_edgeadr self.f0 + i))
        (if self.prev.isEmpty then
          memcpyVec (List.replicate self.ne.toNat 0)
            (fun i => m.flexedge_length0 (m.flex_edgeadr self.f0 + i)) self.ne.toNat
          else self.prev)
        (self.damping / m.opt_timestep) self.ne self.elongation := rfl

theorem Solid.Compute_prev_eq {R : Type} [Zero R] [Add R] [Sub R] [Mul R] [Div R] [LT R]
    [∀ a b : R, Decidable (a < b)]
    (computeForce : List R → List R → mjModel R → Int → (Int → R) → List R)
    (addFlexForce : (Int → R) → List R → mjModel R → mjData R → (Int → R) → Int → (Int → R))
    (self : Solid R) (m : mjModel R) (d : mjData R) (inst : Int) :
    (Solid.Compute computeForce addFlexForce self m d inst).1.prev =
      if self.damping / m.opt_timestep > 0 then
        memcpyVec
          (if self.prev.isEmpty then
            memcpyVec (List.replicate self.ne.toNat 0)
              (fun i => m.flexedge_length0 (m.flex_edgeadr self.f0 + i)) self.ne.toNat
            else self.prev)
          (fun i => d.flexedge_length (m.flex_edgeadr self.f0 + i)) self.ne.toNat
      else
        (if self.prev.isEmpty then
          memcpyVec (List.replicate self.ne.toNat 0)
            (fun i => m.flexedge_length0 (m.flex_edgeadr self.f0 + i)) self.ne.toNat
          else self.prev) := rfl

/-- The history that `Solid::Compute` works with, once it has filled an empty
one with the reference lengths: the reference lengths if the history was empty
on entry, the history on entry otherwise. -/
theorem Solid.Compute_history {R : Type} [Zero R] (self : Solid R) (m : mjModel R) :
    (if self.prev.isEmpty then
        memcpyVec (List.replicate self.ne.toNat 0)
          (fun i => m.flexedge_length0 (m.flex_edgeadr self.f0 + i)) self.ne.toNat
      else self.prev) =
      if self.prev.isEmpty then
        (List.range self.ne.toNat).map
          (fun (i : Nat) => m.flexedge_length0 (m.flex_edgeadr self.f0 + i))
      else self.prev := by
  rw [memcpyVec_replicate]

/-- C19 as stated fails: its last part does not hold in the arithmetic of the
source. On the first call with `deformed = 0.25`, `ref = 0.1`, `damping = 50` and
`timestep = 1` (so `kD = 50`), the doubles give
`elongation[0] = 6029194001142252 * 2^-51` (2.6775), and
`(deformed^2 - ref^2) * (1 + kD) = 6029194001142251 * 2^-51`
(2.6774999999999998). -/
theorem Solid.Compute_elongation_counterexample :
    let self : Solid F64 := edgeSolid (F64.ofNat 50)
    let m : mjModel F64 := edgeModel (F64.ofNat 1) (F64.ofFrac 1 10) (F64.ofNat 2)
    let d : mjData F64 := edgeData (F64.ofFrac 1 4) (F64.ofNat 5)
    let kD := self.damping / m.opt_timestep
    let deformed := d.flexedge_length (m.flex_edgeadr self.f0 + 0)
    let ref := m.flexedge_length0 (m.flex_edgeadr self.f0 + 0)
    let el := (Solid.Compute (fun f _ _ _ _ => f) (fun q _ _ _ _ _ => q) self m d 0).1.elongation
    self.prev = [] ∧ kD = F64.ofNat 50 ∧
      el[0]? = some (F64.fin false 6029194001142252 (-51)) ∧
      (deformed * deformed - ref * ref) * (1 + kD) = F64.fin false 6029194001142251 (-51) ∧
      el[0]? ≠ some ((deformed * deformed - ref * ref) * (1 + kD)) := by
  set_option maxRecDepth 1000000 in decide

/-- C19 amended: `Solid::Compute` sets, for every edge `idx` in `[0, ne)`,
`elongation[idx] = deformed[idx]^2 - ref[idx]^2 + (deformed[idx]^2 - prev[idx]^2) * kD`
with `kD = damping / timestep`, where `prev` is the stored history of edge
lengths, or the reference lengths `ref` when the history is empty (first call);
hence, in exact arithmetic, on the first call
`elongation[idx] = (deformed[idx]^2 - ref[idx]^2) * (1 + kD)`. The squares are the
products of the source, and the operations are those of any number type `R`, the
doubles among them, whatever its division does at 0; exact arithmetic is used
only as the law `a + a * k = a * (1 + k)`. The vector `elongation` has the size
`ne` given by the constructor. -/
theorem Solid.Compute_elongation {R : Type} [Zero R] [One R] [Add R] [Sub R] [Mul R] [Div R]
    [LT R] [∀ a b : R, Decidable (a < b)]
    (computeForce : List R → List R → mjModel R → Int → (Int → R) → List R)
    (addFlexForce : (Int → R) → List R → mjModel R → mjData R → (Int → R) → Int → (Int → R))
    (self : Solid R) (m : mjModel R) (d : mjData R) (inst : Int) (idx : Nat)
    (hlen : self.elongation.length = self.ne.toNat)
    (hidx : (idx : Int) < self.ne) :
    let kD := self.damping / m.opt_timestep
    let deformed := d.flexedge_length (m.flex_edgeadr self.f0 + idx)
    let ref := m.flexedge_length0 (m.flex_edgeadr self.f0 + idx)
    let el := (Solid.Compute computeForce addFlexForce self m d inst).1.elongation
    (∀ p, self.prev[idx]? = some p →
      el[idx]? = some (deformed * deformed - ref * ref + (deformed * deformed - p * p) * kD)) ∧
    (self.prev = [] →
      el[idx]? =
        some (deformed * deformed - ref * ref + (deformed * deformed - ref * ref) * kD) ∧
      ((∀ a k : R, a + a * k = a * (1 + k)) →
        el[idx]? = some ((deformed * deformed - ref * ref) * (1 + kD)))) := by
  intro kD deformed ref el
  have hi : idx < self.ne.toNat := by omega
  refine ⟨?_, ?_⟩
  · intro p hp
    have hne : self.prev.isEmpty = false := by
      cases hq : self.prev with
      | nil => rw [hq] at hp; simp at hp
      | cons a l => rfl
    have hg : self.prev.getD idx 0 = p := by
      simp [List.getD_eq_getElem?_getD, hp]
    simp only [el, Solid.Compute_elongation_eq]
    rw [elongationLoop_getElem? _ _ _ _ _ _ idx hidx hlen]
    simp only [hne, Bool.false_eq_true, if_false, hg]
  · intro he
    have hval : el[idx]? =
        some (deformed * deformed - ref * ref + (deformed * deformed - ref * ref) * kD) := by
      simp only [el, Solid.Compute_elongation_eq]
      rw [elongationLoop_getElem? _ _ _ _ _ _ idx hidx hlen]
      simp only [he, List.isEmpty_nil, if_true, memcpyVec_replicate]
      rw [getD_map_range _ _ _ hi]
    refine ⟨hval, fun hdist => ?_⟩
    rw [hval, hdist]

/-- Witness of C19 amended, in exact arithmetic (the rationals): the first call
on a flex with two edges, edge 1, where `deformed = 5`, `ref = 2` and `kD = 2`. -/
theorem Solid.Compute_elongation_witness :
    let kD := (demoSolid (1 / 50)).damping / demoModel.opt_timestep
    let deformed := demoData.flexedge_length
      (demoModel.flex_edgeadr (demoSolid (1 / 50)).f0 + (1 : Nat))
    let ref := demoModel.flexedge_length0
      (demoModel.flex_edgeadr (demoSolid (1 / 50)).f0 + (1 : Nat))
    let el := (Solid.Compute (fun f _ _ _ _ => f) (fun q _ _ _ _ _ => q)
      (demoSolid (1 / 50)) demoModel demoData 0).1.elongation
    (∀ p, (demoSolid (1 / 50)).prev[1]? = some p →
      el[1]? = some (deformed * deformed - ref * ref + (deformed * deformed - p * p) * kD)) ∧
    el[1]? = some (deformed * deformed - ref * ref + (deformed * deformed - ref * ref) * kD) ∧
    el[1]? = some ((deformed * deformed - ref * ref) * (1 + kD)) :=
  have h := Solid.Compute_elongation (fun f _ _ _ _ => f) (fun q _ _ _ _ _ => q)
    (demoSolid (1 / 50)) demoModel demoData 0 1 (by simp [demoSolid]) (by simp [demoSolid])
  ⟨h.1, (h.2 rfl).1, (h.2 rfl).2 (fun a k => by ring)⟩

/-! ## The sign of a quotient of doubles -/

theorem F64.zero_lt_fin (s : Bool) (m : Nat) (e : Int) :
    (0 : F64) < F64.fin s m e ↔ s = false ∧ m ≠ 0 := by
  show F64.blt (F64.fin false 0 (-1074)) (F64.fin s m e) = true ↔ _
  simp only [F64.blt, F64.scaled, decide_eq_true_eq]
  cases s
  · simp [Nat.pos_iff_ne_zero]
  · simp

theorem F64.fin_lt_zero (s : Bool) (m : Nat) (e : Int) :
    F64.fin s m e < (0 : F64) ↔ s = true ∧ m ≠ 0 := by
  show F64.blt (F64.fin s m e) (F64.fin false 0 (-1074)) = true ↔ _
  simp only [F64.blt, F64.scaled, decide_eq_true_eq]
  cases s
  · simp
  · simp [Nat.pos_iff_ne_zero]

theorem F64.zero_lt_inf (s : Bool) : (0 : F64) < F64.inf s ↔ s = false := by
  show F64.blt (F64.fin false 0 (-1074)) (F64.inf s) = true ↔ _
  cases s <;> simp [F64.blt]

theorem F64.not_zero_lt_nan : ¬ (0 : F64) < F64.nan := by
  show ¬ F64.blt (F64.fin false 0 (-1074)) F64.nan = true
  simp [F64.blt]

theorem F64.round_sign (neg : Bool) (n : Nat) (e : Int) :
    F64.round neg n e = F64.inf neg ∨ ∃ m e2, F64.round neg n e = F64.fin neg m e2 := by
  unfold F64.round
  dsimp only
  split_ifs <;> simp

theorem F64.round_zero (neg : Bool) (e : Int) : F64.round neg 0 e = F64.fin neg 0 (-1074) := by
  simp [F64.round]

theorem F64.not_zero_lt_round_neg (n : Nat) (e : Int) : ¬ (0 : F64) < F64.round true n e := by
  rcases F64.round_sign true n e with h | ⟨m, e2, h⟩
  · rw [h, F64.zero_lt_inf]; simp
  · rw [h, F64.zero_lt_fin]; simp

/-- The sign rule of the division of doubles: a quotient of a number that is
not greater than 0 (a NaN included) by a number greater than 0 is not greater
than 0. -/
theorem F64.div_not_pos (a b : F64) (ha : ¬ 0 < a) (hb : 0 < b) : ¬ 0 < a / b := by
  show ¬ 0 < F64.div a b
  cases a with
  | nan =>
    cases b <;> exact F64.not_zero_lt_nan
  | inf sa =>
    rw [F64.zero_lt_inf] at ha
    cases b with
    | nan => exact absurd hb F64.not_zero_lt_nan
    | inf sb => exact F64.not_zero_lt_nan
    | fin sb mb eb =>
      rw [F64.zero_lt_fin] at hb
      simp only [F64.div, F64.zero_lt_inf, hb.1]
      cases sa <;> simp_all
  | fin sa ma ea =>
    rw [F64.zero_lt_fin] at ha
    cases b with
    | nan => exact absurd hb F64.not_zero_lt_nan
    | inf sb =>
      simp only [F64.div, F64.zero_lt_fin]
      simp
    | fin sb mb eb =>
      rw [F64.zero_lt_fin] at hb
      simp only [F64.div, if_neg hb.2, hb.1]
      by_cases hm : ma = 0
      · subst hm
        simp [F64.round_zero, F64.zero_lt_fin]
      · have hs : sa = true := by
          cases sa
          · exact absurd ⟨rfl, hm⟩ ha
          · rfl
        subst hs
        exact F64.not_zero_lt_round_neg _ _

/-- A zero divided by any double is not greater than 0: it is a zero or a NaN. -/
theorem F64.zero_div_not_pos (a t : F64) (ha : a.isZero = true) : ¬ 0 < a / t := by
  show ¬ 0 < F64.div a t
  cases a with
  | nan => simp [F64.isZero] at ha
  | inf sa => simp [F64.isZero] at ha
  | fin sa ma ea =>
    have hm : ma = 0 := by simpa [F64.isZero] using ha
    subst hm
    cases t with
    | nan => exact F64.not_zero_lt_nan
    | inf st => simp [F64.div, F64.zero_lt_fin]
    | fin st mt et =>
      by_cases hmt : mt = 0
      · simp [F64.div, hmt, F64.not_zero_lt_nan]
      · simp [F64.div, hmt, F64.round_zero, F64.zero_lt_fin]

/-! ## The history after `Solid::Compute` -/

/-- C20 as stated fails: with the negative damping `-1/50` and the negative time
step `-1/100` the quotient `kD` is 2, greater than 0, and the first call stores
the deformed lengths `[3, 5]` in the history, which the claim says is left at
the reference lengths `[1, 2]`. -/
theorem Solid.Compute_prev_counterexample :
    let self : Solid F64 := edgeSolid (F64.neg (F64.ofFrac 1 50))
    let m : mjModel F64 := edgeModel (F64.neg (F64.ofFrac 1 100)) (F64.ofNat 1) (F64.ofNat 2)
    let d : mjData F64 := edgeData (F64.ofNat 3) (F64.ofNat 5)
    self.damping < 0 ∧ ¬ 0 < self.damping ∧ self.prev = [] ∧
      self.damping / m.opt_timestep = F64.ofNat 2 ∧
      (Solid.Compute (fun f _ _ _ _ => f) (fun q _ _ _ _ _ => q) self m d 0).1.prev =
        [F64.ofNat 3, F64.ofNat 5] ∧
      (Solid.Compute (fun f _ _ _ _ => f) (fun q _ _ _ _ _ => q) self m d 0).1.prev ≠
        [F64.ofNat 1, F64.ofNat 2] := by
  intro self m d
  have hdamp : self.damping = F64.fin true 5764607523034235 (-58) := by
    set_option maxRecDepth 1000000 in decide
  have hk : self.damping / m.opt_timestep = F64.fin false 4503599627370496 (-51) := by
    set_option maxRecDepth 1000000 in decide
  have hpos : self.damping / m.opt_timestep > 0 := by
    rw [hk]
    exact (F64.zero_lt_fin _ _ _).2 ⟨rfl, by decide⟩
  have hafter : (Solid.Compute (fun f _ _ _ _ => f) (fun q _ _ _ _ _ => q) self m d 0).1.prev =
      [F64.ofNat 3, F64.ofNat 5] := by
    rw [Solid.Compute_prev_eq, if_pos hpos]
    set_option maxRecDepth 1000000 in decide
  refine ⟨?_, ?_, rfl, ?_, hafter, ?_⟩
  · rw [hdamp, F64.fin_lt_zero]
    decide
  · rw [hdamp, F64.zero_lt_fin]
    decide
  · rw [hk]
    set_option maxRecDepth 1000000 in decide
  · rw [hafter]
    set_option maxRecDepth 1000000 in decide

/-- C20 amended: after `Solid::Compute` returns, the stored history `prev`
equals the current deformed edge lengths if `damping / timestep > 0`; otherwise
`prev` is left as it was before the elongation was computed (the reference
lengths when it was empty on entry, the old history otherwise), so with
non-positive damping and a positive time step the history is never updated. The
numbers are doubles; a damping that is not greater than 0 counts as
non-positive, a NaN included. For the first part the history on entry is empty
or has `ne` entries. -/
theorem Solid.Compute_prev
    (computeForce : List F64 → List F64 → mjModel F64 → Int → (Int → F64) → List F64)
    (addFlexForce :
      (Int → F64) → List F64 → mjModel F64 → mjData F64 → (Int → F64) → Int → (Int → F64))
    (self : Solid F64) (m : mjModel F64) (d : mjData F64) (inst : Int) :
    let kD := self.damping / m.opt_timestep
    let deformed : List F64 := (List.range self.ne.toNat).map
      (fun (i : Nat) => d.flexedge_length (m.flex_edgeadr self.f0 + i))
    let ref : List F64 := (List.range self.ne.toNat).map
      (fun (i : Nat) => m.flexedge_length0 (m.flex_edgeadr self.f0 + i))
    let before : List F64 := if self.prev = [] then ref else self.prev
    let after := (Solid.Compute computeForce addFlexForce self m d inst).1.prev
    (0 < kD → (self.prev = [] ∨ self.prev.length = self.ne.toNat) → after = deformed) ∧
      (¬ 0 < kD → after = before) ∧
      (¬ 0 < self.damping → 0 < m.opt_timestep → after = before) := by
  intro kD deformed ref before after
  have hmid : (if self.prev.isEmpty then
        memcpyVec (List.replicate self.ne.toNat 0)
          (fun i => m.flexedge_length0 (m.flex_edgeadr self.f0 + i)) self.ne.toNat
      else self.prev) = before := by
    rw [Solid.Compute_history]
    cases hq : self.prev with
    | nil => simp [before, hq, ref]
    | cons a l => simp [before, hq]
  have hafter : after = if kD > 0 then
      memcpyVec before (fun i => d.flexedge_length (m.flex_edgeadr self.f0 + i)) self.ne.toNat
      else before := by
    simp only [after, Solid.Compute_prev_eq]
    rw [hmid]
  have hno : ¬ 0 < kD → after = before := by
    intro hk
    rw [hafter, if_neg hk]
  refine ⟨?_, hno, ?_⟩
  · intro hk hprev
    have hlen : before.length = self.ne.toNat := by
      by_cases he : self.prev = []
      · simp [before, he, ref]
      · rcases hprev with h | h
        · exact absurd h he
        · simp [before, he, h]
    rw [hafter, if_pos hk, memcpyVec_full _ _ _ hlen]
  · intro hd ht
    exact hno (F64.div_not_pos _ _ hd ht)

/-- Witness of C20 amended: the first call on a flex with two edges of
reference lengths 1 and 2 and deformed lengths 3 and 5, with the time step
1/100 and the damping -1/50: the history is left at `[1, 2]`. -/
theorem Solid.Compute_prev_witness :
    let self : Solid F64 := edgeSolid (F64.neg (F64.ofFrac 1 50))
    let m : mjModel F64 := edgeModel (F64.ofFrac 1 100) (F64.ofNat 1) (F64.ofNat 2)
    let d : mjData F64 := edgeData (F64.ofNat 3) (F64.ofNat 5)
    ¬ 0 < self.damping ∧ 0 < m.opt_timestep ∧
      (Solid.Compute (fun f _ _ _ _ => f) (fun q _ _ _ _ _ => q) self m d 0).1.prev =
        [F64.ofNat 1, F64.ofNat 2] := by
  intro self m d
  have hdamp : self.damping = F64.fin true 5764607523034235 (-58) := by
    set_option maxRecDepth 1000000 in decide
  have htime : m.opt_timestep = F64.fin false 5764607523034235 (-59) := by
    set_option maxRecDepth 1000000 in decide
  have hd : ¬ 0 < self.damping := by
    rw [hdamp, F64.zero_lt_fin]
    decide
  have ht : 0 < m.opt_timestep := by
    rw [htime, F64.zero_lt_fin]
    decide
  exact ⟨hd, ht,
    (Solid.Compute_prev (fun f _ _ _ _ => f) (fun q _ _ _ _ _ => q) self m d 0).2.2 hd ht⟩

/-! ## Dense to sparse: capacity -/

theorem foldl_range_induction {σ : Type} (f : σ → Nat → σ) (P : Nat → σ → Prop) (n : Nat)
    (s0 : σ) (h0 : P 0 s0) (hstep : ∀ i s, i < n → P i s → P (i + 1) (f s i)) :
    P n ((List.range n).foldl f s0) := by
  induction n with
  | zero => simpa using h0
  | succ n ih =>
    rw [List.range_succ, List.foldl_append]
    exact hstep n _ (Nat.lt_succ_self n)
      (ih (fun i s hi hP => hstep i s (Nat.lt_succ_of_lt hi) hP))

theorem nnzCount_succ {R : Type} [Zero R] [DecidableEq R] (mat : Nat → R) (p : Nat) :
    nnzCount mat (p + 1) = nnzCount mat p + (if mat p ≠ 0 then 1 else 0) := by
  unfold nnzCount
  rw [List.range_succ, List.filter_append, List.length_append]
  by_cases h : mat p = 0 <;> simp [h]

theorem nnzCount_mono {R : Type} [Zero R] [DecidableEq R] (mat : Nat → R) {p q : Nat}
    (h : p ≤ q) : nnzCount mat p ≤ nnzCount mat q := by
  induction q with
  | zero =>
    have : p = 0 := by omega
    subst this; exact le_refl _
  | succ q ih =>
    by_cases hp : p ≤ q
    · have := ih hp
      rw [nnzCount_succ]; omega
    · have : p = q + 1 := by omega
      subst this; exact le_refl _

theorem capInv_mono {R : Type} [Zero R] [DecidableEq R] (res0 : Nat → R) (colind0 : Nat → Nat)
    (mat : Nat → R) (nnz : Nat) (s : SparseBuf R) {p q : Nat} (hpq : p ≤ q)
    (hfull : s.full = true) (h : CapInv res0 colind0 mat nnz s p) :
    CapInv res0 colind0 mat nnz s q := by
  obtain ⟨h1, h2, h3⟩ := h
  have hlt := h1.1 hfull
  have hm := nnzCount_mono mat hpq
  refine ⟨⟨fun _ => by omega, fun _ => hfull⟩, ?_, h3⟩
  rw [h2, Nat.min_eq_right (by omega), Nat.min_eq_right (by omega)]

theorem capInv_entry {R : Type} [Zero R] [DecidableEq R] (res0 : Nat → R) (colind0 : Nat → Nat)
    (mat : Nat → R) (nc nnz r c : Nat) (s : SparseBuf R)
    (h : CapInv res0 colind0 mat nnz s (r * nc + c)) :
    CapInv res0 colind0 mat nnz (dense2sparseEntry mat nc nnz r s c) (r * nc + c + 1) := by
  unfold dense2sparseEntry
  by_cases hfull : s.full = true
  · rw [if_pos hfull]
    exact capInv_mono res0 colind0 mat nnz s (Nat.le_succ _) hfull h
  · rw [if_neg hfull]
    obtain ⟨h1, h2, h3⟩ := h
    have hle : nnzCount mat (r * nc + c) ≤ nnz := by
      by_contra hcon
      exact hfull (h1.2 (by omega))
    rw [Nat.min_eq_left hle] at h2
    by_cases hz : mat (r * nc + c) = 0
    · simp only [hz, ne_eq, not_true_eq_false, if_false]
      refine ⟨?_, ?_, h3⟩
      · rw [nnzCount_succ]; simpa [hz] using h1
      · rw [nnzCount_succ, h2]; simp [hz, hle]
    · simp only [ne_eq, hz, not_false_eq_true, if_true]
      by_cases hroom : nnz ≤ s.adr
      · rw [if_pos hroom]
        refine ⟨?_, ?_, h3⟩
        · rw [nnzCount_succ]; simp [hz]; omega
        · rw [nnzCount_succ]; simp [hz]; omega
      · rw [if_neg hroom]
        refine ⟨?_, ?_, ?_⟩
        · rw [nnzCount_succ]
          simp only [hz, ne_eq, not_false_eq_true, if_true]
          constructor
          · intro hf; exact absurd hf hfull
          · intro hlt; omega
        · rw [nnzCount_succ]; simp [hz]; omega
        · intro a ha
          have hne : a ≠ s.adr := by omega
          simp only [Function.update_noteq hne]
          exact h3 a ha

theorem capInv_row {R : Type} [Zero R] [DecidableEq R] (res0 : Nat → R) (colind0 : Nat → Nat)
    (mat : Nat → R) (nc nnz r : Nat) (s : SparseBuf R)
    (h : CapInv res0 colind0 mat nnz s (r * nc)) :
    CapInv res0 colind0 mat nnz (dense2sparseRow mat nc nnz s r) ((r + 1) * nc) := by
  unfold dense2sparseRow
  by_cases hfull : s.full = true
  · rw [if_pos hfull]
    exact capInv_mono res0 colind0 mat nnz s (Nat.mul_le_mul_right nc (Nat.le_succ r)) hfull h
  · rw [if_neg hfull, show (r + 1) * nc = r * nc + nc by ring]
    apply foldl_range_induction (dense2sparseEntry mat nc nnz r)
      (fun c s => CapInv res0 colind0 mat nnz s (r * nc + c))
    · exact h
    · intro c s2 _ hs2
      exact capInv_entry res0 colind0 mat nc nnz r c s2 hs2

theorem capInv_final {R : Type} [Zero R] [DecidableEq R] (res : Nat → R) (mat : Nat → R)
    (nr nc : Nat) (rownnz rowadr colind : Nat → Nat) (nnz : Nat) :
    CapInv res colind mat nnz
      ((List.range nr).foldl (dense2sparseRow mat nc nnz) ⟨res, rownnz, rowadr, colind, 0, false⟩)
      (nr * nc) := by
  apply foldl_range_induction (dense2sparseRow mat nc nnz)
    (fun r s => CapInv res colind mat nnz s (r * nc))
  · simp [CapInv, nnzCount]
  · intro r s _ hs
    exact capInv_row res colind mat nc nnz r s hs

/-! ## Dense to sparse: the stored rows -/

theorem rowStored_entry_write {R : Type} [Zero R] [DecidableEq R] (mat : Nat → R)
    (nc r c : Nat) (s : SparseBuf R)
    (hR : RowsStored mat nc s r) (hA : s.rowadr r + s.rownnz r = s.adr)
    (hC : RowStored mat nc s r c) :
    RowsStored mat nc
        { s with
          res := Function.update s.res s.adr (mat (r * nc + c))
          colind := Function.update s.colind s.adr c
          adr := s.adr + 1
          rownnz := Function.update s.rownnz r (s.rownnz r + 1) } r ∧
      RowStored mat nc
        { s with
          res := Function.update s.res s.adr (mat (r * nc + c))
          colind := Function.update s.colind s.adr c
          adr := s.adr + 1
          rownnz := Function.update s.rownnz r (s.rownnz r + 1) } r (c + 1) := by
  refine ⟨?_, ?_, ?_⟩
  · intro r2 hr2
    obtain ⟨hle, h1, h2⟩ := hR r2 hr2
    have hne : r2 ≠ r := Nat.ne_of_lt hr2
    simp only [RowStored, Function.update_noteq hne]
    refine ⟨by omega, ?_, ?_⟩
    · intro j hj
      have hp : s.rowadr r2 + j ≠ s.adr := by omega
      rw [Function.update_noteq hp, Function.update_noteq hp]
      exact h1 j hj
    · intro c2 hc2 hnz
      obtain ⟨j, hj, hcol⟩ := h2 c2 hc2 hnz
      have hp : s.rowadr r2 + j ≠ s.adr := by omega
      exact ⟨j, hj, by rw [Function.update_noteq hp]; exact hcol⟩
  · intro j hj
    simp only [Function.update_same] at hj
    simp only
    by_cases hlast : j = s.rownnz r
    · have hp : s.rowadr r + j = s.adr := by omega
      rw [hp, Function.update_same, Function.update_same]
    · have hp : s.rowadr r + j ≠ s.adr := by omega
      rw [Function.update_noteq hp, Function.update_noteq hp]
      exact hC.1 j (by omega)
  · intro c2 hc2 hnz
    simp only [Function.update_same]
    by_cases hlast : c2 = c
    · refine ⟨s.rownnz r, by omega, ?_⟩
      rw [hA, Function.update_same, hlast]
    · obtain ⟨j, hj, hcol⟩ := hC.2 c2 (by omega) hnz
      have hp : s.rowadr r + j ≠ s.adr := by omega
      exact ⟨j, by omega, by rw [Function.update_noteq hp]; exact hcol⟩

theorem dataInv_entry {R : Type} [Zero R] [DecidableEq R] (mat : Nat → R)
    (nc nnz r c : Nat) (s : SparseBuf R)
    (h : s.full = false →
      RowsStored mat nc s r ∧ s.rowadr r + s.rownnz r = s.adr ∧ RowStored mat nc s r c) :
    (dense2sparseEntry mat nc nnz r s c).full = false →
      RowsStored mat nc (dense2sparseEntry mat nc nnz r s c) r ∧
        (dense2sparseEntry mat nc nnz r s c).rowadr r +
            (dense2sparseEntry mat nc nnz r s c).rownnz r =
          (dense2sparseEntry mat nc nnz r s c).adr ∧
        RowStored mat nc (dense2sparseEntry mat nc nnz r s c) r (c + 1) := by
  unfold dense2sparseEntry
  by_cases hfull : s.full = true
  · simp [hfull]
  · have hf : s.full = false := by simpa using hfull
    obtain ⟨hR, hA, hC⟩ := h hf
    rw [if_neg hfull]
    by_cases hz : mat (r * nc + c) = 0
    · simp only [hz, ne_eq, not_true_eq_false, if_false]
      intro _
      refine ⟨hR, hA, hC.1, ?_⟩
      intro c2 hc2 hnz
      by_cases hlast : c2 = c
      · subst hlast; exact absurd hz hnz
      · exact hC.2 c2 (by omega) hnz
    · simp only [ne_eq, hz, not_false_eq_true, if_true]
      by_cases hroom : nnz ≤ s.adr
      · simp [hroom]
      · rw [if_neg hroom]
        intro _
        obtain ⟨g1, g2⟩ := rowStored_entry_write mat nc r c s hR hA hC
        refine ⟨g1, ?_, g2⟩
        simp only [Function.update_same]
        omega

theorem dataInv_row {R : Type} [Zero R] [DecidableEq R] (mat : Nat → R)
    (nc nnz r : Nat) (s : SparseBuf R)
    (h : s.full = false → RowsStored mat nc s r) :
    (dense2sparseRow mat nc nnz s r).full = false →
      RowsStored mat nc (dense2sparseRow mat nc nnz s r) (r + 1) := by
  unfold dense2sparseRow
  by_cases hfull : s.full = true
  · simp [hfull]
  · have hf : s.full = false := by simpa using hfull
    rw [if_neg hfull]
    have key := foldl_range_induction (dense2sparseEntry mat nc nnz r)
      (fun c s2 => s2.full = false →
        RowsStored mat nc s2 r ∧ s2.rowadr r + s2.rownnz r = s2.adr ∧ RowStored mat nc s2 r c)
      nc { s with
        rownnz := Function.update s.rownnz r 0
        rowadr := Function.update s.rowadr r s.adr }
      (by
        intro _
        refine ⟨?_, by simp, ?_, ?_⟩
        · intro r2 hr2
          obtain ⟨hle, h1, h2⟩ := h hf r2 hr2
          have hne : r2 ≠ r := Nat.ne_of_lt hr2
          simp only [RowStored, Function.update_noteq hne]
          exact ⟨hle, h1, h2⟩
        · intro j hj
          simp at hj
        · intro c2 hc2
          omega)
      (fun c s2 _ hs2 => dataInv_entry mat nc nnz r c s2 hs2)
    intro hfin
    obtain ⟨hR, hA, hC⟩ := key hfin
    intro r2 hr2
    by_cases hlast : r2 = r
    · subst hlast
      exact ⟨by omega, hC⟩
    · exact hR r2 (by omega)

theorem dataInv_final {R : Type} [Zero R] [DecidableEq R] (res : Nat → R) (mat : Nat → R)
    (nr nc : Nat) (rownnz rowadr colind : Nat → Nat) (nnz : Nat) :
    ((List.range nr).foldl (dense2sparseRow mat nc nnz)
        ⟨res, rownnz, rowadr, colind, 0, false⟩).full = false →
      RowsStored mat nc
        ((List.range nr).foldl (dense2sparseRow mat nc nnz)
          ⟨res, rownnz, rowadr, colind, 0, false⟩) nr := by
  apply foldl_range_induction (dense2sparseRow mat nc nnz)
    (fun r s => s.full = false → RowsStored mat nc s r)
  · intro _ r2 hr2
    omega
  · intro r s _ hs
    exact dataInv_row mat nc nnz r s hs

/-! ## Sparse to dense and the round trip -/

theorem scatterRow_spec {R : Type} (idx : Nat → Nat) (val : Nat → R) (g : Nat → R) (n : Nat)
    (d0 : Nat → R) (hval : ∀ j, j < n → val j = g (idx j)) (q : Nat) :
    ((∃ j, j < n ∧ idx j = q) →
        (List.range n).foldl (fun dense j => Function.update dense (idx j) (val j)) d0 q = g q) ∧
      ((∀ j, j < n → idx j ≠ q) →
        (List.range n).foldl (fun dense j => Function.update dense (idx j) (val j)) d0 q
          = d0 q) := by
  have key := foldl_range_induction
    (fun dense j => Function.update dense (idx j) (val j))
    (fun k d => k ≤ n →
      ((∃ j, j < k ∧ idx j = q) → d q = g q) ∧ ((∀ j, j < k → idx j ≠ q) → d q = d0 q))
    n d0
    (by
      intro _
      exact ⟨fun ⟨j, hj, _⟩ => absurd hj (Nat.not_lt_zero j), fun _ => rfl⟩)
    (by
      intro k d hk hd hk2
      beta_reduce
      obtain ⟨h1, h2⟩ := hd (by omega)
      by_cases hq : idx k = q
      · refine ⟨fun _ => ?_, fun hall => absurd hq (hall k (by omega))⟩
        rw [← hq, Function.update_same, hval k hk]
      · have hq2 : q ≠ idx k := fun h => hq h.symm
        refine ⟨?_, ?_⟩
        · rintro ⟨j, hj, hjq⟩
          rw [Function.update_noteq hq2]
          have hjk : j ≠ k := fun h => hq (h ▸ hjq)
          exact h1 ⟨j, by omega, hjq⟩
        · intro hall
          rw [Function.update_noteq hq2]
          exact h2 (fun j hj => hall j (by omega)))
  exact key (le_refl n)

theorem sparse2dense_spec {R : Type} [Zero R] (res mat g : Nat → R) (nr nc : Nat)
    (rownnz rowadr colind : Nat → Nat)
    (hval : ∀ r, r < nr → ∀ j, j < rownnz r →
      mat (rowadr r + j) = g (r * nc + colind (rowadr r + j)))
    (q : Nat) :
    ((∃ r j, r < nr ∧ j < rownnz r ∧ r * nc + colind (rowadr r + j) = q) →
        mju_sparse2dense res mat nr nc rownnz rowadr colind q = g q) ∧
      ((∀ r j, r < nr → j < rownnz r → r * nc + colind (rowadr r + j) ≠ q) →
        mju_sparse2dense res mat nr nc rownnz rowadr colind q =
          if q < nr * nc then 0 else res q) := by
  unfold mju_sparse2dense
  have key := foldl_range_induction
    (fun dense r =>
      (List.range (rownnz r)).foldl
        (fun dense j => Function.update dense (r * nc + colind (rowadr r + j)) (mat (rowadr r + j)))
        dense)
    (fun k d => k ≤ nr →
      ((∃ r j, r < k ∧ j < rownnz r ∧ r * nc + colind (rowadr r + j) = q) → d q = g q) ∧
      ((∀ r j, r < k → j < rownnz r → r * nc + colind (rowadr r + j) ≠ q) →
        d q = if q < nr * nc then 0 else res q))
    nr (fun p => if p < nr * nc then 0 else res p)
    (by
      intro _
      exact ⟨fun ⟨r, _, hr, _⟩ => absurd hr (Nat.not_lt_zero r), fun _ => rfl⟩)
    (by
      intro k d hk hd hk2
      beta_reduce
      obtain ⟨h1, h2⟩ := hd (by omega)
      obtain ⟨s1, s2⟩ := scatterRow_spec (fun j => k * nc + colind (rowadr k + j))
        (fun j => mat (rowadr k + j)) g (rownnz k) d (hval k hk) q
      by_cases hrow : ∃ j, j < rownnz k ∧ k * nc + colind (rowadr k + j) = q
      · refine ⟨fun _ => s1 hrow, fun hall => ?_⟩
        obtain ⟨j, hj, hjq⟩ := hrow
        exact absurd hjq (hall k j (by omega) hj)
      · have hrow2 : ∀ j, j < rownnz k → k * nc + colind (rowadr k + j) ≠ q :=
          fun j hj hjq => hrow ⟨j, hj, hjq⟩
        refine ⟨?_, ?_⟩
        · rintro ⟨r, j, hr, hj, hjq⟩
          rw [s2 hrow2]
          have hrk : r ≠ k := fun h => hrow2 j (h ▸ hj) (h ▸ hjq)
          exact h1 ⟨r, j, by omega, hj, hjq⟩
        · intro hall
          rw [s2 hrow2]
          exact h2 (fun r j hr hj => hall r j (by omega) hj))
  exact key (le_refl nr)

/-- C14: round trip. For a dense `nr x nc` matrix whose number of nonzeros fits
in the buffer (`nnz` entries), `mju_dense2sparse` returns 0 and
`mju_sparse2dense` of its output gives back the matrix at every position
`(r, c)`, with 0 at every position that has no stored entry. -/
theorem dense2sparse_sparse2dense_roundtrip {R : Type} [Zero R] [DecidableEq R]
    (res dst mat : Nat → R) (nr nc : Nat) (rownnz rowadr colind : Nat → Nat) (nnz : Nat)
    (hcap : nnzCount mat (nr * nc) ≤ nnz) :
    (mju_dense2sparse res mat nr nc rownnz rowadr colind nnz).2 = 0 ∧
    ∀ r c, r < nr → c < nc →
      mju_sparse2dense dst (mju_dense2sparse res mat nr nc rownnz rowadr colind nnz).1.res nr nc
          (mju_dense2sparse res mat nr nc rownnz rowadr colind nnz).1.rownnz
          (mju_dense2sparse res mat nr nc rownnz rowadr colind nnz).1.rowadr
          (mju_dense2sparse res mat nr nc rownnz rowadr colind nnz).1.colind (r * nc + c)
        = mat (r * nc + c) ∧
      ((∀ j, j < (mju_dense2sparse res mat nr nc rownnz rowadr colind nnz).1.rownnz r →
          (mju_dense2sparse res mat nr nc rownnz rowadr colind nnz).1.colind
            ((mju_dense2sparse res mat nr nc rownnz rowadr colind nnz).1.rowadr r + j) ≠ c) →
        mat (r * nc + c) = 0) := by
  obtain ⟨c1, -, -⟩ := capInv_final res mat nr nc rownnz rowadr colind nnz
  have hdata := dataInv_final res mat nr nc rownnz rowadr colind nnz
  simp only [mju_dense2sparse]
  generalize (List.range nr).foldl (dense2sparseRow mat nc nnz)
    ⟨res, rownnz, rowadr, colind, 0, false⟩ = s at c1 hdata
  have hfull : s.full = false := by
    cases hf : s.full with
    | false => rfl
    | true => exact absurd (c1.1 hf) (by omega)
  have hrows := hdata hfull
  refine ⟨by simp [hfull], ?_⟩
  intro r c hr hc
  obtain ⟨-, hP1, hP2⟩ := hrows r hr
  have hzero : (∀ j, j < s.rownnz r → s.colind (s.rowadr r + j) ≠ c) → mat (r * nc + c) = 0 := by
    intro hall
    by_contra hnz
    obtain ⟨j, hj, hcol⟩ := hP2 c hc hnz
    exact hall j hj hcol
  refine ⟨?_, hzero⟩
  obtain ⟨t1, t2⟩ := sparse2dense_spec dst s.res mat nr nc s.rownnz s.rowadr s.colind
    (fun r2 hr2 j hj => (hrows r2 hr2).2.1 j hj) (r * nc + c)
  by_cases hex : ∃ r2 j, r2 < nr ∧ j < s.rownnz r2 ∧ r2 * nc + s.colind (s.rowadr r2 + j) = r * nc + c
  · exact t1 hex
  · have hall : ∀ r2 j, r2 < nr → j < s.rownnz r2 →
        r2 * nc + s.colind (s.rowadr r2 + j) ≠ r * nc + c :=
      fun r2 j hr2 hj he => hex ⟨r2, j, hr2, hj, he⟩
    rw [t2 hall]
    have hlt : r * nc + c < nr * nc := by
      calc r * nc + c < r * nc + nc := by omega
        _ = (r + 1) * nc := by ring
        _ ≤ nr * nc := Nat.mul_le_mul_right nc hr
    rw [if_pos hlt]
    exact (hzero (fun j hj he => hall r j hr hj (by rw [he]))).symm

/-- Witness of C14: a 2 x 2 matrix with two nonzeros and a buffer of size 2. -/
theorem dense2sparse_sparse2dense_roundtrip_witness :
    (mju_dense2sparse (fun _ => 0) demoDense 2 2 (fun _ => 0) (fun _ => 0) (fun _ => 0) 2).2 = 0 ∧
    ∀ r c, r < 2 → c < 2 →
      mju_sparse2dense (fun _ => 9)
          (mju_dense2sparse (fun _ => 0) demoDense 2 2 (fun _ => 0) (fun _ => 0) (fun _ => 0) 2).1.res
          2 2
          (mju_dense2sparse (fun _ => 0) demoDense 2 2 (fun _ => 0) (fun _ => 0)
            (fun _ => 0) 2).1.rownnz
          (mju_dense2sparse (fun _ => 0) demoDense 2 2 (fun _ => 0) (fun _ => 0)
            (fun _ => 0) 2).1.rowadr
          (mju_dense2sparse (fun _ => 0) demoDense 2 2 (fun _ => 0) (fun _ => 0)
            (fun _ => 0) 2).1.colind (r * 2 + c)
        = demoDense (r * 2 + c) ∧
      ((∀ j, j < (mju_dense2sparse (fun _ => 0) demoDense 2 2 (fun _ => 0) (fun _ => 0)
            (fun _ => 0) 2).1.rownnz r →
          (mju_dense2sparse (fun _ => 0) demoDense 2 2 (fun _ => 0) (fun _ => 0)
            (fun _ => 0) 2).1.colind
            ((mju_dense2sparse (fun _ => 0) demoDense 2 2 (fun _ => 0) (fun _ => 0)
              (fun _ => 0) 2).1.rowadr r + j) ≠ c) →
        demoDense (r * 2 + c) = 0) :=
  dense2sparse_sparse2dense_roundtrip (fun _ => 0) (fun _ => 9) demoDense 2 2
    (fun _ => 0) (fun _ => 0) (fun _ => 0) 2 (by decide)

/-- C15: capacity failure. `mju_dense2sparse` returns 1 if the number of
nonzeros of the dense matrix exceeds the buffer size `nnz` and returns 0
otherwise, and it never writes at a position `nnz` or beyond of `res` or
`colind`, in the failing case included. -/
theorem dense2sparse_capacity {R : Type} [Zero R] [DecidableEq R]
    (res mat : Nat → R) (nr nc : Nat) (rownnz rowadr colind : Nat → Nat) (nnz : Nat) :
    ((mju_dense2sparse res mat nr nc rownnz rowadr colind nnz).2 = 1 ↔
        nnz < nnzCount mat (nr * nc)) ∧
      ((mju_dense2sparse res mat nr nc rownnz rowadr colind nnz).2 = 0 ↔
        nnzCount mat (nr * nc) ≤ nnz) ∧
      ∀ a, nnz ≤ a →
        (mju_dense2sparse res mat nr nc rownnz rowadr colind nnz).1.res a = res a ∧
        (mju_dense2sparse res mat nr nc rownnz rowadr colind nnz).1.colind a = colind a := by
  obtain ⟨c1, -, c3⟩ := capInv_final res mat nr nc rownnz rowadr colind nnz
  simp only [mju_dense2sparse]
  generalize (List.range nr).foldl (dense2sparseRow mat nc nnz)
    ⟨res, rownnz, rowadr, colind, 0, false⟩ = s at c1 c3
  refine ⟨?_, ?_, c3⟩
  · rw [← c1]
    cases s.full <;> simp
  · rw [← not_lt, ← c1]
    cases s.full <;> simp

/-! ## Bounds, commutativity and associativity of the merge -/

theorem mergeL_comm (l1 l2 : List Int) : mergeL l1 l2 = mergeL l2 l1 := by
  induction l1, l2 using mergeL.induct with
  | case1 l2 => rw [mergeL_nil_left, mergeL_nil_right]
  | case2 a l1 => rw [mergeL_nil_left, mergeL_nil_right]
  | case3 a l1 b l2 h ih =>
    rw [mergeL_cons_cons, if_pos h, mergeL_cons_cons, if_neg (by omega), if_pos (by omega), ih]
  | case4 a l1 b l2 h1 h2 ih =>
    rw [mergeL_cons_cons, if_neg h1, if_pos h2, mergeL_cons_cons, if_pos (by omega), ih]
  | case5 a l1 b l2 h1 h2 ih =>
    have hab : a = b := by omega
    subst hab
    rw [mergeL_cons_cons, if_neg h1, if_neg h2, mergeL_cons_cons, if_neg h1, if_neg h2, ih]

theorem length_mergeL_le (l1 l2 : List Int) :
    (mergeL l1 l2).length ≤ l1.length + l2.length := by
  induction l1, l2 using mergeL.induct with
  | case1 l2 => simp [mergeL_nil_left]
  | case2 a l1 => simp [mergeL_nil_right]
  | case3 a l1 b l2 h ih =>
    rw [mergeL_cons_cons, if_pos h]
    simp only [List.length_cons] at ih ⊢
    omega
  | case4 a l1 b l2 h1 h2 ih =>
    rw [mergeL_cons_cons, if_neg h1, if_pos h2]
    simp only [List.length_cons] at ih ⊢
    omega
  | case5 a l1 b l2 h1 h2 ih =>
    rw [mergeL_cons_cons, if_neg h1, if_neg h2]
    simp only [List.length_cons] at ih ⊢
    omega

theorem length_mergeL_ge (l1 l2 : List Int) :
    l1.length ≤ (mergeL l1 l2).length ∧ l2.length ≤ (mergeL l1 l2).length := by
  induction l1, l2 using mergeL.induct with
  | case1 l2 => simp [mergeL_nil_left]
  | case2 a l1 => simp [mergeL_nil_right]
  | case3 a l1 b l2 h ih =>
    rw [mergeL_cons_cons, if_pos h]
    simp only [List.length_cons] at ih ⊢
    omega
  | case4 a l1 b l2 h1 h2 ih =>
    rw [mergeL_cons_cons, if_neg h1, if_pos h2]
    simp only [List.length_cons] at ih ⊢
    omega
  | case5 a l1 b l2 h1 h2 ih =>
    rw [mergeL_cons_cons, if_neg h1, if_neg h2]
    simp only [List.length_cons] at ih ⊢
    omega

theorem eq_of_pairwise_lt_of_mem_iff (l1 l2 : List Int)
    (h1 : l1.Pairwise (· < ·)) (h2 : l2.Pairwise (· < ·))
    (h : ∀ x, x ∈ l1 ↔ x ∈ l2) : l1 = l2 := by
  have n1 : l1.Nodup := h1.imp (fun h => ne_of_lt h)
  have n2 : l2.Nodup := h2.imp (fun h => ne_of_lt h)
  exact List.eq_of_perm_of_sorted ((List.perm_ext_iff_of_nodup n1 n2).2 h) h1 h2

theorem mergeL_assoc (l1 l2 l3 : List Int) (h1 : l1.Pairwise (· < ·))
    (h2 : l2.Pairwise (· < ·)) (h3 : l3.Pairwise (· < ·)) :
    mergeL (mergeL l1 l2) l3 = mergeL l1 (mergeL l2 l3) := by
  apply eq_of_pairwise_lt_of_mem_iff
  · exact pairwise_mergeL _ _ (pairwise_mergeL _ _ h1 h2) h3
  · exact pairwise_mergeL _ _ h1 (pairwise_mergeL _ _ h2 h3)
  · intro x
    simp only [mem_mergeL]
    tauto

/-- C24: for all inputs of lengths `n1`, `n2` (no sortedness assumed) the count
`k` returned by `mj_mergeSorted` satisfies `max(n1, n2) <= k <= n1 + n2`, and
the buffer is left as it was at every position `k` or beyond, so at every
position `n1 + n2` or beyond: a buffer of `n1 + n2` entries is large enough. -/
theorem mj_mergeSorted_bounds (merge chain1 : IntArr) (n1 : Nat) (chain2 : IntArr) (n2 : Nat) :
    ∃ m k, mj_mergeSorted merge chain1 n1 chain2 n2 = some (m, k) ∧
      max n1 n2 ≤ k ∧ k ≤ n1 + n2 ∧
      (∀ p, k ≤ p → m p = merge p) ∧ (∀ p, n1 + n2 ≤ p → m p = merge p) := by
  obtain ⟨⟨m, k⟩, hr, hA⟩ := mj_mergeSorted_spec merge chain1 n1 chain2 n2
  obtain ⟨hk, -, -, hframe⟩ := hA
  simp only [Nat.zero_add] at hk hframe
  have hle := length_mergeL_le (readN chain1 0 n1) (readN chain2 0 n2)
  have hge := length_mergeL_ge (readN chain1 0 n1) (readN chain2 0 n2)
  rw [readN_length, readN_length] at hle hge
  refine ⟨m, k, hr, ?_, by omega, hframe, fun p hp => hframe p (by omega)⟩
  rw [hk]
  exact max_le hge.1 hge.2

/-- C25: `mj_mergeSorted` is commutative: for all inputs `a` (length `n1`) and
`b` (length `n2`), merging `(a, b)` and merging `(b, a)` return the same count
and write the same entries. -/
theorem mj_mergeSorted_comm (merge merge2 a : IntArr) (n1 : Nat) (b : IntArr) (n2 : Nat) :
    ∃ m m2 k, mj_mergeSorted merge a n1 b n2 = some (m, k) ∧
      mj_mergeSorted merge2 b n2 a n1 = some (m2, k) ∧ readN m 0 k = readN m2 0 k := by
  obtain ⟨m, hr, hw⟩ := mj_mergeSorted_eq merge a n1 b n2
  obtain ⟨m2, hr2, hw2⟩ := mj_mergeSorted_eq merge2 b n2 a n1
  rw [mergeL_comm (readN b 0 n2)] at hr2 hw2
  exact ⟨m, m2, _, hr, hr2, hw.trans hw2.symm⟩

/-- C26: `mj_mergeSorted` is associative on strictly increasing sequences: for
strictly increasing `a`, `b`, `c`, merging the merge of `(a, b)` with `c` and
merging `a` with the merge of `(b, c)` all return, with the same count and the
same entries written. -/
theorem mj_mergeSorted_assoc (buf1 buf2 buf3 buf4 a : IntArr) (n1 : Nat) (b : IntArr)
    (n2 : Nat) (c : IntArr) (n3 : Nat)
    (h1 : StrictInc a n1) (h2 : StrictInc b n2) (h3 : StrictInc c n3) :
    ∃ mab kab mbc kbc m k m2,
      mj_mergeSorted buf1 a n1 b n2 = some (mab, kab) ∧
      mj_mergeSorted buf2 mab kab c n3 = some (m, k) ∧
      mj_mergeSorted buf3 b n2 c n3 = some (mbc, kbc) ∧
      mj_mergeSorted buf4 a n1 mbc kbc = some (m2, k) ∧
      readN m 0 k = readN m2 0 k := by
  obtain ⟨mab, hab, wab⟩ := mj_mergeSorted_eq buf1 a n1 b n2
  obtain ⟨mbc, hbc, wbc⟩ := mj_mergeSorted_eq buf3 b n2 c n3
  obtain ⟨m, hm, wm⟩ := mj_mergeSorted_eq buf2 mab
    (mergeL (readN a 0 n1) (readN b 0 n2)).length c n3
  obtain ⟨m2, hm2, wm2⟩ := mj_mergeSorted_eq buf4 a n1 mbc
    (mergeL (readN b 0 n2) (readN c 0 n3)).length
  rw [wab] at hm wm
  rw [wbc] at hm2 wm2
  have hassoc := mergeL_assoc _ _ _ ((strictInc_iff _ _).1 h1) ((strictInc_iff _ _).1 h2)
    ((strictInc_iff _ _).1 h3)
  rw [← hassoc] at hm2 wm2
  exact ⟨mab, _, mbc, _, m, _, m2, hab, hm, hbc, hm2, wm.trans wm2.symm⟩

/-- Witness of C26 on the chains `[1,3,5]`, `[2,3,4]` and `[0,5,9]`. -/
theorem mj_mergeSorted_assoc_witness :
    ∃ mab kab mbc kbc m k m2,
      mj_mergeSorted (fun _ => 0) (ofList [1, 3, 5]) 3 (ofList [2, 3, 4]) 3 = some (mab, kab) ∧
      mj_mergeSorted (fun _ => 0) mab kab (ofList [0, 5, 9]) 3 = some (m, k) ∧
      mj_mergeSorted (fun _ => 0) (ofList [2, 3, 4]) 3 (ofList [0, 5, 9]) 3 = some (mbc, kbc) ∧
      mj_mergeSorted (fun _ => 0) (ofList [1, 3, 5]) 3 mbc kbc = some (m2, k) ∧
      readN m 0 k = readN m2 0 k :=
  mj_mergeSorted_assoc (fun _ => 0) (fun _ => 0) (fun _ => 0) (fun _ => 0)
    (ofList [1, 3, 5]) 3 (ofList [2, 3, 4]) 3 (ofList [0, 5, 9]) 3
    ((strictInc_iff _ _).2 (by decide)) ((strictInc_iff _ _).2 (by decide))
    ((strictInc_iff _ _).2 (by decide))

/-- C28: `mj_mergeSorted` does not remove the repeats inside one input: the
inputs `[1,1]` and `[2]` are weakly increasing, and merging them writes
`[1,1,2]`, in which 1 occurs twice, and returns 3, whatever the buffer held. -/
theorem mj_mergeSorted_keeps_repeats (merge : IntArr) :
    written (mj_mergeSorted merge (ofList [1, 1]) 2 (ofList [2]) 1) = some [1, 1, 2] ∧
      returned (mj_mergeSorted merge (ofList [1, 1]) 2 (ofList [2]) 1) = some 3 ∧
      (readN (ofList [1, 1]) 0 2).Pairwise (· ≤ ·) ∧ (readN (ofList [2]) 0 1).Pairwise (· ≤ ·) ∧
      ¬ ([1, 1, 2] : List Int).Nodup ∧ List.count (1 : Int) [1, 1, 2] = 2 := by
  obtain ⟨m, hr, hw⟩ := mj_mergeSorted_eq merge (ofList [1, 1]) 2 (ofList [2]) 1
  have hl : mergeL (readN (ofList [1, 1]) 0 2) (readN (ofList [2]) 0 1) = [1, 1, 2] := by
    simp [readN, ofList, mergeL_cons_cons, mergeL_nil_left, mergeL_nil_right]
  rw [hl] at hr hw
  refine ⟨?_, ?_, by decide, by decide, by decide, by decide⟩
  · rw [hr]; simpa [written] using hw
  · rw [hr]; simp [returned]

/-! ## Rounding of doubles -/

theorem F64.bitLength_zero (fuel : Nat) : F64.bitLength fuel 0 = 0 := by
  cases fuel <;> simp [F64.bitLength]

theorem F64.lt_two_pow_bitLength :
    ∀ (fuel n : Nat), n ≤ fuel → n < 2 ^ F64.bitLength fuel n := by
  intro fuel
  induction fuel with
  | zero =>
    intro n h
    have h0 : n = 0 := by omega
    subst h0
    simp [F64.bitLength]
  | succ fuel ih =>
    intro n h
    by_cases hn : n = 0
    · subst hn
      simp [F64.bitLength]
    · simp only [F64.bitLength, if_neg hn]
      have h2 := ih (n / 2) (by omega)
      rw [pow_succ]
      omega

theorem F64.two_pow_bitLength_le :
    ∀ (fuel n : Nat), n ≤ fuel → n ≠ 0 → 2 ^ (F64.bitLength fuel n - 1) ≤ n := by
  intro fuel
  induction fuel with
  | zero =>
    intro n h hn
    omega
  | succ fuel ih =>
    intro n h hn
    simp only [F64.bitLength, if_neg hn, Nat.add_sub_cancel]
    by_cases h0 : n / 2 = 0
    · rw [h0, F64.bitLength_zero]
      simp
      omega
    · have h1 := ih (n / 2) (by omega) h0
      have h2 := F64.lt_two_pow_bitLength fuel (n / 2) (by omega)
      have h3 : F64.bitLength fuel (n / 2) ≠ 0 := by
        intro hb
        rw [hb] at h2
        simp at h2
        exact h0 h2
      obtain ⟨c, hc⟩ : ∃ c, F64.bitLength fuel (n / 2) = c + 1 := ⟨_, (Nat.succ_pred h3).symm⟩
      rw [hc] at h1 ⊢
      simp only [Nat.add_sub_cancel] at h1
      rw [pow_succ]
      omega

theorem F64.bitLength_eq (n k : Nat) (h1 : 2 ^ k ≤ n) (h2 : n < 2 ^ (k + 1)) :
    F64.bitLength n n = k + 1 := by
  have hn : n ≠ 0 := by
    have : 0 < 2 ^ k := by positivity
    omega
  have h3 := F64.lt_two_pow_bitLength n n le_rfl
  have h4 := F64.two_pow_bitLength_le n n le_rfl hn
  have h5 : k < F64.bitLength n n :=
    (Nat.pow_lt_pow_iff_right (by norm_num : 1 < 2)).1 (lt_of_le_of_lt h1 h3)
  have h6 : F64.bitLength n n - 1 < k + 1 :=
    (Nat.pow_lt_pow_iff_right (by norm_num : 1 < 2)).1 (lt_of_le_of_lt h4 h2)
  omega

theorem F64.bitLength_le (n k : Nat) (h2 : n < 2 ^ k) : F64.bitLength n n ≤ k := by
  by_cases hn : n = 0
  · subst hn
    rw [F64.bitLength_zero]
    omega
  · have h4 := F64.two_pow_bitLength_le n n le_rfl hn
    have h6 : F64.bitLength n n - 1 < k :=
      (Nat.pow_lt_pow_iff_right (by norm_num : 1 < 2)).1 (lt_of_le_of_lt h4 h2)
    omega

theorem F64.round_spec (neg : Bool) (n : Nat) (e : Int) :
    F64.round neg n e = F64.inf neg ∨
      ∃ m e2, F64.round neg n e = F64.fin neg m e2 ∧ m < 2 ^ 53 ∧ -1074 ≤ e2 ∧ e2 ≤ 971 ∧
        (e2 ≠ -1074 → 2 ^ 52 ≤ m) ∧ (n ≠ 0 → -1074 ≤ e → m ≠ 0) := by
  unfold F64.round
  by_cases hn : n = 0
  · right
    exact ⟨0, -1074, by simp [hn], by norm_num, le_rfl, by norm_num, fun h => absurd rfl h,
      fun h => absurd hn h⟩
  · rw [if_neg hn]
    dsimp only
    have hb1 := F64.lt_two_pow_bitLength n n le_rfl
    have hb2 := F64.two_pow_bitLength_le n n le_rfl hn
    generalize F64.bitLength n n = b at hb1 hb2 ⊢
    have hbpos : 1 ≤ b := by
      by_contra hb
      have hb0 : b = 0 := by omega
      subst hb0
      simp at hb1
      exact hn hb1
    obtain ⟨s, hs⟩ : ∃ s : Int, s = max ((b : Int) - 53) (-1074 - e) := ⟨_, rfl⟩
    rw [← hs]
    have hs1 : (b : Int) - 53 ≤ s := hs ▸ le_max_left _ _
    have hs2 : -1074 - e ≤ s := hs ▸ le_max_right _ _
    have hs3 : s = (b : Int) - 53 ∨ s = -1074 - e := by
      rcases max_choice ((b : Int) - 53) (-1074 - e) with h | h
      · left; rw [hs, h]
      · right; rw [hs, h]
    clear hs
    by_cases hle : s ≤ 0
    · rw [if_pos hle]
      by_cases h971 : e + s > 971
      · left; rw [if_pos h971]
      · right
        rw [if_neg h971]
        obtain ⟨t, ht1, ht2⟩ : ∃ t : Nat, (-s).toNat = t ∧ (t : Int) = -s :=
          ⟨(-s).toNat, rfl, by omega⟩
        rw [ht1]
        refine ⟨_, _, rfl, ?_, by omega, by omega, ?_, ?_⟩
        · calc n * 2 ^ t < 2 ^ b * 2 ^ t := Nat.mul_lt_mul_of_pos_right hb1 (by positivity)
            _ = 2 ^ (b + t) := (pow_add 2 b t).symm
            _ ≤ 2 ^ 53 := Nat.pow_le_pow_right (by norm_num) (by omega)
        · intro hne
          have hsb : s = (b : Int) - 53 := by omega
          have hbt : b - 1 + t = 52 := by omega
          calc 2 ^ 52 = 2 ^ (b - 1) * 2 ^ t := by rw [← pow_add, hbt]
            _ ≤ n * 2 ^ t := Nat.mul_le_mul_right _ hb2
        · intro _ _
          have : 0 < 2 ^ t := by positivity
          exact Nat.mul_ne_zero hn (by omega)
    · rw [if_neg hle]
      obtain ⟨t, ht1, ht2⟩ : ∃ t : Nat, s.toNat = t ∧ (t : Int) = s := ⟨s.toNat, rfl, by omega⟩
      rw [ht1]
      have hq : n / 2 ^ t < 2 ^ 53 := by
        rw [Nat.div_lt_iff_lt_mul (by positivity)]
        calc n < 2 ^ b := hb1
          _ ≤ 2 ^ (53 + t) := Nat.pow_le_pow_right (by norm_num) (by omega)
          _ = 2 ^ 53 * 2 ^ t := pow_add 2 53 t
      have hq52 : e + s ≠ -1074 ∨ -1074 ≤ e → 2 ^ 52 ≤ n / 2 ^ t := by
        intro h
        have hsb : s = (b : Int) - 53 := by omega
        rw [Nat.le_div_iff_mul_le (by positivity)]
        have hbt : 52 + t = b - 1 := by omega
        calc 2 ^ 52 * 2 ^ t = 2 ^ (b - 1) := by rw [← pow_add, hbt]
          _ ≤ n := hb2
      generalize n / 2 ^ t = q at hq hq52 ⊢
      generalize n % 2 ^ t = r
      obtain ⟨q2, hq2, hq2a, hq2b⟩ : ∃ q2,
          q2 = (if 2 ^ (t - 1) < r ∨ (r = 2 ^ (t - 1) ∧ q % 2 = 1) then q + 1 else q) ∧
            q ≤ q2 ∧ q2 ≤ q + 1 := by
        refine ⟨_, rfl, ?_, ?_⟩ <;> split_ifs <;> omega
      rw [← hq2]
      by_cases hc : q2 = 2 ^ 53
      · rw [if_pos hc]
        by_cases h971 : e + s + 1 > 971
        · left; rw [if_pos h971]
        · right
          rw [if_neg h971]
          exact ⟨_, _, rfl, by norm_num, by omega, by omega, fun _ => le_rfl,
            fun _ _ => by norm_num⟩
      · rw [if_neg hc]
        by_cases h971 : e + s > 971
        · left; rw [if_pos h971]
        · right
          rw [if_neg h971]
          refine ⟨_, _, rfl, by omega, by omega, by omega, fun h => ?_, fun _ h => ?_⟩
          · exact le_trans (hq52 (Or.inl h)) hq2a
          · have h1 := hq52 (Or.inr h)
            have h2 : 0 < 2 ^ 52 := by positivity
            omega

theorem F64.round_canon (s : Bool) (m : Nat) (e : Int) (hm : m ≠ 0)
    (hd : F64.IsDouble (F64.fin s m e)) :
    F64.round s (m * 2 ^ (e + 1074).toNat) (-1074) = F64.fin s m e := by
  obtain ⟨h1, h2, h3, h4⟩ := hd
  obtain ⟨k, hk1, hk2⟩ : ∃ k : Nat, (e + 1074).toNat = k ∧ (k : Int) = e + 1074 :=
    ⟨_, rfl, by omega⟩
  rw [hk1]
  have hn : m * 2 ^ k ≠ 0 := Nat.mul_ne_zero hm (by positivity)
  unfold F64.round
  rw [if_neg hn]
  dsimp only
  by_cases hk : k = 0
  · subst hk
    have hb : F64.bitLength (m * 2 ^ 0) (m * 2 ^ 0) ≤ 53 :=
      F64.bitLength_le _ _ (by simpa using h1)
    have hs : max ((F64.bitLength (m * 2 ^ 0) (m * 2 ^ 0) : Int) - 53) (-1074 - -1074) = 0 := by
      rw [max_eq_right]
      · norm_num
      · omega
    rw [hs]
    have he : e = -1074 := by omega
    subst he
    simp
  · have h52 : 2 ^ 52 ≤ m := h4 (by omega)
    have hb : F64.bitLength (m * 2 ^ k) (m * 2 ^ k) = 52 + k + 1 := by
      apply F64.bitLength_eq
      · rw [pow_add]
        exact Nat.mul_le_mul_right _ h52
      · rw [show 52 + k + 1 = 53 + k by omega, pow_add]
        exact Nat.mul_lt_mul_of_pos_right h1 (by positivity)
    rw [hb]
    have hs : max (((52 + k + 1 : Nat) : Int) - 53) (-1074 - -1074) = (k : Int) := by
      rw [max_eq_left]
      · push_cast
        omega
      · push_cast
        omega
    rw [hs]
    have hkpos : ¬ (k : Int) ≤ 0 := by omega
    rw [if_neg hkpos]
    simp only [Int.toNat_ofNat]
    have hq : m * 2 ^ k / 2 ^ k = m := Nat.mul_div_cancel _ (by positivity)
    have hr : m * 2 ^ k % 2 ^ k = 0 := Nat.mul_mod_left _ _
    rw [hq, hr]
    have hhalf : ¬ (2 ^ (k - 1) < 0 ∨ (0 = 2 ^ (k - 1) ∧ m % 2 = 1)) := by
      have : 0 < 2 ^ (k - 1) := by positivity
      omega
    rw [if_neg hhalf, if_neg (by omega : ¬ m = 2 ^ 53), if_neg (by omega)]
    congr 1
    omega

theorem F64.mul_self_cases (d : F64) :
    d * d = F64.nan ∨ d * d = F64.inf false ∨
      ∃ m e, d * d = F64.fin false m e ∧ -1074 ≤ e := by
  show F64.mul d d = _ ∨ F64.mul d d = _ ∨ ∃ m e, F64.mul d d = _ ∧ _
  cases d with
  | nan => left; rfl
  | inf s => right; left; simp [F64.mul]
  | fin s m e =>
    simp only [F64.mul, Bool.xor_self]
    rcases F64.round_spec false (m * m) (e + e) with h | ⟨m2, e2, h, -, h2, -⟩
    · right; left; exact h
    · right; right; exact ⟨m2, e2, h, h2⟩

theorem F64.sub_squares (d r : F64) :
    F64.IsDouble (d * d - r * r) ∧ ∀ s e, d * d - r * r = F64.fin s 0 e → s = false := by
  show F64.IsDouble (F64.add (d * d) (F64.neg (r * r))) ∧
    ∀ s e, F64.add (d * d) (F64.neg (r * r)) = F64.fin s 0 e → s = false
  rcases F64.mul_self_cases d with hA | hA | ⟨mA, eA, hA, hA2⟩ <;>
    rcases F64.mul_self_cases r with hB | hB | ⟨mB, eB, hB, hB2⟩ <;> rw [hA, hB]
  · simp [F64.add, F64.neg, F64.IsDouble]
  · simp [F64.add, F64.neg, F64.IsDouble]
  · simp [F64.add, F64.neg, F64.IsDouble]
  · simp [F64.add, F64.neg, F64.IsDouble]
  · simp [F64.add, F64.neg, F64.IsDouble]
  · simp [F64.add, F64.neg, F64.IsDouble]
  · simp [F64.add, F64.neg, F64.IsDouble]
  · simp [F64.add, F64.neg, F64.IsDouble]
  · simp only [F64.neg, F64.add]
    split_ifs with hv
    · refine ⟨⟨by norm_num, le_rfl, by norm_num, fun h => absurd rfl h⟩, ?_⟩
      intro s e h
      injection h with h1 h2 h3
      rw [← h1]
      rfl
    · have hmin : -1074 ≤ min eA eB := le_min hA2 hB2
      have habs : (F64.scaled false mA eA (min eA eB) +
          F64.scaled (!false) mB eB (min eA eB)).natAbs ≠ 0 := by
        rw [Int.natAbs_ne_zero]
        exact hv
      rcases F64.round_spec
          (decide (F64.scaled false mA eA (min eA eB) +
            F64.scaled (!false) mB eB (min eA eB) < 0))
          (F64.scaled false mA eA (min eA eB) +
            F64.scaled (!false) mB eB (min eA eB)).natAbs (min eA eB) with
        h | ⟨m, e, h, h1, h2, h3, h4, h5⟩
      · rw [h]
        refine ⟨trivial, ?_⟩
        intro s e h
        cases h
      · rw [h]
        refine ⟨⟨h1, h2, h3, h4⟩, ?_⟩
        intro s e2 heq
        injection heq with g1 g2 g3
        exact absurd g2 (h5 habs hmin)

theorem F64.add_zero_of_isDouble (y : F64) (sz : Bool) (hd : F64.IsDouble y)
    (hz : ∀ s e, y = F64.fin s 0 e → s = false) : y + F64.fin sz 0 (-1074) = y := by
  show F64.add y (F64.fin sz 0 (-1074)) = y
  cases y with
  | nan => rfl
  | inf s => rfl
  | fin s m e =>
    obtain ⟨h1, h2, h3, h4⟩ := hd
    simp only [F64.add]
    have he0 : min e (-1074) = -1074 := min_eq_right h2
    rw [he0]
    have hz2 : F64.scaled sz 0 (-1074) (-1074) = 0 := by simp [F64.scaled]
    rw [hz2, add_zero]
    by_cases hm : m = 0
    · subst hm
      have hs := hz s e rfl
      subst hs
      have he : e = -1074 := by
        by_contra hc
        have h5 := h4 hc
        simp at h5
      subst he
      simp [F64.scaled]
    · have hpos : 0 < m * 2 ^ (e - -1074).toNat := by positivity
      have hv : F64.scaled s m e (-1074) ≠ 0 := by
        unfold F64.scaled
        cases s <;> simp <;> omega
      rw [if_neg hv]
      have hneg : decide (F64.scaled s m e (-1074) < 0) = s := by
        unfold F64.scaled
        cases s
        · simp
        · simp
          omega
      have habs : (F64.scaled s m e (-1074)).natAbs = m * 2 ^ (e + 1074).toNat := by
        unfold F64.scaled
        rw [sub_neg_eq_add]
        cases s <;> simp [Int.natAbs_mul, Int.natAbs_pow]
      rw [hneg, habs]
      exact F64.round_canon s m e hm ⟨h1, h2, h3, h4⟩

theorem F64.zero_div_eq (a t : F64) (ha : a.isZero = true) (ht0 : t.isZero = false)
    (htn : t.isNaN = false) : ∃ s, a / t = F64.fin s 0 (-1074) := by
  show ∃ s, F64.div a t = F64.fin s 0 (-1074)
  cases a with
  | nan => simp [F64.isZero] at ha
  | inf sa => simp [F64.isZero] at ha
  | fin sa ma ea =>
    have hm : ma = 0 := by simpa [F64.isZero] using ha
    subst hm
    cases t with
    | nan => simp [F64.isNaN] at htn
    | inf st => exact ⟨_, rfl⟩
    | fin st mt et =>
      have hmt : mt ≠ 0 := by simpa [F64.isZero] using ht0
      exact ⟨xor sa st, by simp [F64.div, hmt, F64.round_zero]⟩

theorem F64.finite_mul_zero (x : F64) (s : Bool) (hx : x.isFinite = true) :
    ∃ s2, x * F64.fin s 0 (-1074) = F64.fin s2 0 (-1074) := by
  show ∃ s2, F64.mul x (F64.fin s 0 (-1074)) = F64.fin s2 0 (-1074)
  cases x with
  | nan => simp [F64.isFinite] at hx
  | inf sx => simp [F64.isFinite] at hx
  | fin sx mx ex => exact ⟨xor sx s, by simp [F64.mul, F64.round_zero]⟩

/-- Without damping the elongation of an edge is the difference of the squares
as the doubles compute it: if `damping` is a zero, the time step `t` is neither
a zero nor a NaN, and the difference `d * d - p * p` that the damping term
multiplies is finite, the damping term is a zero and adding it changes nothing. -/
theorem F64.elongation_undamped (d r p damping t : F64) (hz : damping.isZero = true)
    (ht0 : t.isZero = false) (htn : t.isNaN = false)
    (hfin : (d * d - p * p).isFinite = true) :
    d * d - r * r + (d * d - p * p) * (damping / t) = d * d - r * r := by
  obtain ⟨sk, hk⟩ := F64.zero_div_eq damping t hz ht0 htn
  obtain ⟨s2, h2⟩ := F64.finite_mul_zero (d * d - p * p) sk hfin
  rw [hk, h2]
  exact F64.add_zero_of_isDouble _ _ (F64.sub_squares d r).1 (F64.sub_squares d r).2

/-! ## `Solid::Compute` when the history is not updated -/

theorem elongationLoop_idem {R : Type} [Zero R] [Add R] [Sub R] [Mul R]
    (deformed ref : Int → R) (prev : List R) (kD : R) (ne : Int) (elongation : List R) :
    elongationLoop deformed ref prev kD ne
        (elongationLoop deformed ref prev kD ne elongation) =
      elongationLoop deformed ref prev kD ne elongation := by
  apply List.ext_getElem?
  intro j
  rw [elongationLoop_get?, elongationLoop_length, elongationLoop_get?]
  by_cases hj : j < ne.toNat
  · simp only [hj, if_true]
  · simp only [hj, if_false]

/-- A call of `Solid::Compute` in which `damping / timestep > 0` is false leaves
a history with which a second call on the same edge lengths computes the same
elongation, and the second call leaves that history as it is. -/
theorem Solid.Compute_again {R : Type} [Zero R] [Add R] [Sub R] [Mul R] [Div R] [LT R]
    [∀ a b : R, Decidable (a < b)]
    (computeForce : List R → List R → mjModel R → Int → (Int → R) → List R)
    (addFlexForce : (Int → R) → List R → mjModel R → mjData R → (Int → R) → Int → (Int → R))
    (self : Solid R) (m : mjModel R) (d d2 : mjData R) (inst : Int)
    (hk : ¬ 0 < self.damping / m.opt_timestep)
    (hd2 : d2.flexedge_length = d.flexedge_length) :
    (Solid.Compute computeForce addFlexForce
        (Solid.Compute computeForce addFlexForce self m d inst).1 m d2 inst).1.elongation =
      (Solid.Compute computeForce addFlexForce self m d inst).1.elongation ∧
    (Solid.Compute computeForce addFlexForce
        (Solid.Compute computeForce addFlexForce self m d inst).1 m d2 inst).1.prev =
      (Solid.Compute computeForce addFlexForce self m d inst).1.prev := by
  have hdamp1 : (Solid.Compute computeForce addFlexForce self m d inst).1.damping =
      self.damping := rfl
  have hne1 : (Solid.Compute computeForce addFlexForce self m d inst).1.ne = self.ne := rfl
  have hf1 : (Solid.Compute computeForce addFlexForce self m d inst).1.f0 = self.f0 := rfl
  have hprev1 : (Solid.Compute computeForce addFlexForce self m d inst).1.prev =
      if self.prev.isEmpty then
        memcpyVec (List.replicate self.ne.toNat 0)
          (fun i => m.flexedge_length0 (m.flex_edgeadr self.f0 + i)) self.ne.toNat
      else self.prev := by
    rw [Solid.Compute_prev_eq, if_neg hk]
  have hhist : (if (Solid.Compute computeForce addFlexForce self m d inst).1.prev.isEmpty then
        memcpyVec (List.replicate self.ne.toNat 0)
          (fun i => m.flexedge_length0 (m.flex_edgeadr self.f0 + i)) self.ne.toNat
      else (Solid.Compute computeForce addFlexForce self m d inst).1.prev) =
      if self.prev.isEmpty then
        memcpyVec (List.replicate self.ne.toNat 0)
          (fun i => m.flexedge_length0 (m.flex_edgeadr self.f0 + i)) self.ne.toNat
      else self.prev := by
    rw [hprev1]
    cases hp : self.prev with
    | nil =>
      simp only [List.isEmpty_nil, if_true]
      split <;> rfl
    | cons a l =>
      simp only [List.isEmpty_cons, Bool.false_eq_true, if_false]
  refine ⟨?_, ?_⟩
  · rw [Solid.Compute_elongation_eq, hdamp1, hne1, hf1, hhist, hd2,
      Solid.Compute_elongation_eq, elongationLoop_idem]
  · rw [Solid.Compute_prev_eq, hdamp1, if_neg hk, hne1, hf1, hhist, hprev1]

/-! ## Two calls of `Solid::Compute` without damping -/

/-- C21 as stated fails in the arithmetic of the source. With damping 0, edges
of reference lengths 1 and 2 and deformed lengths 3 and 5: at the time step 0
the quotient `kD = 0 / 0` is a NaN and the elongation is `[NaN, NaN]`, not
`[3^2 - 1^2, 5^2 - 2^2] = [8, 21]`; the same at a time step that is a NaN. With
the time step 1/100 and the deformed length `2^600` of edge 0 the square
overflows: `deformed^2 - ref^2` is `+inf`, the damping term `inf * 0` is a NaN,
and the elongation of edge 0 is a NaN, not `+inf`. -/
theorem Solid.Compute_idempotent_counterexample :
    let self : Solid F64 := edgeSolid 0
    let d : mjData F64 := edgeData (F64.ofNat 3) (F64.ofNat 5)
    let big : F64 := F64.fin false (2 ^ 52) 548
    self.damping = 0 ∧
      (Solid.Compute (fun f _ _ _ _ => f) (fun q _ _ _ _ _ => q) self
        (edgeModel 0 (F64.ofNat 1) (F64.ofNat 2)) d 0).1.elongation = [F64.nan, F64.nan] ∧
      (Solid.Compute (fun f _ _ _ _ => f) (fun q _ _ _ _ _ => q) self
        (edgeModel F64.nan (F64.ofNat 1) (F64.ofNat 2)) d 0).1.elongation =
          [F64.nan, F64.nan] ∧
      F64.ofNat 3 * F64.ofNat 3 - F64.ofNat 1 * F64.ofNat 1 = F64.ofNat 8 ∧
      F64.ofNat 5 * F64.ofNat 5 - F64.ofNat 2 * F64.ofNat 2 = F64.ofNat 21 ∧
      (Solid.Compute (fun f _ _ _ _ => f) (fun q _ _ _ _ _ => q) self
        (edgeModel (F64.ofFrac 1 100) (F64.ofNat 1) (F64.ofNat 2))
        (edgeData big (F64.ofNat 5)) 0).1.elongation[0]? = some F64.nan ∧
      big * big - F64.ofNat 1 * F64.ofNat 1 = F64.inf false := by
  set_option maxRecDepth 1000000 in decide

/-- C21 amended: with damping equal to 0 (a zero of the doubles),
`Solid::Compute` can be re-run idempotently: for every model and edge lengths,
two consecutive calls on the same inputs produce the same elongation array, and
the second call leaves `prev` unchanged; the array equals
`deformed[idx]^2 - ref[idx]^2` at every edge `idx` in `[0, ne)` where
`deformed[idx]^2 - prev[idx]^2` is finite (`prev` being `ref` when the history is
empty), provided the time step is neither 0 nor NaN. The numbers are doubles and
the squares are the products of the source; the vector `elongation` has the size
`ne` given by the constructor. -/
theorem Solid.Compute_idempotent
    (computeForce : List F64 → List F64 → mjModel F64 → Int → (Int → F64) → List F64)
    (addFlexForce :
      (Int → F64) → List F64 → mjModel F64 → mjData F64 → (Int → F64) → Int → (Int → F64))
    (self : Solid F64) (m : mjModel F64) (d d2 : mjData F64) (inst : Int)
    (hdamp : self.damping.isZero = true)
    (hd2 : d2.flexedge_length = d.flexedge_length) :
    (Solid.Compute computeForce addFlexForce
        (Solid.Compute computeForce addFlexForce self m d inst).1 m d2 inst).1.elongation =
      (Solid.Compute computeForce addFlexForce self m d inst).1.elongation ∧
    (Solid.Compute computeForce addFlexForce
        (Solid.Compute computeForce addFlexForce self m d inst).1 m d2 inst).1.prev =
      (Solid.Compute computeForce addFlexForce self m d inst).1.prev ∧
    (m.opt_timestep.isZero = false → m.opt_timestep.isNaN = false →
      self.elongation.length = self.ne.toNat →
      ∀ idx : Nat, (idx : Int) < self.ne →
        let deformed := d.flexedge_length (m.flex_edgeadr self.f0 + idx)
        let ref := m.flexedge_length0 (m.flex_edgeadr self.f0 + idx)
        (self.prev = [] → (deformed * deformed - ref * ref).isFinite = true →
          (Solid.Compute computeForce addFlexForce self m d inst).1.elongation[idx]? =
            some (deformed * deformed - ref * ref)) ∧
        (∀ p, self.prev[idx]? = some p → (deformed * deformed - p * p).isFinite = true →
          (Solid.Compute computeForce addFlexForce self m d inst).1.elongation[idx]? =
            some (deformed * deformed - ref * ref))) := by
  have hk : ¬ 0 < self.damping / m.opt_timestep := F64.zero_div_not_pos _ _ hdamp
  obtain ⟨h1, h2⟩ := Solid.Compute_again computeForce addFlexForce self m d d2 inst hk hd2
  refine ⟨h1, h2, ?_⟩
  intro ht0 htn hlen idx hidx deformed ref
  have hi : idx < self.ne.toNat := by omega
  refine ⟨?_, ?_⟩
  · intro he hfin
    rw [Solid.Compute_elongation_eq, elongationLoop_getElem? _ _ _ _ _ _ idx hidx hlen]
    simp only [he, List.isEmpty_nil, if_true, memcpyVec_replicate]
    rw [getD_map_range _ _ _ hi]
    exact congrArg some (F64.elongation_undamped deformed ref ref _ _ hdamp ht0 htn hfin)
  · intro p hp hfin
    have hne : self.prev.isEmpty = false := by
      cases hq : self.prev with
      | nil => rw [hq] at hp; simp at hp
      | cons a l => rfl
    have hg : self.prev.getD idx 0 = p := by
      simp [List.getD_eq_getElem?_getD, hp]
    rw [Solid.Compute_elongation_eq, elongationLoop_getElem? _ _ _ _ _ _ idx hidx hlen]
    simp only [hne, Bool.false_eq_true, if_false, hg]
    exact congrArg some (F64.elongation_undamped deformed ref p _ _ hdamp ht0 htn hfin)

/-- Witness of C21 amended: two calls on a flex with two edges of reference
lengths 1 and 2 and deformed lengths 3 and 5, without damping, at the time step
1/100: the elongation of edge 1 is `5 * 5 - 2 * 2 = 21`. -/
theorem Solid.Compute_idempotent_witness :
    let self : Solid F64 := edgeSolid 0
    let m : mjModel F64 := edgeModel (F64.ofFrac 1 100) (F64.ofNat 1) (F64.ofNat 2)
    let d : mjData F64 := edgeData (F64.ofNat 3) (F64.ofNat 5)
    (Solid.Compute (fun f _ _ _ _ => f) (fun q _ _ _ _ _ => q)
        (Solid.Compute (fun f _ _ _ _ => f) (fun q _ _ _ _ _ => q) self m d 0).1
          m d 0).1.elongation =
      (Solid.Compute (fun f _ _ _ _ => f) (fun q _ _ _ _ _ => q) self m d 0).1.elongation ∧
    (Solid.Compute (fun f _ _ _ _ => f) (fun q _ _ _ _ _ => q)
        (Solid.Compute (fun f _ _ _ _ => f) (fun q _ _ _ _ _ => q) self m d 0).1
          m d 0).1.prev =
      (Solid.Compute (fun f _ _ _ _ => f) (fun q _ _ _ _ _ => q) self m d 0).1.prev ∧
    (Solid.Compute (fun f _ _ _ _ => f) (fun q _ _ _ _ _ => q) self m d 0).1.elongation[1]? =
      some (F64.ofNat 5 * F64.ofNat 5 - F64.ofNat 2 * F64.ofNat 2) := by
  intro self m d
  have h := Solid.Compute_idempotent (fun f _ _ _ _ => f) (fun q _ _ _ _ _ => q)
    self m d d 0 rfl rfl
  have ht0 : m.opt_timestep.isZero = false := by
    set_option maxRecDepth 1000000 in decide
  have htn : m.opt_timestep.isNaN = false := by
    set_option maxRecDepth 1000000 in decide
  have hfin : (F64.ofNat 5 * F64.ofNat 5 - F64.ofNat 2 * F64.ofNat 2).isFinite = true := by
    set_option maxRecDepth 1000000 in decide
  exact ⟨h.1, h.2.1, (h.2.2 ht0 htn rfl 1 (by decide)).1 rfl hfin⟩

/-! ## The reads of the sparse dot product -/

theorem unrolledLoopReads_counter {R : Type} [Add R] (t : Nat → R) (ind1 : Nat → Nat)
    (flg_unc1 : Int) (n_4 : Int) :
    ∀ (fuel : Nat) (s : DotState R) (acc : List Read),
      (unrolledLoop t n_4 fuel s).map (fun s2 => s2.i) =
        (unrolledLoopReads ind1 flg_unc1 n_4 fuel s.i acc).map (fun r => r.1) := by
  intro fuel
  induction fuel with
  | zero =>
    intro s acc
    unfold unrolledLoop unrolledLoopReads
    split <;> rfl
  | succ fuel ih =>
    intro s acc
    unfold unrolledLoop unrolledLoopReads
    split
    · exact ih _ _
    · rfl

theorem termReads_inRange (ind1 : Nat → Nat) (flg_unc1 : Int) (nnz1 lenInd len1 len2 : Nat)
    (hind : nnz1 ≤ lenInd) (hrange : ∀ i, i < nnz1 → ind1 i < len2)
    (hvec1 : if flg_unc1 = 0 then nnz1 ≤ len1 else ∀ i, i < nnz1 → ind1 i < len1)
    (p : Nat) (hp : p < nnz1) :
    ∀ e, e ∈ termReads ind1 flg_unc1 p → Read.InRange lenInd len1 len2 e := by
  intro e he
  unfold termReads at he
  by_cases hf : flg_unc1 = 0
  · rw [if_pos hf] at hvec1
    simp only [hf, ne_eq, not_true_eq_false, if_false, List.mem_cons, List.mem_singleton,
      List.mem_nil_iff, or_false] at he
    rcases he with rfl | rfl | rfl
    · show p < len1; omega
    · show p < lenInd; omega
    · exact hrange p hp
  · rw [if_neg hf] at hvec1
    simp only [hf, ne_eq, not_false_eq_true, if_true, List.mem_cons, List.mem_singleton,
      List.mem_nil_iff, or_false] at he
    rcases he with rfl | rfl | rfl | rfl
    · show p < lenInd; omega
    · exact hvec1 p hp
    · show p < lenInd; omega
    · exact hrange p hp

theorem unrolledLoopReads_spec (ind1 : Nat → Nat) (flg_unc1 : Int) (nnz1 : Nat)
    (P : Read → Prop) (hP : ∀ p, p < nnz1 → ∀ e, e ∈ termReads ind1 flg_unc1 p → P e) :
    ∀ (fuel i : Nat) (acc : List Read), i ≤ nnz1 → nnz1 - i ≤ fuel → (∀ e, e ∈ acc → P e) →
      ∃ i2 acc2, unrolledLoopReads ind1 flg_unc1 ((nnz1 : Int) - 4) fuel i acc = some (i2, acc2) ∧
        i2 ≤ nnz1 ∧ (∀ e, e ∈ acc2 → P e) ∧ (nnz1 < i + 4 → i2 = i ∧ acc2 = acc) := by
  intro fuel
  induction fuel with
  | zero =>
    intro i acc hi hf hacc
    have hc : ¬ ((i : Int) ≤ (nnz1 : Int) - 4) := by omega
    exact ⟨i, acc, by unfold unrolledLoopReads; simp [hc], hi, hacc, fun _ => ⟨rfl, rfl⟩⟩
  | succ fuel ih =>
    intro i acc hi hf hacc
    by_cases hc : (i : Int) ≤ (nnz1 : Int) - 4
    · obtain ⟨i2, acc2, h1, h2, h3, -⟩ := ih (i + 4)
        (acc ++ termReads ind1 flg_unc1 (i + 0) ++ termReads ind1 flg_unc1 (i + 1) ++
          termReads ind1 flg_unc1 (i + 2) ++ termReads ind1 flg_unc1 (i + 3))
        (by omega) (by omega)
        (by
          intro e he
          simp only [List.mem_append] at he
          rcases he with (((he | he) | he) | he) | he
          · exact hacc e he
          · exact hP (i + 0) (by omega) e he
          · exact hP (i + 1) (by omega) e he
          · exact hP (i + 2) (by omega) e he
          · exact hP (i + 3) (by omega) e he)
      refine ⟨i2, acc2, ?_, h2, h3, fun h => by omega⟩
      unfold unrolledLoopReads
      simp only [hc, if_true]
      exact h1
    · exact ⟨i, acc, by unfold unrolledLoopReads; simp [hc], hi, hacc, fun _ => ⟨rfl, rfl⟩⟩

theorem scalarLoopReads_spec (ind1 : Nat → Nat) (flg_unc1 : Int) (nnz1 : Nat)
    (P : Read → Prop) (hP : ∀ p, p < nnz1 → ∀ e, e ∈ termReads ind1 flg_unc1 p → P e) :
    ∀ (fuel i : Nat) (acc : List Read), nnz1 - i ≤ fuel → (∀ e, e ∈ acc → P e) →
      ∃ acc2, scalarLoopReads ind1 flg_unc1 nnz1 fuel i acc = some acc2 ∧
        ∀ e, e ∈ acc2 → P e := by
  intro fuel
  induction fuel with
  | zero =>
    intro i acc hf hacc
    have hc : ¬ i < nnz1 := by omega
    exact ⟨acc, by unfold scalarLoopReads; simp [hc], hacc⟩
  | succ fuel ih =>
    intro i acc hf hacc
    by_cases hc : i < nnz1
    · obtain ⟨acc2, h1, h2⟩ := ih (i + 1) (acc ++ termReads ind1 flg_unc1 i) (by omega)
        (by
          intro e he
          rcases List.mem_append.1 he with he | he
          · exact hacc e he
          · exact hP i hc e he)
      refine ⟨acc2, ?_, h2⟩
      unfold scalarLoopReads
      simp only [hc, if_true]
      exact h1
    · exact ⟨acc, by unfold scalarLoopReads; simp [hc], hacc⟩

/-- C27: if `ind1` has at least `nnz1` entries, each below the length of `vec2`,
and `vec1` has at least `nnz1` entries (compressed layout) or contains every
index `ind1[i]` (uncompressed layout), then every read of `mju_dotSparse` is
inside its array; the unrolled loop only reads at positions below `nnz1`
(`i + 3 <= nnz1 - 1` in each round) and does nothing when `nnz1 < 4`. -/
theorem mju_dotSparse_reads_inRange (nnz1 : Nat) (ind1 : Nat → Nat) (flg_unc1 : Int)
    (lenInd len1 len2 : Nat) (hind : nnz1 ≤ lenInd)
    (hrange : ∀ i, i < nnz1 → ind1 i < len2)
    (hvec1 : if flg_unc1 = 0 then nnz1 ≤ len1 else ∀ i, i < nnz1 → ind1 i < len1) :
    (∃ reads, mju_dotSparse_reads nnz1 ind1 flg_unc1 = some reads ∧
      ∀ e, e ∈ reads → Read.InRange lenInd len1 len2 e) ∧
    (∃ i acc, unrolledLoopReads ind1 flg_unc1 ((nnz1 : Int) - 4) nnz1 0 [] = some (i, acc) ∧
      i ≤ nnz1 ∧ (∀ p, Read.ind1 p ∈ acc → p + 1 ≤ nnz1) ∧
      (∀ e, e ∈ acc → Read.InRange lenInd len1 len2 e) ∧
      (nnz1 < 4 → i = 0 ∧ acc = [])) := by
  have hP := termReads_inRange ind1 flg_unc1 nnz1 lenInd len1 len2 hind hrange hvec1
  have hQ : ∀ p, p < nnz1 → ∀ e, e ∈ termReads ind1 flg_unc1 p →
      (Read.InRange lenInd len1 len2 e ∧ ∀ q, e = Read.ind1 q → q + 1 ≤ nnz1) := by
    intro p hp e he
    refine ⟨hP p hp e he, ?_⟩
    intro q hq
    subst hq
    unfold termReads at he
    split at he <;> simp at he <;> omega
  obtain ⟨i, acc, h1, h2, h3, h4⟩ := unrolledLoopReads_spec ind1 flg_unc1 nnz1 _ hQ nnz1 0 []
    (Nat.zero_le _) (by omega) (by simp)
  refine ⟨?_, i, acc, h1, h2, fun p hp => (h3 _ hp).2 p rfl, fun e he => (h3 e he).1,
    fun h => h4 (by omega)⟩
  obtain ⟨reads, g1, g2⟩ := scalarLoopReads_spec ind1 flg_unc1 nnz1 _ hP nnz1 i acc (by omega)
    (fun e he => (h3 e he).1)
  refine ⟨reads, ?_, g2⟩
  unfold mju_dotSparse_reads
  simp only [h1]
  exact g1

/-- Witness of C27: five entries at the indices 0, 2, 3, 5, 6 of vectors of
length 7, compressed layout. -/
theorem mju_dotSparse_reads_inRange_witness :
    (∃ reads, mju_dotSparse_reads 5 (fun i => [0, 2, 3, 5, 6].getD i 9) 0 = some reads ∧
      ∀ e, e ∈ reads → Read.InRange 5 5 7 e) ∧
    (∃ i acc, unrolledLoopReads (fun i => [0, 2, 3, 5, 6].getD i 9) 0 (((5 : Nat) : Int) - 4) 5 0 []
        = some (i, acc) ∧
      i ≤ 5 ∧ (∀ p, Read.ind1 p ∈ acc → p + 1 ≤ 5) ∧
      (∀ e, e ∈ acc → Read.InRange 5 5 7 e) ∧
      (5 < 4 → i = 0 ∧ acc = [])) :=
  mju_dotSparse_reads_inRange 5 (fun i => [0, 2, 3, 5, 6].getD i 9) 0 5 5 7 (by decide)
    (by decide) (by decide)

/-! ## The scans of the constructor -/

theorem foldlM_range_succ {ε σ : Type} (f : σ → Nat → Except ε σ) (n : Nat) (s : σ) :
    (List.range (n + 1)).foldlM f s = (List.range n).foldlM f s >>= fun s2 => f s2 n := by
  rw [List.range_succ, List.foldlM_append]
  congr 1
  funext s2
  simp [List.foldlM]

theorem foldlM_range_induction {ε σ : Type} (f : σ → Nat → Except ε σ)
    (P : Nat → Except ε σ → Prop) (n : Nat) (s0 : σ) (h0 : P 0 (.ok s0))
    (hstep : ∀ i r, i < n → P i r → P (i + 1) (r >>= fun s => f s i)) :
    P n ((List.range n).foldlM f s0) := by
  induction n with
  | zero => simpa [List.foldlM] using h0
  | succ n ih =>
    rw [foldlM_range_succ]
    exact hstep n _ (Nat.lt_succ_self n)
      (ih (fun i r hi hP => hstep i r (Nat.lt_succ_of_lt hi) hP))

theorem foldlM_check {ε : Type} (bad : Nat → Prop) [DecidablePred bad] (e : ε) (n : Nat) :
    (List.range n).foldlM (fun (_ : Unit) (k : Nat) =>
        if bad k then (Except.error e : Except ε Unit) else .ok ()) () =
      if ∃ k, k < n ∧ bad k then .error e else .ok () := by
  induction n with
  | zero => simp [List.foldlM]; rfl
  | succ n ih =>
    rw [foldlM_range_succ, ih]
    by_cases h : ∃ k, k < n ∧ bad k
    · have h2 : ∃ k, k < n + 1 ∧ bad k := by
        obtain ⟨k, hk, hb⟩ := h
        exact ⟨k, by omega, hb⟩
      rw [if_pos h, if_pos h2]
      rfl
    · rw [if_neg h]
      by_cases hb : bad n
      · have h2 : ∃ k, k < n + 1 ∧ bad k := ⟨n, by omega, hb⟩
        rw [if_pos h2]
        show (if bad n then _ else _) = _
        rw [if_pos hb]
      · have h2 : ¬ ∃ k, k < n + 1 ∧ bad k := by
          rintro ⟨k, hk, hbk⟩
          by_cases hkn : k = n
          · exact hb (hkn ▸ hbk)
          · exact h ⟨k, by omega, hbk⟩
        rw [if_neg h2]
        show (if bad n then _ else _) = _
        rw [if_neg hb]

theorem checkElements_eq {R : Type} (m : mjModel R) (inst : Int) (kNumVerts : Nat) (f0 : Int) :
    (ForeignBody m inst kNumVerts f0 →
      checkElements m inst kNumVerts f0 =
        .error (.mju_error "Body %d does not have plugin instance %d")) ∧
    (¬ ForeignBody m inst kNumVerts f0 → checkElements m inst kNumVerts f0 = .ok ()) := by
  unfold checkElements
  have hinner : (fun (_ : Unit) (t : Nat) =>
      (List.range kNumVerts).foldlM
        (fun (_ : Unit) (i : Nat) =>
          if elementBody m f0 t i ≠ 0 ∧ m.body_plugin (elementBody m f0 t i) ≠ inst then
            (Except.error (Fault.mju_error "Body %d does not have plugin instance %d") :
              Except Fault Unit)
          else .ok ())
        ()) =
      fun (_ : Unit) (t : Nat) =>
        if ∃ i, i < kNumVerts ∧
            (elementBody m f0 t i ≠ 0 ∧ m.body_plugin (elementBody m f0 t i) ≠ inst) then
          (Except.error (Fault.mju_error "Body %d does not have plugin instance %d") :
            Except Fault Unit)
        else .ok () := by
    funext _ t
    exact foldlM_check
      (fun i => elementBody m f0 t i ≠ 0 ∧ m.body_plugin (elementBody m f0 t i) ≠ inst) _ _
  rw [hinner, foldlM_check (fun t => ∃ i, i < kNumVerts ∧
    (elementBody m f0 t i ≠ 0 ∧ m.body_plugin (elementBody m f0 t i) ≠ inst))]
  unfold ForeignBody
  exact ⟨fun h => if_pos h, fun h => if_neg h⟩
theorem countPluginBodies_spec {R : Type} (m : mjModel R) (inst : Int) (i0_init : Int) :
    0 ≤ (countPluginBodies m inst i0_init).1 ∧
    ((countPluginBodies m inst i0_init).1 = 0 →
      (countPluginBodies m inst i0_init).2 = i0_init ∧
      ∀ k : Nat, k < (m.nbody - 1).toNat → m.body_plugin (1 + (k : Int)) ≠ inst) ∧
    ((countPluginBodies m inst i0_init).1 ≠ 0 →
      ∃ k : Nat, k < (m.nbody - 1).toNat ∧ (countPluginBodies m inst i0_init).2 = 1 + (k : Int) ∧
        m.body_plugin (1 + (k : Int)) = inst ∧
        ∀ k2 : Nat, k2 < k → m.body_plugin (1 + (k2 : Int)) ≠ inst) := by
  unfold countPluginBodies
  apply foldl_range_induction
    (fun (st : Int × Int) (k : Nat) =>
      if m.body_plugin (1 + (k : Int)) = inst then
        (st.1 + 1, if st.1 = 0 then 1 + (k : Int) else st.2)
      else st)
    (fun n st => 0 ≤ st.1 ∧
      (st.1 = 0 → st.2 = i0_init ∧ ∀ k : Nat, k < n → m.body_plugin (1 + (k : Int)) ≠ inst) ∧
      (st.1 ≠ 0 → ∃ k : Nat, k < n ∧ st.2 = 1 + (k : Int) ∧
        m.body_plugin (1 + (k : Int)) = inst ∧
        ∀ k2 : Nat, k2 < k → m.body_plugin (1 + (k2 : Int)) ≠ inst))
  · exact ⟨le_refl _, fun _ => ⟨rfl, fun k hk => absurd hk (Nat.not_lt_zero k)⟩,
      fun h => absurd rfl h⟩
  · intro n st _ hst
    obtain ⟨h0, h1, h2⟩ := hst
    by_cases hb : m.body_plugin (1 + (n : Int)) = inst
    · simp only [hb, if_true]
      refine ⟨by omega, fun h => by omega, fun _ => ?_⟩
      by_cases hz : st.1 = 0
      · obtain ⟨-, hnone⟩ := h1 hz
        exact ⟨n, by omega, by simp [hz], hb, fun k2 hk2 => hnone k2 hk2⟩
      · obtain ⟨k, hk, hk1, hk2, hk3⟩ := h2 hz
        exact ⟨k, by omega, by simp [hz, hk1], hk2, hk3⟩
    · simp only [hb, if_false]
      refine ⟨h0, fun h => ?_, fun h => ?_⟩
      · obtain ⟨g1, g2⟩ := h1 h
        refine ⟨g1, fun k hk => ?_⟩
        by_cases hkn : k = n
        · subst hkn; exact hb
        · exact g2 k (by omega)
      · obtain ⟨k, hk, hk1, hk2, hk3⟩ := h2 h
        exact ⟨k, by omega, hk1, hk2, hk3⟩

theorem countPluginBodies_first {R : Type} (m : mjModel R) (inst : Int) (i0_init : Int)
    (hex : ∃ i : Int, 1 ≤ i ∧ i < m.nbody ∧ m.body_plugin i = inst) :
    IsFirstPluginBody m inst (countPluginBodies m inst i0_init).2 := by
  obtain ⟨-, h1, h2⟩ := countPluginBodies_spec m inst i0_init
  obtain ⟨i, hi1, hi2, hi3⟩ := hex
  have hnz : (countPluginBodies m inst i0_init).1 ≠ 0 := by
    intro hz
    have := (h1 hz).2 (i - 1).toNat (by omega)
    rw [show 1 + (((i - 1).toNat : Nat) : Int) = i by omega] at this
    exact this hi3
  obtain ⟨k, hk, hk1, hk2, hk3⟩ := h2 hnz
  rw [hk1]
  refine ⟨by omega, by omega, hk2, ?_⟩
  intro i2 g1 g2 g3
  by_contra hlt
  have := hk3 (i2 - 1).toNat (by omega)
  rw [show 1 + (((i2 - 1).toNat : Nat) : Int) = i2 by omega] at this
  exact this g3

theorem scanFlexRow_spec {R : Type} (m : mjModel R) (i0 : Int) (i : Nat) (st : Int × Int)
    (n : Nat) :
    ((¬ ∃ j : Nat, j < n ∧ m.flex_vertbodyid (m.flex_vertadr i + j) = i0) →
      (List.range n).foldlM (fun (st : Int × Int) (j : Nat) => scanFlexVertex m i0 i st j) st
        = .ok st) ∧
    ((∃ j : Nat, j < n ∧ m.flex_vertbodyid (m.flex_vertadr i + j) = i0) →
      (m.flex_dim i ≠ 3 →
        (List.range n).foldlM (fun (st : Int × Int) (j : Nat) => scanFlexVertex m i0 i st j) st
          = .error (.mju_error "mujoco.elasticity.solid requires a 3D mesh")) ∧
      (m.flex_dim i = 3 →
        (List.range n).foldlM (fun (st : Int × Int) (j : Nat) => scanFlexVertex m i0 i st j) st
          = .ok ((i : Int), m.flex_vertnum i))) := by
  induction n with
  | zero =>
    refine ⟨fun _ => by simp [List.foldlM]; rfl, ?_⟩
    rintro ⟨j, hj, -⟩
    omega
  | succ n ih =>
    obtain ⟨ih1, ih2⟩ := ih
    rw [foldlM_range_succ]
    by_cases hprev : ∃ j : Nat, j < n ∧ m.flex_vertbodyid (m.flex_vertadr i + j) = i0
    · have hnow : ∃ j : Nat, j < n + 1 ∧ m.flex_vertbodyid (m.flex_vertadr i + j) = i0 := by
        obtain ⟨j, hj, hm⟩ := hprev
        exact ⟨j, by omega, hm⟩
      refine ⟨fun h => absurd hnow h, fun _ => ⟨fun hd => ?_, fun hd => ?_⟩⟩
      · rw [(ih2 hprev).1 hd]; rfl
      · rw [(ih2 hprev).2 hd]
        show scanFlexVertex m i0 i _ _ = _
        unfold scanFlexVertex
        by_cases hm : m.flex_vertbodyid (m.flex_vertadr (i : Int) + (n : Int)) = i0
        · simp [hm, hd]
        · simp [hm]
    · rw [ih1 hprev]
      show ((¬ _) → scanFlexVertex m i0 i st n = _) ∧ (_ → (_ → scanFlexVertex m i0 i st n = _) ∧
        (_ → scanFlexVertex m i0 i st n = _))
      unfold scanFlexVertex
      by_cases hm : m.flex_vertbodyid (m.flex_vertadr (i : Int) + (n : Int)) = i0
      · refine ⟨fun h => absurd ⟨n, by omega, hm⟩ h, fun _ => ⟨fun hd => ?_, fun hd => ?_⟩⟩
        · simp [hm, hd]
        · simp [hm, hd]
      · refine ⟨fun _ => by simp [hm], ?_⟩
        rintro ⟨j, hj, hjm⟩
        by_cases hjn : j = n
        · subst hjn; exact absurd hjm hm
        · exact absurd ⟨j, by omega, hjm⟩ hprev

theorem scanFlexes_inv {R : Type} (m : mjModel R) (i0 : Int) (nv : Int) (n : Nat) :
    match (List.range n).foldlM
        (fun (st : Int × Int) (i : Nat) =>
          (List.range (m.flex_vertnum i).toNat).foldlM
            (fun (st : Int × Int) (j : Nat) => scanFlexVertex m i0 i st j) st)
        ((-1 : Int), nv) with
    | .error e => e = .mju_error "mujoco.elasticity.solid requires a 3D mesh" ∧
        ∃ i : Nat, i < n ∧ Attached m i0 i ∧ m.flex_dim i ≠ 3
    | .ok st => (∀ i : Nat, i < n → Attached m i0 i → m.flex_dim i = 3) ∧
        ((st = ((-1 : Int), nv) ∧ ∀ i : Nat, i < n → ¬ Attached m i0 i) ∨
          ∃ i : Nat, i < n ∧ Attached m i0 i ∧ st = ((i : Int), m.flex_vertnum i) ∧
            ∀ i2 : Nat, i2 < n → Attached m i0 i2 → i2 ≤ i) := by
  induction n with
  | zero =>
    simp only [List.range_zero, List.foldlM, pure, Except.pure]
    refine ⟨fun i hi => absurd hi (Nat.not_lt_zero i),
      Or.inl ⟨?_, fun i hi => absurd hi (Nat.not_lt_zero i)⟩⟩
    first | rfl | trivial
  | succ n ih =>
    rw [foldlM_range_succ]
    generalize (List.range n).foldlM
        (fun (st : Int × Int) (i : Nat) =>
          (List.range (m.flex_vertnum i).toNat).foldlM
            (fun (st : Int × Int) (j : Nat) => scanFlexVertex m i0 i st j) st)
        ((-1 : Int), nv) = r at ih
    cases r with
    | error e =>
      obtain ⟨he, i, hi, ha, hd⟩ := ih
      exact ⟨he, i, by omega, ha, hd⟩
    | ok st =>
      obtain ⟨hdim, hst⟩ := ih
      obtain ⟨row1, row2⟩ := scanFlexRow_spec m i0 n st (m.flex_vertnum n).toNat
      show match (List.range (m.flex_vertnum n).toNat).foldlM
        (fun (st : Int × Int) (j : Nat) => scanFlexVertex m i0 n st j) st with
        | .error e => _
        | .ok st => _
      by_cases hatt : Attached m i0 n
      · by_cases hd : m.flex_dim n = 3
        · rw [(row2 hatt).2 hd]
          refine ⟨fun i hi ha => ?_, Or.inr ⟨n, by omega, hatt, rfl, fun i2 hi2 _ => by omega⟩⟩
          by_cases hin : i = n
          · subst hin; exact hd
          · exact hdim i (by omega) ha
        · rw [(row2 hatt).1 hd]
          exact ⟨rfl, n, by omega, hatt, hd⟩
      · rw [row1 hatt]
        refine ⟨fun i hi ha => ?_, ?_⟩
        · by_cases hin : i = n
          · subst hin; exact absurd ha hatt
          · exact hdim i (by omega) ha
        · rcases hst with ⟨h1, h2⟩ | ⟨i, hi, ha, hs, hmax⟩
          · refine Or.inl ⟨h1, fun i hi ha => ?_⟩
            by_cases hin : i = n
            · subst hin; exact hatt ha
            · exact h2 i (by omega) ha
          · refine Or.inr ⟨i, by omega, ha, hs, fun i2 hi2 ha2 => ?_⟩
            by_cases hin : i2 = n
            · subst hin; exact absurd ha2 hatt
            · exact hmax i2 (by omega) ha2

theorem scanFlexes_spec {R : Type} (m : mjModel R) (i0 : Int) (nv : Int) :
    (NotThreeD m i0 →
      scanFlexes m i0 nv = .error (.mju_error "mujoco.elasticity.solid requires a 3D mesh")) ∧
    (¬ NotThreeD m i0 →
      ∃ f0 nv2, scanFlexes m i0 nv = .ok (f0, nv2) ∧ IsLastFlex m i0 f0 ∧
        (0 ≤ f0 → nv2 = m.flex_vertnum f0)) := by
  have h := scanFlexes_inv m i0 nv m.nflex.toNat
  unfold scanFlexes
  generalize (List.range m.nflex.toNat).foldlM
      (fun (st : Int × Int) (i : Nat) =>
        (List.range (m.flex_vertnum i).toNat).foldlM
          (fun (st : Int × Int) (j : Nat) => scanFlexVertex m i0 i st j) st)
      ((-1 : Int), nv) = r at h
  cases r with
  | error e =>
    obtain ⟨he, i, hi, ha, hd⟩ := h
    subst he
    exact ⟨fun _ => rfl, fun hn => absurd ⟨i, hi, ha, hd⟩ hn⟩
  | ok st =>
    obtain ⟨hdim, hst⟩ := h
    have hno : ¬ NotThreeD m i0 := by
      rintro ⟨i, hi, ha, hd⟩
      exact hd (hdim i hi ha)
    refine ⟨fun hyes => absurd hyes hno, fun _ => ⟨st.1, st.2, rfl, ?_, ?_⟩⟩
    · rcases hst with ⟨h1, h2⟩ | ⟨i, hi, ha, hs, hmax⟩
      · exact Or.inl ⟨by rw [h1], h2⟩
      · exact Or.inr ⟨i, by rw [hs], hi, ha, hmax⟩
    · intro hpos
      rcases hst with ⟨h1, -⟩ | ⟨i, -, -, hs, -⟩
      · rw [h1] at hpos
        simp at hpos
      · rw [hs]

theorem isLastFlex_unique {R : Type} (m : mjModel R) (i0 : Int) (f0 f1 : Int)
    (h0 : IsLastFlex m i0 f0) (h1 : IsLastFlex m i0 f1) : f0 = f1 := by
  rcases h0 with ⟨a1, a2⟩ | ⟨i, a1, a2, a3, a4⟩ <;>
    rcases h1 with ⟨b1, b2⟩ | ⟨j, b1, b2, b3, b4⟩
  · rw [a1, b1]
  · exact absurd b3 (a2 j b2)
  · exact absurd a3 (b2 i a2)
  · have := a4 j b2 b3
    have := b4 i a2 a3
    rw [a1, b1]
    congr 1
    omega

theorem exists_isLastFlex {R : Type} (m : mjModel R) (i0 : Int) : ∃ f0, IsLastFlex m i0 f0 := by
  have key : ∀ n : Nat, (∀ i : Nat, i < n → ¬ Attached m i0 i) ∨
      ∃ i : Nat, i < n ∧ Attached m i0 i ∧ ∀ i2 : Nat, i2 < n → Attached m i0 i2 → i2 ≤ i := by
    intro n
    induction n with
    | zero => exact Or.inl (fun i hi => absurd hi (Nat.not_lt_zero i))
    | succ n ih =>
      by_cases hatt : Attached m i0 n
      · exact Or.inr ⟨n, by omega, hatt, fun i2 hi2 _ => by omega⟩
      · rcases ih with h | ⟨i, hi, ha, hmax⟩
        · refine Or.inl (fun i hi ha => ?_)
          by_cases hin : i = n
          · subst hin; exact hatt ha
          · exact h i (by omega) ha
        · refine Or.inr ⟨i, by omega, ha, fun i2 hi2 ha2 => ?_⟩
          by_cases hin : i2 = n
          · subst hin; exact absurd ha2 hatt
          · exact hmax i2 (by omega) ha2
  rcases key m.nflex.toNat with h | ⟨i, hi, ha, hmax⟩
  · exact ⟨-1, Or.inl ⟨rfl, h⟩⟩
  · exact ⟨i, Or.inr ⟨i, rfl, hi, ha, hmax⟩⟩

/-! ## The constructor as a whole -/

theorem Solid.new_cases {R : Type} [Zero R] (kNumVerts : Nat) (i0_init : Int)
    (m : mjModel R) (d : mjData R) (inst : Int) (nu E damp : R) :
    (NotThreeD m (countPluginBodies m inst i0_init).2 →
      Solid.new kNumVerts i0_init m d inst nu E damp =
        .error (.mju_error "mujoco.elasticity.solid requires a 3D mesh")) ∧
    (¬ NotThreeD m (countPluginBodies m inst i0_init).2 →
      ∃ f0 nv2, IsLastFlex m (countPluginBodies m inst i0_init).2 f0 ∧
        (0 ≤ f0 → nv2 = m.flex_vertnum f0) ∧
        (ForeignBody m inst kNumVerts f0 →
          Solid.new kNumVerts i0_init m d inst nu E damp =
            .error (.mju_error "Body %d does not have plugin instance %d")) ∧
        (¬ ForeignBody m inst kNumVerts f0 →
          ((m.flex_edgenum f0 < 0 ∨ 3 * nv2 < 0) →
            Solid.new kNumVerts i0_init m d inst nu E damp = .error .length_error) ∧
          (¬ (m.flex_edgenum f0 < 0 ∨ 3 * nv2 < 0) →
            Solid.new kNumVerts i0_init m d inst nu E damp =
              .ok { i0 := (countPluginBodies m inst i0_init).2, f0 := f0, nv := nv2
                    ne := m.flex_edgenum f0, damping := damp
                    elongation := List.replicate (m.flex_edgenum f0).toNat 0
                    force := List.replicate (3 * nv2).toNat 0
                    prev := [] }))) := by
  obtain ⟨s1, s2⟩ := scanFlexes_spec m (countPluginBodies m inst i0_init).2
    (countPluginBodies m inst i0_init).1
  refine ⟨fun h => ?_, fun h => ?_⟩
  · unfold Solid.new
    simp only [s1 h]
  · obtain ⟨f0, nv2, hscan, hlast, hnv⟩ := s2 h
    obtain ⟨e1, e2⟩ := checkElements_eq m inst kNumVerts f0
    refine ⟨f0, nv2, hlast, hnv, fun hf => ?_, fun hf => ⟨fun hneg => ?_, fun hneg => ?_⟩⟩
    · unfold Solid.new
      simp only [hscan, e1 hf]
    · unfold Solid.new
      simp only [hscan, e2 hf, hneg, if_true]
    · unfold Solid.new
      simp only [hscan, e2 hf, hneg, if_false]

/-- C22: the construction of a `Solid` raises a fatal error (`mju_error`) if and
only if some flex having a vertex attached to the body `i0` has `flex_dim != 3`,
or some vertex of some element of the flex `f0` is attached to a body `bi != 0`
with `body_plugin[bi] != instance`; here `i0` is the value left by the scan of
the bodies and `f0` the largest flex with a vertex attached to `i0` (-1 if
none). A vertex attached to the world body (`bi == 0`) is not a cause. -/
theorem Solid.new_mju_error_iff {R : Type} [Zero R] (kNumVerts : Nat) (i0_init : Int)
    (m : mjModel R) (d : mjData R) (inst : Int) (nu E damp : R) (f0 : Int)
    (hf0 : IsLastFlex m (countPluginBodies m inst i0_init).2 f0) :
    (∃ msg, Solid.new kNumVerts i0_init m d inst nu E damp = .error (.mju_error msg)) ↔
      (NotThreeD m (countPluginBodies m inst i0_init).2 ∨ ForeignBody m inst kNumVerts f0) := by
  obtain ⟨c1, c2⟩ := Solid.new_cases kNumVerts i0_init m d inst nu E damp
  by_cases hA : NotThreeD m (countPluginBodies m inst i0_init).2
  · exact ⟨fun _ => Or.inl hA, fun _ => ⟨_, c1 hA⟩⟩
  · obtain ⟨f1, nv2, hlast, -, g1, g2⟩ := c2 hA
    have hf : f1 = f0 := isLastFlex_unique m _ f1 f0 hlast hf0
    subst hf
    by_cases hB : ForeignBody m inst kNumVerts f1
    · exact ⟨fun _ => Or.inr hB, fun _ => ⟨_, g1 hB⟩⟩
    · constructor
      · rintro ⟨msg, hmsg⟩
        exfalso
        by_cases hneg : m.flex_edgenum f1 < 0 ∨ 3 * nv2 < 0
        · rw [(g2 hB).1 hneg] at hmsg
          cases hmsg
        · rw [(g2 hB).2 hneg] at hmsg
          cases hmsg
      · rintro (h | h)
        · exact absurd h hA
        · exact absurd h hB

/-- C29 as stated fails: in a model with no body besides the world the scan of
the bodies never assigns `i0`, the construction succeeds and `i0` keeps its
indeterminate value (77 here), which is no body index with the plugin. -/
theorem Solid.new_i0_counterexample :
    ∃ s, Solid.new 4 77 demoEmptyModel demoData 0 (1 / 3) 1000 (1 / 50) = .ok s ∧
      s.i0 = 77 ∧ ¬ IsFirstPluginBody demoEmptyModel 0 s.i0 ∧
      ¬ ∃ i : Int, 1 ≤ i ∧ i < demoEmptyModel.nbody ∧ demoEmptyModel.body_plugin i = 0 := by
  refine ⟨{ i0 := 77, f0 := -1, nv := 0, ne := 0, damping := 1 / 50, elongation := [],
            force := [], prev := [] }, rfl, rfl, ?_, ?_⟩
  · rintro ⟨-, h2, -⟩
    exact absurd h2 (by decide)
  · rintro ⟨i, h1, h2, -⟩
    have h3 : demoEmptyModel.nbody = 1 := rfl
    omega
/-- Witness of C22 on a model with one 3D flex attached to the plugin bodies:
flex 0 is the last flex with a vertex on body 1. -/
theorem Solid.new_mju_error_iff_witness :
    (∃ msg, Solid.new 4 77 demoFlexModel demoData 0 (1 / 3) 1000 (1 / 50) =
        .error (.mju_error msg)) ↔
      (NotThreeD demoFlexModel (countPluginBodies demoFlexModel 0 77).2 ∨
        ForeignBody demoFlexModel 0 4 0) :=
  Solid.new_mju_error_iff 4 77 demoFlexModel demoData 0 (1 / 3) 1000 (1 / 50) 0
    (Or.inr ⟨0, rfl, by decide, ⟨0, by decide, by decide⟩, fun i2 h _ => by
      have h1 : demoFlexModel.nflex.toNat = 1 := rfl
      omega⟩)

/-- C29 amended: if some body `i >= 1` has `body_plugin[i] == instance` and the
construction succeeds, then `i0` is the smallest such body index and `f0` is the
largest flex index having at least one vertex attached to the body `i0`, or -1
if no flex has such a vertex; when `f0 >= 0`, `nv == flex_vertnum[f0]`,
`ne == flex_edgenum[f0]`, `elongation` has `ne` entries all 0 and `force` has
`3*nv` entries all 0. -/
theorem Solid.new_state {R : Type} [Zero R] (kNumVerts : Nat) (i0_init : Int)
    (m : mjModel R) (d : mjData R) (inst : Int) (nu E damp : R) (s : Solid R)
    (hex : ∃ i : Int, 1 ≤ i ∧ i < m.nbody ∧ m.body_plugin i = inst)
    (hok : Solid.new kNumVerts i0_init m d inst nu E damp = .ok s) :
    IsFirstPluginBody m inst s.i0 ∧ IsLastFlex m s.i0 s.f0 ∧
      (0 ≤ s.f0 →
        s.nv = m.flex_vertnum s.f0 ∧ s.ne = m.flex_edgenum s.f0 ∧
        0 ≤ s.ne ∧ s.elongation = List.replicate s.ne.toNat 0 ∧
        0 ≤ 3 * s.nv ∧ s.force = List.replicate (3 * s.nv).toNat 0) := by
  obtain ⟨c1, c2⟩ := Solid.new_cases kNumVerts i0_init m d inst nu E damp
  have hfirst := countPluginBodies_first m inst i0_init hex
  by_cases hA : NotThreeD m (countPluginBodies m inst i0_init).2
  · rw [c1 hA] at hok
    cases hok
  · obtain ⟨f0, nv2, hlast, hnv, g1, g2⟩ := c2 hA
    by_cases hB : ForeignBody m inst kNumVerts f0
    · rw [g1 hB] at hok
      cases hok
    · by_cases hneg : m.flex_edgenum f0 < 0 ∨ 3 * nv2 < 0
      · rw [(g2 hB).1 hneg] at hok
        cases hok
      · rw [(g2 hB).2 hneg] at hok
        cases hok
        refine ⟨hfirst, hlast, fun hpos => ⟨hnv hpos, rfl, ?_, rfl, ?_, rfl⟩⟩
        · show 0 ≤ m.flex_edgenum f0
          omega
        · show 0 ≤ 3 * nv2
          omega

/-- Witness of C29 amended on a model with one 3D flex attached to the plugin
bodies 1 and 2. -/
theorem Solid.new_state_witness :
    IsFirstPluginBody demoFlexModel 0 (1 : Int) ∧ IsLastFlex demoFlexModel (1 : Int) (0 : Int) ∧
      ((0 : Int) ≤ 0 →
        (4 : Int) = demoFlexModel.flex_vertnum 0 ∧ (2 : Int) = demoFlexModel.flex_edgenum 0 ∧
        (0 : Int) ≤ 2 ∧ ([0, 0] : List Rat) = List.replicate (2 : Int).toNat 0 ∧
        (0 : Int) ≤ 3 * 4 ∧
        ([0, 0, 0, 0, 0, 0, 0, 0, 0, 0, 0, 0] : List Rat) =
          List.replicate (3 * (4 : Int)).toNat 0) :=
  Solid.new_state 4 77 demoFlexModel demoData 0 (1 / 3) 1000 (1 / 50)
    { i0 := 1, f0 := 0, nv := 4, ne := 2, damping := 1 / 50, elongation := [0, 0],
      force := [0, 0, 0, 0, 0, 0, 0, 0, 0, 0, 0, 0], prev := [] }
    ⟨1, by decide, by decide, by decide⟩ rfl

/-- C23: `Solid::Create` returns the empty optional if and only if at least one
of the attributes "face", "edge", "poisson", "young" fails `CheckAttr`; it then
has emitted the warning and has neither run the constructor nor raised. When
the four checks pass, no warning is emitted and the result is that of the
constructor. The outcome does not depend on what `CheckAttr` says of any other
attribute ("damping", "thickness"). -/
theorem Solid.Create_nullopt_iff {R : Type} [Zero R] (kNumVerts : Nat) (i0_init : Int)
    (CheckAttr : String → mjModel R → Int → Bool)
    (mj_getPluginConfig : mjModel R → Int → String → String) (strtod : String → R)
    (m : mjModel R) (d : mjData R) (inst : Int) :
    ((Solid.Create kNumVerts i0_init CheckAttr mj_getPluginConfig strtod m d inst).value
        = .ok none ↔
      (CheckAttr "face" m inst = false ∨ CheckAttr "edge" m inst = false ∨
        CheckAttr "poisson" m inst = false ∨ CheckAttr "young" m inst = false)) ∧
    ((CheckAttr "face" m inst = false ∨ CheckAttr "edge" m inst = false ∨
        CheckAttr "poisson" m inst = false ∨ CheckAttr "young" m inst = false) →
      Solid.Create kNumVerts i0_init CheckAttr mj_getPluginConfig strtod m d inst =
        { warnings := ["Invalid parameter specification in solid plugin"], value := .ok none }) ∧
    ((CheckAttr "face" m inst = true ∧ CheckAttr "edge" m inst = true ∧
        CheckAttr "poisson" m inst = true ∧ CheckAttr "young" m inst = true) →
      Solid.Create kNumVerts i0_init CheckAttr mj_getPluginConfig strtod m d inst =
        { warnings := []
          value := (Solid.new kNumVerts i0_init m d inst
            (strtod (mj_getPluginConfig m inst "poisson"))
            (strtod (mj_getPluginConfig m inst "young"))
            (strtod (mj_getPluginConfig m inst "damping"))).map some }) ∧
    (∀ CheckAttr2 : String → mjModel R → Int → Bool,
      CheckAttr2 "face" m inst = CheckAttr "face" m inst →
      CheckAttr2 "edge" m inst = CheckAttr "edge" m inst →
      CheckAttr2 "poisson" m inst = CheckAttr "poisson" m inst →
      CheckAttr2 "young" m inst = CheckAttr "young" m inst →
      Solid.Create kNumVerts i0_init CheckAttr2 mj_getPluginConfig strtod m d inst =
        Solid.Create kNumVerts i0_init CheckAttr mj_getPluginConfig strtod m d inst) := by
  have hfail : (CheckAttr "face" m inst = false ∨ CheckAttr "edge" m inst = false ∨
        CheckAttr "poisson" m inst = false ∨ CheckAttr "young" m inst = false) →
      Solid.Create kNumVerts i0_init CheckAttr mj_getPluginConfig strtod m d inst =
        { warnings := ["Invalid parameter specification in solid plugin"],
          value := .ok none } := by
    intro h
    unfold Solid.Create
    rcases h with h | h | h | h <;> simp [h]
  have hpass : (CheckAttr "face" m inst = true ∧ CheckAttr "edge" m inst = true ∧
        CheckAttr "poisson" m inst = true ∧ CheckAttr "young" m inst = true) →
      Solid.Create kNumVerts i0_init CheckAttr mj_getPluginConfig strtod m d inst =
        { warnings := []
          value := (Solid.new kNumVerts i0_init m d inst
            (strtod (mj_getPluginConfig m inst "poisson"))
            (strtod (mj_getPluginConfig m inst "young"))
            (strtod (mj_getPluginConfig m inst "damping"))).map some } := by
    rintro ⟨h1, h2, h3, h4⟩
    unfold Solid.Create
    simp [h1, h2, h3, h4]
  refine ⟨⟨fun hv => ?_, fun h => by rw [hfail h]⟩, hfail, hpass, ?_⟩
  · by_contra hcon
    have hall : CheckAttr "face" m inst = true ∧ CheckAttr "edge" m inst = true ∧
        CheckAttr "poisson" m inst = true ∧ CheckAttr "young" m inst = true := by
      refine ⟨?_, ?_, ?_, ?_⟩ <;>
        · cases hc : CheckAttr _ m inst
          · exact absurd (by simp [hc]) hcon
          · rfl
    rw [hpass hall] at hv
    simp only at hv
    cases hnew : Solid.new kNumVerts i0_init m d inst
        (strtod (mj_getPluginConfig m inst "poisson"))
        (strtod (mj_getPluginConfig m inst "young"))
        (strtod (mj_getPluginConfig m inst "damping")) with
    | error e => rw [hnew] at hv; cases hv
    | ok s => rw [hnew] at hv; cases hv
  · intro CheckAttr2 e1 e2 e3 e4
    unfold Solid.Create
    rw [e1, e2, e3, e4]

/-- C30: the Poisson ratio `nu` and the Young modulus `E` passed to the
constructor have no effect: two constructions that differ only in `nu` and `E`
give the same outcome, hence the same plugin state (`i0`, `f0`, `nv`, `ne`,
`damping`, `elongation`, `force`, `prev`) and the same result of every later
`Solid::Compute`; and `Solid::Create` gives the same outcome for two
configurations that agree on "damping". -/
theorem Solid.new_ignores_nu_E {R : Type} [LinearOrderedField R] (kNumVerts : Nat)
    (i0_init : Int) (m : mjModel R) (d : mjData R) (inst : Int) (nu E nu2 E2 damp : R) :
    Solid.new kNumVerts i0_init m d inst nu E damp =
        Solid.new kNumVerts i0_init m d inst nu2 E2 damp ∧
    (∀ s s2, Solid.new kNumVerts i0_init m d inst nu E damp = .ok s →
      Solid.new kNumVerts i0_init m d inst nu2 E2 damp = .ok s2 →
      s = s2 ∧
      ∀ (computeForce : List R → List R → mjModel R → Int → (Int → R) → List R)
        (addFlexForce : (Int → R) → List R → mjModel R → mjData R → (Int → R) → Int → (Int → R))
        (m2 : mjModel R) (d2 : mjData R) (inst2 : Int),
        (Solid.Compute computeForce addFlexForce s m2 d2 inst2).1.elongation =
          (Solid.Compute computeForce addFlexForce s2 m2 d2 inst2).1.elongation) ∧
    (∀ (CheckAttr : String → mjModel R → Int → Bool)
      (config config2 : mjModel R → Int → String → String) (strtod : String → R),
      config m inst "damping" = config2 m inst "damping" →
      Solid.Create kNumVerts i0_init CheckAttr config strtod m d inst =
        Solid.Create kNumVerts i0_init CheckAttr config2 strtod m d inst) := by
  have h0 : ∀ a b a2 b2 : R, Solid.new kNumVerts i0_init m d inst a b damp =
      Solid.new kNumVerts i0_init m d inst a2 b2 damp := fun _ _ _ _ => rfl
  refine ⟨h0 _ _ _ _, ?_, ?_⟩
  · intro s s2 hs hs2
    rw [h0 nu E nu2 E2, hs2] at hs
    cases hs
    exact ⟨rfl, fun _ _ _ _ _ => rfl⟩
  · intro CheckAttr config config2 strtod hd
    unfold Solid.Create
    rw [hd]
    rfl

end MuJoCo
